import Mathlib

/-!
# go-maglev: weighted Maglev table construction

A shallow embedding of `maglev.go` (`BuildTable` and the types it uses) and
theorems about it.

Modelling decisions, all visible in the definitions below:

* `float64` is modelled bit-exactly as IEEE-754 binary64 with round to nearest,
  ties to even (`F64`); every product is rounded before it is subtracted (no
  fused multiply-add). The sign of a zero is not interpreted (no operation of
  `BuildTable` can observe it).
* `int` is the 64-bit two's complement integer: a value is an `Int`, and `wrap`
  is applied wherever the Go expression can leave the range. The loop counters
  `i` are natural numbers.
* `uint64` values are natural numbers reduced modulo `2^64`; `uint16` table
  cells are natural numbers reduced modulo `2^16`.
* The loops take fuel; running out of fuel is the outcome `timeout`.
* `sort.Slice` is a parameter of `BuildTable`; `goSort` (a stable insertion sort,
  the algorithm the Go library runs on slices shorter than 12) is the instance
  used at concrete inputs.
* Memory is unbounded: `make(Table, tableSize)` always succeeds.
-/

namespace Maglev

/-! ## float64 -/

/-- Evaluate `n`, then continue with it: `withNat n k = k n`. -/
def withNat {α : Type} (n : Nat) (k : Nat → α) : α :=
  match n with
  | 0 => k 0
  | m + 1 => k (m + 1)

/-- A binary64 value. `fin neg m e` is the finite number `(-1)^neg * m * 2^(e - 1074)`;
the values of the format are those with `m < 2^53` and `e ≤ 2045`. -/
inductive F64 where
  | fin (neg : Bool) (m : Nat) (e : Nat)
  | inf (neg : Bool)
  | nan
deriving DecidableEq, Repr

/-- One step of the binary search of `bitLen`. -/
def blStep {α : Type} (s n acc : Nat) (k : Nat → Nat → α) : α :=
  if 2 ^ s ≤ n then withNat (n / 2 ^ s) fun n1 => withNat (acc + s) fun a1 => k n1 a1
  else k n acc

/-- Number of binary digits of `n` (for `n < 2^4096`). -/
def bitLen (n : Nat) : Nat :=
  blStep 2048 n 0 fun n a => blStep 1024 n a fun n a => blStep 512 n a fun n a =>
  blStep 256 n a fun n a => blStep 128 n a fun n a => blStep 64 n a fun n a =>
  blStep 32 n a fun n a => blStep 16 n a fun n a => blStep 8 n a fun n a =>
  blStep 4 n a fun n a => blStep 2 n a fun n a => blStep 1 n a fun n a =>
  if n = 0 then a else a + 1

namespace F64

/-- Positive zero. -/
def zero : F64 := .fin false 0 0

/-- The binary64 nearest to `(-1)^neg * (num / den) * 2^(eb - bias)`, ties to even;
overflow gives an infinity. With `tb - bd - 1 = ⌊log2 (num / den)⌋`, the unit in the
last place of the result has exponent `Qn - off - 1074`, at least that of the
subnormals. -/
def round (neg : Bool) (num den eb bias : Nat) : F64 :=
  if num = 0 then zero else
  withNat (bitLen num) fun bn =>
  withNat (bitLen den) fun bd =>
  withNat (if bd ≤ bn then (if den * 2 ^ (bn - bd) ≤ num then bn + 1 else bn)
           else (if den ≤ num * 2 ^ (bd - bn) then bn + 1 else bn)) fun tb =>
  withNat (bias + bd + 53) fun off =>
  withNat (max (tb + eb + 1074) off) fun Qn =>
  withNat (eb + 1074 + bd + 53) fun eb2 =>
  withNat (if Qn ≤ eb2 then num * 2 ^ (eb2 - Qn) else num) fun N =>
  withNat (if Qn ≤ eb2 then den else den * 2 ^ (Qn - eb2)) fun D =>
  withNat (N / D) fun q =>
  withNat (N % D) fun r =>
  withNat (if D < 2 * r ∨ (2 * r = D ∧ q % 2 = 1) then q + 1 else q) fun q1 =>
  if q1 = 9007199254740992 then
    (if 2045 + off < Qn + 1 then .inf neg else .fin neg 4503599627370496 (Qn + 1 - off))
  else (if 2045 + off < Qn then .inf neg else .fin neg q1 (Qn - off))

/-- A decimal constant `num / den` of the Go source, as the compiler converts it. -/
def lit (num den : Nat) : F64 := round false num den 0 0

/-- `-x`. -/
def neg : F64 → F64
  | .fin s m e => .fin (!s) m e
  | .inf s => .inf (!s)
  | .nan => .nan

/-- `x + y`. -/
def add : F64 → F64 → F64
  | .fin s1 m1 e1, .fin s2 m2 e2 =>
    let e := min e1 e2
    let a := m1 * 2 ^ (e1 - e)
    let b := m2 * 2 ^ (e2 - e)
    if s1 = s2 then round s1 (a + b) 1 e 1074
    else if b ≤ a then round s1 (a - b) 1 e 1074
    else round s2 (b - a) 1 e 1074
  | .fin _ _ _, .inf s => .inf s
  | .inf s, .fin _ _ _ => .inf s
  | .inf s1, .inf s2 => if s1 = s2 then .inf s1 else .nan
  | _, _ => .nan

/-- `x - y`. -/
def sub (a b : F64) : F64 := add a (neg b)

/-- `x * y`. -/
def mul : F64 → F64 → F64
  | .fin s1 m1 e1, .fin s2 m2 e2 => round (s1 != s2) (m1 * m2) 1 (e1 + e2) 2148
  | .fin s1 m _, .inf s => if m = 0 then .nan else .inf (s1 != s)
  | .inf s, .fin s1 m _ => if m = 0 then .nan else .inf (s1 != s)
  | .inf s1, .inf s2 => .inf (s1 != s2)
  | _, _ => .nan

/-- `x / y`. -/
def div : F64 → F64 → F64
  | .fin s1 m1 e1, .fin s2 m2 e2 =>
    if m2 = 0 then (if m1 = 0 then .nan else .inf (s1 != s2))
    else round (s1 != s2) m1 m2 e1 e2
  | .fin s1 _ _, .inf s2 => .fin (s1 != s2) 0 0
  | .inf s, .fin s2 _ _ => .inf (s != s2)
  | _, _ => .nan

/-- `x < y`. -/
def lt : F64 → F64 → Bool
  | .fin s1 m1 e1, .fin s2 m2 e2 =>
    let e := min e1 e2
    let a := m1 * 2 ^ (e1 - e)
    let b := m2 * 2 ^ (e2 - e)
    match s1, s2 with
    | false, false => decide (a < b)
    | false, true => false
    | true, false => decide (0 < a ∨ 0 < b)
    | true, true => decide (b < a)
  | .fin _ _ _, .inf s => !s
  | .inf s, .fin _ _ _ => s
  | .inf s1, .inf s2 => s1 && !s2
  | _, _ => false

/-- `x <= y`. -/
def le : F64 → F64 → Bool
  | .fin s1 m1 e1, .fin s2 m2 e2 =>
    let e := min e1 e2
    let a := m1 * 2 ^ (e1 - e)
    let b := m2 * 2 ^ (e2 - e)
    match s1, s2 with
    | false, false => decide (a ≤ b)
    | false, true => decide (a = 0 ∧ b = 0)
    | true, false => true
    | true, true => decide (b ≤ a)
  | .fin _ _ _, .inf s => !s
  | .inf s, .fin _ _ _ => s
  | .inf s1, .inf s2 => s1 || !s2
  | _, _ => false

/-- `x >= y`. -/
def ge (a b : F64) : Bool := le b a

/-- `x == 0`. -/
def isZero : F64 → Bool
  | .fin _ m _ => decide (m = 0)
  | _ => false

/-- `float64(n)` for an `int` n. -/
def ofInt : Int → F64
  | .ofNat n => round false n 1 0 0
  | .negSucc n => round true (n + 1) 1 0 0

/-- `int(x)`: truncation toward zero. The Go specification leaves the result
implementation-specific when the value does not fit an `int` (also for an infinity
or a NaN): `none`. The conversion succeeds in Go also then, with a value that the
implementation chooses: `F64.toIntWith`. -/
def toInt : F64 → Option Int
  | .fin s m e =>
    let a : Nat := if 1074 ≤ e then m * 2 ^ (e - 1074) else m / 2 ^ (1074 - e)
    if s then (if a ≤ 9223372036854775808 then some (Int.negOfNat a) else none)
    else (if a < 9223372036854775808 then some (Int.ofNat a) else none)
  | _ => none

end F64

/-! ## 64-bit integers -/

/-- The bit pattern of an `int`, read as a `uint64`. -/
def toU64 (x : Int) : Nat := (x % 18446744073709551616).toNat

/-- The `int` with a given bit pattern. -/
def ofU64 (u : Nat) : Int :=
  if u < 9223372036854775808 then (u : Int) else (u : Int) - 18446744073709551616

/-- Reduction of an integer result to the `int` range (two's complement wrap-around). -/
def wrap (x : Int) : Int := ofU64 (toU64 x)

/-- `a & b` on `int`. -/
def and64 (a b : Int) : Int := ofU64 (Nat.land (toU64 a) (toU64 b))

/-- `a | b` on `int`. -/
def or64 (a b : Int) : Int := ofU64 (Nat.lor (toU64 a) (toU64 b))

/-- `a &^ b` (and-not) on `int`. -/
def andNot64 (a b : Int) : Int :=
  ofU64 (Nat.land (toU64 a) (18446744073709551615 - toU64 b))

/-- `uint16(x)` for an `int` x. -/
def uint16 (x : Int) : Nat := toU64 x % 65536

/-! ## The types of `maglev.go` -/

/-- Input definition of a shard: `Hash uint64`, `Weight float64`. -/
structure Shard where
  Hash : Nat
  Weight : F64
deriving DecidableEq, Repr

/-- The result: a mapping from slot to shard, `[]uint16`. -/
abbrev Table := List Nat

/-- The generator of one shard. `sh` is the pointer `&shards[i]`; the slice is never
written, so the pointee is the shard itself. -/
structure shardGen where
  start : Int
  pos : Int
  add : Int
  mult : Int
  cnt : Int
  ix : Int
  w : F64
  sh : Shard
deriving DecidableEq, Repr

/-- `const ga`. -/
def ga : Nat := 0xacd5ad43274593b9

/-- `const gb`. -/
def gb : Nat := 0x6956ab76ed268a3d

/-- How a call of `BuildTable` ends. -/
inductive Outcome where
  /-- a run-time panic -/
  | panic (msg : String)
  /-- `return nil, errors.New(msg)` -/
  | err (msg : String)
  /-- `return table, nil` -/
  | table (t : Table)
  /-- a conversion `int(x)` whose result the Go specification does not fix was reached -/
  | unspecified
  /-- the fuel ran out -/
  | timeout
deriving DecidableEq, Repr

/-- What a run that returns a table went through. `quotas` are the generators when
the quota loop exits (`cnt` is the quota of the shard); `writes` lists the assignments
`table[cur] = uint16(sh.ix)` of the placement loop in order, as `(cur, sh.ix)`;
`table` is the returned table. -/
structure Run where
  quotas : List shardGen
  writes : List (Nat × Int)
  table : Table
deriving DecidableEq, Repr

deriving instance DecidableEq for Except

/-! ## `BuildTable` -/

/-- `sh.Hash = sh.Hash*ga + gb` on `uint64`. -/
def scramble (h : Nat) : Nat := (h * ga + gb) % 18446744073709551616

/-- `highbits := (^uint64(0))/uint64(tableSize) + 1` on `uint64`. -/
def highbitsOf (tableSize : Int) : Nat :=
  (18446744073709551615 / toU64 tableSize + 1) % 18446744073709551616

/-- Lines 71-77: the generator of `shards[i]`. -/
def mkGen (highbits : Nat) (i : Nat) (sh : Shard) : shardGen :=
  let h1 := scramble sh.Hash
  let h2 := scramble h1
  let h3 := scramble h2
  { start := ofU64 (h1 / highbits)
    pos := 0
    add := or64 (ofU64 (h2 / highbits)) 1
    mult := or64 (andNot64 (ofU64 (h3 / highbits)) 3) 5
    cnt := 0
    ix := (i : Int) + 1
    w := F64.zero
    sh := sh }

/-- The loop of lines 67-80 over the remaining shards, `i` the index of the first of
them, `avg` and `gens` the values of `averageWeight` and `generators` so far. The
divisions by `highbits` panic when it is zero. -/
def setupLoop (highbits : Nat) : List Shard → Nat → F64 → List shardGen →
    Except Outcome (F64 × List shardGen)
  | [], _, avg, gens => .ok (avg, gens)
  | sh :: rest, i, avg, gens =>
    if F64.lt sh.Weight F64.zero then .error (.err "weight should be not negative")
    else if highbits = 0 then .error (.panic "runtime error: integer divide by zero")
    else setupLoop highbits rest (i + 1) (F64.add avg sh.Weight) (gens ++ [mkGen highbits i sh])

/-- The loop of lines 98-110, from iteration `i`. Returns `rest` and the generators
at the exit. At a conversion whose value the Go specification leaves open the run is
not followed further (`Outcome.unspecified`); `quotaLoopWith` follows it. -/
def quotaLoop (avg : F64) : Nat → Nat → Int → List shardGen →
    Except Outcome (Int × List shardGen)
  | 0, _, _, _ => .error .timeout
  | fuel + 1, i, rest, gens =>
    if 0 < rest then
      match gens[i % gens.length]? with
      | none => .error (.panic "runtime error: index out of range")
      | some sh =>
        let w := F64.add sh.w sh.sh.Weight
        if F64.ge w avg then
          match F64.toInt (F64.div w avg) with
          | none => .error .unspecified
          | some a =>
            let add := if rest < a then rest else a
            quotaLoop avg fuel (i + 1) (rest - add)
              (gens.set (i % gens.length)
                { sh with cnt := sh.cnt + add, w := F64.sub w (F64.mul avg (F64.ofInt add)) })
        else quotaLoop avg fuel (i + 1) rest (gens.set (i % gens.length) { sh with w := w })
    else .ok (rest, gens)

/-- The inner loop of lines 120-128 for the generator `sh`: the claimed slot and the
generator afterwards. -/
def probe (mask : Int) (table : Table) : Nat → shardGen → Option (Nat × shardGen)
  | 0, _ => none
  | fuel + 1, sh =>
    let cur := and64 (wrap (sh.start + sh.pos)) mask
    let sh1 := { sh with pos := wrap (sh.pos * sh.mult + sh.add) }
    if table.getD cur.toNat 0 = 0 then some (cur.toNat, sh1)
    else probe mask table fuel sh1

/-- The loop of lines 114-129, from iteration `i`. -/
def placeLoop (mask tableSize : Int) (pfuel : Nat) : Nat → Nat → Int → List shardGen →
    Table → List (Nat × Int) → Except Outcome (Table × List (Nat × Int))
  | 0, _, _, _, _, _ => .error .timeout
  | fuel + 1, i, rest, gens, table, writes =>
    if rest < tableSize then
      match gens[i % gens.length]? with
      | none => .error (.panic "runtime error: index out of range")
      | some sh =>
        if sh.cnt = 0 then placeLoop mask tableSize pfuel fuel (i + 1) rest gens table writes
        else
          match probe mask table pfuel { sh with cnt := sh.cnt - 1 } with
          | none => .error .timeout
          | some (cur, sh1) =>
            placeLoop mask tableSize pfuel fuel (i + 1) (rest + 1)
              (gens.set (i % gens.length) sh1)
              (table.set cur (uint16 sh.ix)) (writes ++ [(cur, sh.ix)])
    else .ok (table, writes)

/-- Lines 132-134: `table[i]--` on `uint16`. -/
def decrement (table : Table) : Table := table.map fun v => (v + 65535) % 65536

/-- `BuildTable`, keeping what the run went through. -/
def buildRun (sortSlice : List shardGen → List shardGen) (fuel : Nat) (shards : List Shard)
    (tableSize : Int) : Except Outcome Run :=
  if tableSize ≤ 0 ∨ and64 tableSize (wrap (tableSize - 1)) ≠ 0 then
    .error (.panic "tableSize should be positive power of two")
  else
    match setupLoop (highbitsOf tableSize) shards 0 F64.zero [] with
    | .error o => .error o
    | .ok (sum, gens) =>
      if F64.isZero sum then .error (.err "Some weights should be positive")
      else
        match quotaLoop (F64.div sum (F64.ofInt shards.length)) fuel 0 tableSize
            (sortSlice gens) with
        | .error o => .error o
        | .ok (rest, quotas) =>
          match placeLoop (tableSize - 1) tableSize fuel fuel 0 rest quotas
              (List.replicate tableSize.toNat 0) [] with
          | .error o => .error o
          | .ok (table, writes) => .ok ⟨quotas, writes, decrement table⟩

/-- `func BuildTable(shards []Shard, tableSize int) (Table, error)`. -/
def BuildTable (sortSlice : List shardGen → List shardGen) (fuel : Nat) (shards : List Shard)
    (tableSize : Int) : Outcome :=
  match buildRun sortSlice fuel shards tableSize with
  | .error o => o
  | .ok r => .table r.table

/-- The comparison of line 90. -/
def hashLE (a b : shardGen) : Prop := a.sh.Hash ≤ b.sh.Hash

instance : DecidableRel hashLE := fun a b => inferInstanceAs (Decidable (a.sh.Hash ≤ b.sh.Hash))

/-- What `sort.Slice` with the comparison of line 90 guarantees. -/
def SortsByHash (sortSlice : List shardGen → List shardGen) : Prop :=
  ∀ l, (sortSlice l).Perm l ∧ (sortSlice l).Pairwise hashLE

/-- Stable insertion sort by hash. -/
def goSort (l : List shardGen) : List shardGen := l.insertionSort hashLE

/-! ## Specification vocabulary -/

/-- The probe positions without wrap-around: `0, a, a*m + a, ...`. -/
def lcgIter (m a : Int) : Nat → Int
  | 0 => 0
  | k + 1 => lcgIter m a k * m + a

/-- The value of `sh.pos` after `k` executions of `sh.pos = sh.pos*sh.mult + sh.add`. -/
def posAt (m a : Int) : Nat → Int
  | 0 => 0
  | k + 1 => wrap (posAt m a k * m + a)

/-- The `k`-th slot a generator probes: `cur` of line 121 at its `k`-th execution. -/
def slotAt (mask start m a : Int) (k : Nat) : Nat :=
  (and64 (wrap (start + posAt m a k)) mask).toNat

/-- The generators of lines 67-80 for the shards from index `i` on. -/
def mkGens (highbits : Nat) : Nat → List Shard → List shardGen
  | _, [] => []
  | i, sh :: rest => mkGen highbits i sh :: mkGens highbits (i + 1) rest

/-- The sum `averageWeight` accumulates over the shards, in input order. -/
def sumWeights (avg : F64) (shards : List Shard) : F64 :=
  shards.foldl (fun a sh => F64.add a sh.Weight) avg

/-- Not below zero: a number with a clear sign bit, a zero, `+Inf`, or a NaN. -/
def F64.NotNeg : F64 → Prop
  | .fin s m _ => s = false ∨ m = 0
  | .inf s => s = false
  | .nan => True

/-- The fields of a generator the quota loop reads and writes. -/
structure QS where
  w : F64
  cnt : Nat
  weight : F64
deriving DecidableEq, Repr

/-- Evaluate `x`, then continue with it: `withF64 x k = k x`. -/
def withF64 {α : Type} (x : F64) (k : F64 → α) : α :=
  match x with
  | .fin s m e => withNat m fun m1 => withNat e fun e1 => k (.fin s m1 e1)
  | .inf s => k (.inf s)
  | .nan => k .nan

/-- The quota loop on three generators, `a b c` standing for `generators[i%3]`,
`generators[(i+1)%3]`, `generators[(i+2)%3]`; used to evaluate `quotaLoop`. -/
def quota3 (avg : F64) : Nat → Nat → Nat → QS → QS → QS → Option (Nat × QS × QS × QS)
  | 0, _, _, _, _, _ => none
  | fuel + 1, i, rest, a, b, c =>
    if 0 < rest then
      withF64 (F64.add a.w a.weight) fun w =>
      if F64.ge w avg then
        match F64.toInt (F64.div w avg) with
        | some (.ofNat x) =>
          withNat (if rest < x then rest else x) fun add =>
          withF64 (F64.sub w (F64.mul avg (F64.ofInt (.ofNat add)))) fun w1 =>
          withNat (a.cnt + add) fun c1 =>
          withNat (rest - add) fun r1 =>
          withNat (i + 1) fun i1 =>
          quota3 avg fuel i1 r1 b c ⟨w1, c1, a.weight⟩
        | _ => none
      else withNat (i + 1) fun i1 => quota3 avg fuel i1 rest b c ⟨w, a.cnt, a.weight⟩
    else some (i, a, b, c)

/-- The test suite's `countDist` followed by `sort.Ints`: how many slots each of the
`n` shards owns, in ascending order. -/
def sortedCounts (t : Table) (n : Nat) : List Nat :=
  ((List.range n).map fun i => t.count i).insertionSort (· ≤ ·)

/-- The generator `g` has probed some `k` slots so far, all of them taken. -/
def Probed (mask : Int) (table : Table) (g : shardGen) : Prop :=
  ∃ k, g.pos = posAt g.mult g.add k ∧
    ∀ j < k, table.getD (slotAt mask g.start g.mult g.add j) 0 ≠ 0

/-- The invariant of the placement loop. `gens0` are the generators when the loop is
entered, `T` the table size. -/
structure PlaceInv (mask T : Int) (gens0 : List shardGen) (rest : Int) (gens : List shardGen)
    (table : Table) (writes : List (Nat × Int)) : Prop where
  len_table : (table.length : Int) = T
  len_gens : gens.length = gens0.length
  odd : ∀ g ∈ gens, g.add % 2 = 1 ∧ g.mult % 4 = 1
  cnt_nonneg : ∀ g ∈ gens, 0 ≤ g.cnt
  tag_ne : ∀ g ∈ gens, g.cnt ≠ 0 → uint16 g.ix ≠ 0
  sum : rest + (gens.map fun g => g.cnt).sum = T
  rest_eq : rest = writes.length
  probed : ∀ g ∈ gens, Probed mask table g
  w_slot : ∀ p ∈ writes, p.1 < table.length ∧ table.getD p.1 0 = uint16 p.2 ∧ uint16 p.2 ≠ 0
  w_nodup : (writes.map Prod.fst).Nodup
  w_cover : ∀ s, table.getD s 0 ≠ 0 → s ∈ writes.map Prod.fst
  w_count : ∀ x : Int, ((writes.map Prod.snd).count x : Int) +
      (gens.map fun g => if g.ix = x then g.cnt else 0).sum =
      (gens0.map fun g => if g.ix = x then g.cnt else 0).sum

/-- A generator with the fields the quota loop writes (`cnt`, `w`) reset. -/
def shardGen.fixed (g : shardGen) : shardGen := { g with cnt := 0, w := F64.zero }

/-- What the generators satisfy when the quota loop has exited: the state the placement
loop starts from. -/
structure GoodQuotas (shards : List Shard) (T : Int) (quotas : List shardGen) : Prop where
  odd : ∀ g ∈ quotas, g.add % 2 = 1 ∧ g.mult % 4 = 1
  pos : ∀ g ∈ quotas, g.pos = 0
  cnt_nonneg : ∀ g ∈ quotas, 0 ≤ g.cnt
  sum : (quotas.map fun g => g.cnt).sum = T
  ix_nodup : (quotas.map fun g => g.ix).Nodup
  ix_perm : (quotas.map fun g => g.ix).Perm
    ((List.range shards.length).map fun j => ((j : Nat) : Int) + 1)
  ix_shard : ∀ g ∈ quotas, 1 ≤ g.ix ∧ g.ix ≤ shards.length ∧
    shards[(g.ix - 1).toNat]? = some g.sh

/-- The shards of weight zero with the hashes 1, ..., `n`. -/
def zeroShards (n : Nat) : List Shard :=
  (List.range n).map (fun j => (⟨j + 1, F64.zero⟩ : Shard))

/-- 65537 shards: 65536 of weight zero with the hashes 1, ..., 65536, then one of weight 1
with hash 0. -/
def manyShards : List Shard := zeroShards 65536 ++ [⟨0, F64.lit 1 1⟩]

/-- Three values in a cycle: `x` at index `i % 3`, `y` after it, `z` before it. -/
def rot3 {α : Type} (i : Nat) (x y z : α) : List α :=
  if i % 3 = 0 then [x, y, z] else if i % 3 = 1 then [z, x, y] else [y, z, x]

/-- The generator `g` carries the accumulator, the quota and the weight `q`. -/
def QS.Of (g : shardGen) (q : QS) : Prop :=
  g.w = q.w ∧ g.cnt = (q.cnt : Int) ∧ g.sh.Weight = q.weight

/-- The quotas of three fresh generators whose weights are, in the order the sort left
them in, `l`; in ascending order. -/
def quota3Counts (avg : F64) (fuel rest : Nat) : List F64 → Option (List Nat)
  | [wa, wb, wc] =>
    match quota3 avg fuel 0 rest ⟨F64.zero, 0, wa⟩ ⟨F64.zero, 0, wb⟩ ⟨F64.zero, 0, wc⟩ with
    | some (_, a, b, c) => some ([a.cnt, b.cnt, c.cnt].insertionSort (· ≤ ·))
    | none => none
  | _ => none

/-- The value of `averageWeight` after line 86 for shards with the weights `ws`. -/
def weightsAvg (ws : List F64) : F64 :=
  F64.div (ws.foldl F64.add F64.zero) (F64.ofInt ws.length)

/-- The six orders of three values. -/
def perms3 {α : Type} (a b c : α) : List (List α) :=
  [[a, b, c], [a, c, b], [b, a, c], [b, c, a], [c, a, b], [c, b, a]]

/-! ## The quota loop with exact weights

The loop of lines 98-110 with rational numbers in place of `float64`: what the loop does
when no sum, quotient or product is rounded. -/

/-- The fields of a generator the quota loop works on (`sh.w`, `sh.cnt`, `sh.sh.Weight`),
the weights being exact. -/
structure QGen where
  w : ℚ
  cnt : Int
  weight : ℚ
deriving DecidableEq

/-- The loop counter `i`, `rest`, and the generators. -/
structure QState where
  i : Nat
  rest : Int
  gens : List QGen
deriving DecidableEq

/-- `int(x)` of an exact `x`: truncation toward zero. -/
def truncQ (q : ℚ) : Int := if 0 ≤ q then ⌊q⌋ else -⌊-q⌋

/-- One iteration of the loop of lines 98-110 with exact arithmetic; a state with
`rest ≤ 0` has left the loop and stays as it is. -/
def quotaStepQ (avg : ℚ) (s : QState) : QState :=
  if 0 < s.rest then
    match s.gens[s.i % s.gens.length]? with
    | none => s
    | some sh =>
      let w := sh.w + sh.weight
      if avg ≤ w then
        let add := if s.rest < truncQ (w / avg) then s.rest else truncQ (w / avg)
        ⟨s.i + 1, s.rest - add,
          s.gens.set (s.i % s.gens.length) { sh with cnt := sh.cnt + add, w := w - avg * add }⟩
      else ⟨s.i + 1, s.rest, s.gens.set (s.i % s.gens.length) { sh with w := w }⟩
  else s

/-- The state the loop is entered in, for generators whose weights are `ws` in the order
the sort left them in. -/
def quotaInitQ (ws : List ℚ) (tableSize : Int) : QState :=
  ⟨0, tableSize, ws.map fun w => ⟨0, 0, w⟩⟩

/-- The value of `averageWeight` with exact arithmetic. -/
def averageQ (ws : List ℚ) : ℚ := ws.sum / ws.length

/-- The state after `k` iterations. -/
def quotaRunQ (ws : List ℚ) (tableSize : Int) (k : Nat) : QState :=
  (quotaStepQ (averageQ ws))^[k] (quotaInitQ ws tableSize)

/-- The sum of the weights added to the accumulators in the first `i` iterations. -/
def addedQ (ws : List ℚ) (i : Nat) : ℚ :=
  ((i / ws.length : Nat) : ℚ) * ws.sum + (ws.take (i % ws.length)).sum

/-- The invariant of the exact quota loop after `k` iterations. -/
structure QInv (ws : List ℚ) (T : Int) (k : Nat) (s : QState) : Prop where
  weights : s.gens.map (fun g => g.weight) = ws
  rest_nonneg : 0 ≤ s.rest
  w_nonneg : ∀ g ∈ s.gens, 0 ≤ g.w
  w_lt : 0 < s.rest → ∀ g ∈ s.gens, g.w < averageQ ws
  iter : 0 < s.rest → s.i = k
  total : (s.gens.map fun g => g.w).sum = addedQ ws s.i - averageQ ws * ((T - s.rest : Int) : ℚ)
  cnt_nonneg : ∀ g ∈ s.gens, 0 ≤ g.cnt
  cnt_sum : (s.gens.map fun g => g.cnt).sum = T - s.rest

/-! ## Evaluating the placement loop

The table as one number, 16 bits for each cell, and the generators as unsigned 64-bit
patterns: a second way to run the placement loop on three generators, used to evaluate
`placeLoop`. -/

/-- The fields of a generator the placement loop works on: `start`, `pos`, `add` and
`mult` as `uint64` bit patterns, the quota, and `uint16(ix)`. -/
structure PS where
  start : Nat
  pos : Nat
  add : Nat
  mult : Nat
  cnt : Nat
  tag : Nat
deriving DecidableEq, Repr

/-- The cell `s` of the table kept in `digits`. -/
def cell (digits s : Nat) : Nat := (digits >>> (16 * s)) % 65536

/-- The table of `T` cells kept in `digits`. -/
def decode (digits T : Nat) : Table := (List.range T).map (cell digits)

/-- The inner loop of lines 120-128 on bit patterns: the claimed slot and the new `pos`. -/
def probe3 (T digits start mult add : Nat) : Nat → Nat → Option (Nat × Nat)
  | 0, _ => none
  | fuel + 1, pos =>
    withNat ((start + pos) % T) fun cur =>
    withNat ((pos * mult + add) % 18446744073709551616) fun pos1 =>
    if cell digits cur = 0 then some (cur, pos1)
    else probe3 T digits start mult add fuel pos1

/-- The placement loop on three generators, `a b c` standing for `generators[i%3]`,
`generators[(i+1)%3]`, `generators[(i+2)%3]`. -/
def place3 (T pfuel : Nat) : Nat → Nat → PS → PS → PS → Nat → Option Nat
  | 0, _, _, _, _, _ => none
  | fuel + 1, rest, a, b, c, digits =>
    if rest < T then
      if a.cnt = 0 then place3 T pfuel fuel rest b c a digits
      else
        match probe3 T digits a.start a.mult a.add pfuel a.pos with
        | none => none
        | some (cur, pos1) =>
          withNat (digits ||| (a.tag <<< (16 * cur))) fun d1 =>
          withNat (rest + 1) fun r1 =>
          withNat (a.cnt - 1) fun c1 =>
          place3 T pfuel fuel r1 b c ⟨a.start, pos1, a.add, a.mult, c1, a.tag⟩ d1
    else some digits

/-- The bit patterns of a generator, with the quota `cnt`. -/
def PS.ofGen (g : shardGen) (cnt : Nat) : PS :=
  withNat (toU64 g.start) fun s =>
  withNat (toU64 g.pos) fun p =>
  withNat (toU64 g.add) fun a =>
  withNat (toU64 g.mult) fun m =>
  withNat (uint16 g.ix) fun t => ⟨s, p, a, m, cnt, t⟩

/-- The quota loop and the placement loop on the three generators `ga gb gc`, in the
order the sort left them in: the table as one number. -/
def run3 (avg : F64) (T qfuel pfuel fuel : Nat) (ga gb gc : shardGen) : Option Nat :=
  match quota3 avg qfuel 0 T ⟨ga.w, 0, ga.sh.Weight⟩ ⟨gb.w, 0, gb.sh.Weight⟩
      ⟨gc.w, 0, gc.sh.Weight⟩ with
  | none => none
  | some (i1, a, b, c) =>
    match rot3 i1 a.cnt b.cnt c.cnt with
    | [c0, c1, c2] =>
      place3 T pfuel fuel 0 (PS.ofGen ga c0) (PS.ofGen gb c1) (PS.ofGen gc c2) 0
    | _ => none

/-- The table `BuildTable` builds for three shards, as one number. -/
def table3 (T qfuel pfuel fuel : Nat) (shards : List Shard) : Option Nat :=
  match goSort (mkGens (highbitsOf T) 0 shards) with
  | [ga, gb, gc] =>
    withF64 (weightsAvg (shards.map Shard.Weight)) fun avg =>
    run3 avg T qfuel pfuel fuel ga gb gc
  | _ => none

/-! ## The test suite's helpers -/

/-- The test suite's `countDiff`: at how many indices of `tbl1` the tables differ; `none`
when `tbl2` is shorter (an index out of range). -/
def countDiff : Table → Table → Option Nat
  | [], _ => some 0
  | _ :: _, [] => none
  | a :: t1, b :: t2 =>
    match countDiff t1 t2 with
    | none => none
    | some n => some (if a ≠ b then n + 1 else n)

/-- The test suite's hash `h` of a byte string. -/
def h (s : List Nat) : Nat :=
  s.foldl (fun v c => (Nat.xor v c * 3233669) % 18446744073709551616) 5503209

/-- The bytes of an ASCII string. -/
def ascii (s : String) : List Nat := s.toList.map Char.toNat

/-- The shards of `TestMovements` with the weights `w1`, `w2`, `w3`. -/
def testShards (w1 w2 w3 : F64) : List Shard :=
  [⟨h (ascii "shard1"), w1⟩, ⟨h (ascii "shard2"), w2⟩, ⟨h (ascii "shard3"), w3⟩]

/-- The four movement counts of `TestMovements`, from the tables as numbers. -/
def movements (T qfuel pfuel fuel : Nat) (s1 s2 s3 s4 : List Shard) :
    Option (Option Nat × Option Nat × Option Nat × Option Nat) :=
  match table3 T qfuel pfuel fuel s1, table3 T qfuel pfuel fuel s2,
      table3 T qfuel pfuel fuel s3, table3 T qfuel pfuel fuel s4 with
  | some d1, some d2, some d3, some d4 =>
    some (countDiff (decrement (decode d1 T)) (decrement (decode d2 T)),
      countDiff (decrement (decode d1 T)) (decrement (decode d3 T)),
      countDiff (decrement (decode d2 T)) (decrement (decode d4 T)),
      countDiff (decrement (decode d3 T)) (decrement (decode d4 T)))
  | _, _, _, _ => none

/-- The number `d` holds the table `t`. -/
def Enc (t : Table) (d : Nat) : Prop := ∀ s, t.getD s 0 = cell d s

/-- The bit patterns `p` are those of the generator `g`. -/
def PS.Of (g : shardGen) (p : PS) : Prop :=
  p.start = toU64 g.start ∧ p.pos = toU64 g.pos ∧ p.add = toU64 g.add ∧
    p.mult = toU64 g.mult ∧ (p.cnt : Int) = g.cnt ∧ p.tag = uint16 g.ix

/-! ## Conversions the Go specification leaves open

`int(x)` of a NaN, of an infinity or of a value outside the range of `int` does not fail
in Go: it yields a value that the implementation chooses, and execution goes on. The
loops above stop with `Outcome.unspecified` at such a conversion; the loops below go on
with the value `impl x` of an implementation, and do the integer arithmetic of the
generators with wrap-around. -/

/-- `int(x)` on an implementation that yields `impl x` where the Go specification fixes
no value. -/
def F64.toIntWith (impl : F64 → Int) (x : F64) : Int :=
  match F64.toInt x with
  | some v => v
  | none => wrap (impl x)

/-- The conversion of amd64 (`CVTTSD2SQ`): `-2^63` for every value the specification
leaves open. -/
def amd64 (_ : F64) : Int := -9223372036854775808

/-- A conversion that saturates and maps a NaN to the largest `int` (the `FCVT.L.D`
instruction of RISC-V). -/
def nanMax : F64 → Int
  | .fin true _ _ => -9223372036854775808
  | .inf true => -9223372036854775808
  | _ => 9223372036854775807

/-- The loop of lines 98-110 on an implementation with the conversion `impl`. -/
def quotaLoopWith (impl : F64 → Int) (avg : F64) : Nat → Nat → Int → List shardGen →
    Except Outcome (Int × List shardGen)
  | 0, _, _, _ => .error .timeout
  | fuel + 1, i, rest, gens =>
    if 0 < rest then
      match gens[i % gens.length]? with
      | none => .error (.panic "runtime error: index out of range")
      | some sh =>
        let w := F64.add sh.w sh.sh.Weight
        if F64.ge w avg then
          let a := F64.toIntWith impl (F64.div w avg)
          let add := if rest < a then rest else a
          quotaLoopWith impl avg fuel (i + 1) (wrap (rest - add))
            (gens.set (i % gens.length)
              { sh with cnt := wrap (sh.cnt + add),
                        w := F64.sub w (F64.mul avg (F64.ofInt add)) })
        else
          quotaLoopWith impl avg fuel (i + 1) rest (gens.set (i % gens.length) { sh with w := w })
    else .ok (rest, gens)

/-- The loop of lines 114-129 with `sh.cnt--` wrapping around. -/
def placeLoopWrap (mask tableSize : Int) (pfuel : Nat) : Nat → Nat → Int → List shardGen →
    Table → List (Nat × Int) → Except Outcome (Table × List (Nat × Int))
  | 0, _, _, _, _, _ => .error .timeout
  | fuel + 1, i, rest, gens, table, writes =>
    if rest < tableSize then
      match gens[i % gens.length]? with
      | none => .error (.panic "runtime error: index out of range")
      | some sh =>
        if sh.cnt = 0 then placeLoopWrap mask tableSize pfuel fuel (i + 1) rest gens table writes
        else
          match probe mask table pfuel { sh with cnt := wrap (sh.cnt - 1) } with
          | none => .error .timeout
          | some (cur, sh1) =>
            placeLoopWrap mask tableSize pfuel fuel (i + 1) (rest + 1)
              (gens.set (i % gens.length) sh1)
              (table.set cur (uint16 sh.ix)) (writes ++ [(cur, sh.ix)])
    else .ok (table, writes)

/-- `BuildTable` on an implementation with the conversion `impl`, keeping what the run
went through. -/
def buildRunWith (impl : F64 → Int) (sortSlice : List shardGen → List shardGen) (fuel : Nat)
    (shards : List Shard) (tableSize : Int) : Except Outcome Run :=
  if tableSize ≤ 0 ∨ and64 tableSize (wrap (tableSize - 1)) ≠ 0 then
    .error (.panic "tableSize should be positive power of two")
  else
    match setupLoop (highbitsOf tableSize) shards 0 F64.zero [] with
    | .error o => .error o
    | .ok (sum, gens) =>
      if F64.isZero sum then .error (.err "Some weights should be positive")
      else
        match quotaLoopWith impl (F64.div sum (F64.ofInt shards.length)) fuel 0 tableSize
            (sortSlice gens) with
        | .error o => .error o
        | .ok (rest, quotas) =>
          match placeLoopWrap (tableSize - 1) tableSize fuel fuel 0 rest quotas
              (List.replicate tableSize.toNat 0) [] with
          | .error o => .error o
          | .ok (table, writes) => .ok ⟨quotas, writes, decrement table⟩

/-- `func BuildTable(shards []Shard, tableSize int) (Table, error)` on an implementation
with the conversion `impl`. -/
def BuildTableWith (impl : F64 → Int) (sortSlice : List shardGen → List shardGen)
    (fuel : Nat) (shards : List Shard) (tableSize : Int) : Outcome :=
  match buildRunWith impl sortSlice fuel shards tableSize with
  | .error o => o
  | .ok r => .table r.table

/-- The smallest positive `float64`, `5e-324`. -/
def tiny : F64 := .fin false 1 0

/-- Two shards whose weights 5e-324 and 0 add up to a sum that is not zero and an average
that rounds to zero. -/
def tinyShards : List Shard := [⟨1, tiny⟩, ⟨2, F64.zero⟩]

/-- The same weights with the shard of weight zero first. -/
def zeroFirstShards : List Shard := [⟨1, F64.zero⟩, ⟨2, tiny⟩]

attribute [irreducible] F64.round

/-! ## Bit arithmetic -/

theorem withNat_eq {α : Type} (n : Nat) (k : Nat → α) : withNat n k = k n := by
  cases n <;> rfl

theorem land_pred_eq_zero (n : Nat) (hn : 0 < n) (h : n &&& (n - 1) = 0) : ∃ k : Nat, n = 2 ^ k := by
  induction n using Nat.strong_induction_on with
  | _ n ih =>
    rcases Nat.lt_or_ge n 2 with h2 | h2
    · exact ⟨0, by omega⟩
    · have hd : (n &&& (n - 1)) / 2 = 0 := by rw [h]
      rw [Nat.and_div_two] at hd
      rcases Nat.mod_two_eq_zero_or_one n with he | ho
      · have h1 : (n - 1) / 2 = n / 2 - 1 := by omega
        rw [h1] at hd
        obtain ⟨k, hk⟩ := ih (n / 2) (by omega) (by omega) hd
        exact ⟨k + 1, by rw [pow_succ, ← hk]; omega⟩
      · have h1 : (n - 1) / 2 = n / 2 := by omega
        rw [h1, Nat.and_self] at hd
        omega

theorem land_pred_pow (k : Nat) : 2 ^ k &&& (2 ^ k - 1) = 0 := by
  rw [Nat.and_pow_two_sub_one_eq_mod, Nat.mod_self]

theorem toU64_of_nonneg (x : Int) (h0 : 0 ≤ x) (h1 : x < 18446744073709551616) :
    toU64 x = x.toNat := by
  unfold toU64
  rw [Int.emod_eq_of_lt h0 h1]

theorem ofU64_of_lt (u : Nat) (h : u < 9223372036854775808) : ofU64 u = (u : Int) := by
  unfold ofU64
  rw [if_pos h]

theorem wrap_of_range (x : Int) (h0 : 0 ≤ x) (h1 : x < 9223372036854775808) : wrap x = x := by
  unfold wrap
  rw [toU64_of_nonneg x h0 (by omega), ofU64_of_lt _ (by omega)]
  omega

/-- For a positive `int` the guard's second disjunct tests `n & (n-1)` on the value. -/
theorem and64_pred (x : Int) (h0 : 0 < x) (h1 : x < 9223372036854775808) :
    and64 x (wrap (x - 1)) = ((x.toNat &&& (x.toNat - 1) : Nat) : Int) := by
  have hle : x.toNat &&& (x.toNat - 1) ≤ x.toNat := Nat.and_le_left
  rw [wrap_of_range (x - 1) (by omega) (by omega)]
  unfold and64
  rw [toU64_of_nonneg x (by omega) (by omega), toU64_of_nonneg (x - 1) (by omega) (by omega)]
  have h2 : (x - 1).toNat = x.toNat - 1 := by omega
  rw [h2]
  show ofU64 (x.toNat &&& (x.toNat - 1)) = _
  exact ofU64_of_lt _ (by omega)

theorem guard_iff (ts : Int) (hlo : -9223372036854775808 ≤ ts) (hhi : ts < 9223372036854775808) :
    (ts ≤ 0 ∨ and64 ts (wrap (ts - 1)) ≠ 0) ↔ ¬ ∃ k : Nat, ts = 2 ^ k := by
  constructor
  · rintro (h | h) ⟨k, hk⟩
    · have : (0 : Int) < 2 ^ k := by positivity
      omega
    · have hpos : (0 : Int) < ts := by rw [hk]; positivity
      rw [and64_pred ts hpos hhi] at h
      have hn : ts.toNat = 2 ^ k := by
        have : ((ts.toNat : Nat) : Int) = ((2 ^ k : Nat) : Int) := by
          rw [Int.toNat_of_nonneg (by omega), hk]; norm_cast
        exact_mod_cast this
      rw [hn, land_pred_pow] at h
      exact h rfl
  · intro h
    by_contra hc
    push_neg at hc
    obtain ⟨hpos, hz⟩ := hc
    rw [and64_pred ts hpos hhi] at hz
    have hz2 : ts.toNat &&& (ts.toNat - 1) = 0 := by exact_mod_cast hz
    obtain ⟨k, hk⟩ := land_pred_eq_zero ts.toNat (by omega) hz2
    apply h
    refine ⟨k, ?_⟩
    have : ((ts.toNat : Nat) : Int) = ((2 ^ k : Nat) : Int) := by rw [hk]
    rw [Int.toNat_of_nonneg (by omega)] at this
    rw [this]; norm_cast

theorem buildRun_guard (sortSlice : List shardGen → List shardGen) (fuel : Nat)
    (shards : List Shard) (ts : Int) (h : ts ≤ 0 ∨ and64 ts (wrap (ts - 1)) ≠ 0) :
    buildRun sortSlice fuel shards ts =
      .error (.panic "tableSize should be positive power of two") := by
  unfold buildRun
  rw [if_pos h]

/-! ## The probe sequence has full period -/

theorem lcgIter_scale (m a : Int) (d : Nat) : lcgIter m a d = a * lcgIter m 1 d := by
  induction d with
  | zero => simp [lcgIter]
  | succ d ih => simp only [lcgIter]; rw [ih]; ring

theorem lcgIter_add (m a : Int) (i d : Nat) :
    lcgIter m a (i + d) - lcgIter m a i = m ^ i * lcgIter m a d := by
  induction i with
  | zero => simp [lcgIter]
  | succ i ih =>
    have h1 : i + 1 + d = (i + d) + 1 := by omega
    rw [h1]
    simp only [lcgIter]
    have : lcgIter m a (i + d) = lcgIter m a i + m ^ i * lcgIter m a d := by linarith
    rw [this]; ring

theorem lcgIter_one_add (m : Int) (i j : Nat) :
    lcgIter m 1 (i + j) = m ^ i * lcgIter m 1 j + lcgIter m 1 i := by
  have := lcgIter_add m 1 i j
  linarith

theorem lcgIter_one_double (m : Int) (e : Nat) :
    lcgIter m 1 (2 * e) = (m ^ e + 1) * lcgIter m 1 e := by
  have := lcgIter_one_add m e e
  rw [two_mul, this]; ring

theorem pow_mod_four (m : Int) (hm : m % 4 = 1) (e : Nat) : m ^ e % 4 = 1 := by
  induction e with
  | zero => simp
  | succ e ih => rw [pow_succ, Int.mul_emod, ih, hm]; rfl

theorem lcgIter_one_parity (m : Int) (hm : m % 2 = 1) (d : Nat) :
    lcgIter m 1 d % 2 = (d : Int) % 2 := by
  induction d with
  | zero => simp [lcgIter]
  | succ d ih =>
    simp only [lcgIter]
    have : (lcgIter m 1 d * m + 1) % 2 = ((lcgIter m 1 d % 2) * (m % 2) + 1) % 2 := by
      rw [Int.add_emod, Int.mul_emod]; simp
    rw [this, ih, hm]
    push_cast
    omega

theorem odd_mul_dvd (b : Nat) (u x : Int) (hu : u % 2 = 1) (h : (2 : Int) ^ b ∣ u * x) :
    (2 : Int) ^ b ∣ x := by
  have hc : IsCoprime ((2 : Int) ^ b) u := by
    apply IsCoprime.pow_left
    exact ⟨-(u / 2), 1, by omega⟩
  exact hc.dvd_of_dvd_mul_left h

theorem dvd_of_dvd_lcgIter (m : Int) (hm : m % 4 = 1) (b : Nat) :
    ∀ d : Nat, (2 : Int) ^ b ∣ lcgIter m 1 d → 2 ^ b ∣ d := by
  induction b with
  | zero => intro d _; simp
  | succ b ih =>
    intro d hd
    have hm2 : m % 2 = 1 := by omega
    have hpar := lcgIter_one_parity m hm2 d
    have h2 : (2 : Int) ∣ lcgIter m 1 d := Dvd.dvd.trans (dvd_pow_self 2 (by omega)) hd
    have hdeven : d % 2 = 0 := by omega
    obtain ⟨e, he⟩ : ∃ e, d = 2 * e := ⟨d / 2, by omega⟩
    subst he
    rw [lcgIter_one_double] at hd
    have hp := pow_mod_four m hm e
    obtain ⟨u, hu⟩ : ∃ u, m ^ e + 1 = 2 * u := ⟨(m ^ e + 1) / 2, by omega⟩
    have hu1 : u % 2 = 1 := by omega
    rw [hu, pow_succ, mul_comm ((2 : Int) ^ b) 2, mul_assoc] at hd
    have hd2 : (2 : Int) ^ b ∣ u * lcgIter m 1 e := (mul_dvd_mul_iff_left (by norm_num)).1 hd
    have := ih e (odd_mul_dvd b u _ hu1 hd2)
    rw [pow_succ, mul_comm]
    exact Nat.mul_dvd_mul_left 2 this

/-- Hull-Dobell for a power of two: the positions `lcgIter m a i`, `i < 2^b`, are pairwise
incongruent modulo `2^b` when `a` is odd and `m ≡ 1 (mod 4)`. -/
theorem lcgIter_inj (m a : Int) (hm : m % 4 = 1) (ha : a % 2 = 1) (b i j : Nat)
    (hi : i < 2 ^ b) (hj : j < 2 ^ b)
    (h : lcgIter m a i % 2 ^ b = lcgIter m a j % 2 ^ b) : i = j := by
  wlog hij : i ≤ j with H
  · exact (H m a hm ha b j i hj hi h.symm (by omega)).symm
  obtain ⟨d, rfl⟩ : ∃ d, j = i + d := ⟨j - i, by omega⟩
  have h1 : (2 : Int) ^ b ∣ lcgIter m a (i + d) - lcgIter m a i :=
    Int.ModEq.dvd (show lcgIter m a i ≡ lcgIter m a (i + d) [ZMOD 2 ^ b] from h)
  rw [lcgIter_add, lcgIter_scale, ← mul_assoc] at h1
  have hmi : (m ^ i * a) % 2 = 1 := by
    have h4 := pow_mod_four m hm i
    have : (m ^ i * a) % 2 = ((m ^ i % 2) * (a % 2)) % 2 := Int.mul_emod _ _ _
    rw [this, ha]; omega
  have h2 := dvd_of_dvd_lcgIter m hm b d (odd_mul_dvd b _ _ hmi h1)
  have : d = 0 := Nat.eq_zero_of_dvd_of_lt h2 (by omega)
  omega

/-! ## Wrap-around and the generator's slots -/

theorem toU64_lt (x : Int) : toU64 x < 18446744073709551616 := by
  unfold toU64; omega

theorem toU64_cast (x : Int) : ((toU64 x : Nat) : Int) = x % 18446744073709551616 := by
  unfold toU64; omega

theorem ofU64_emod (u : Nat) : ofU64 u % 18446744073709551616 = (u : Int) % 18446744073709551616 := by
  unfold ofU64; split <;> omega

theorem wrap_emod (x : Int) : wrap x % 18446744073709551616 = x % 18446744073709551616 := by
  unfold wrap
  rw [ofU64_emod, toU64_cast]
  omega

theorem toU64_congr (x y : Int) (h : x % 18446744073709551616 = y % 18446744073709551616) :
    toU64 x = toU64 y := by
  unfold toU64; rw [h]

theorem posAt_emod (m a : Int) (k : Nat) :
    posAt m a k % 18446744073709551616 = lcgIter m a k % 18446744073709551616 := by
  induction k with
  | zero => rfl
  | succ k ih =>
    simp only [posAt, lcgIter]
    rw [wrap_emod]
    exact Int.ModEq.add (Int.ModEq.mul ih rfl) rfl

theorem two_pow_le_of_le {b : Nat} (hb : b ≤ 62) : (2 : Nat) ^ b ≤ 4611686018427387904 := by
  calc (2 : Nat) ^ b ≤ 2 ^ 62 := Nat.pow_le_pow_right (by decide) hb
    _ = 4611686018427387904 := by norm_num

/-- The slot is the residue of `start + position` modulo the table size. -/
theorem slotAt_eq (b : Nat) (hb : b ≤ 62) (start m a : Int) (k : Nat) :
    slotAt ((2 : Int) ^ b - 1) start m a k = ((start + lcgIter m a k) % 2 ^ b).toNat := by
  have hp := two_pow_le_of_le hb
  have hpos : 0 < 2 ^ b := Nat.two_pow_pos b
  have hmask : toU64 ((2 : Int) ^ b - 1) = 2 ^ b - 1 := by
    have h1 : ((2 : Int) ^ b - 1) = ((2 ^ b - 1 : Nat) : Int) := by
      rw [Nat.cast_sub hpos]; norm_cast
    rw [h1, toU64_of_nonneg _ (by omega) (by omega), Int.toNat_ofNat]
  unfold slotAt and64
  rw [hmask]
  show (ofU64 (toU64 (wrap (start + posAt m a k)) &&& (2 ^ b - 1))).toNat = _
  rw [Nat.and_pow_two_sub_one_eq_mod]
  have hlt : toU64 (wrap (start + posAt m a k)) % 2 ^ b < 2 ^ b := Nat.mod_lt _ hpos
  rw [ofU64_of_lt _ (by omega), Int.toNat_ofNat]
  have hc : toU64 (wrap (start + posAt m a k)) = toU64 (start + lcgIter m a k) := by
    apply toU64_congr
    rw [wrap_emod]
    exact Int.ModEq.add rfl (posAt_emod m a k)
  rw [hc]
  have hd : ((2 : Int) ^ b) ∣ 18446744073709551616 := by
    have : (18446744073709551616 : Int) = 2 ^ b * 2 ^ (64 - b) := by
      rw [← pow_add]; have : b + (64 - b) = 64 := by omega
      rw [this]; norm_num
    exact Dvd.intro _ this.symm
  have h2 : (((toU64 (start + lcgIter m a k) % 2 ^ b : Nat)) : Int) = (start + lcgIter m a k) % 2 ^ b := by
    push_cast
    rw [toU64_cast]
    exact Int.emod_emod_of_dvd _ hd
  have h3 : 0 ≤ (start + lcgIter m a k) % 2 ^ b := Int.emod_nonneg _ (by positivity)
  omega

theorem slotAt_lt (b : Nat) (hb : b ≤ 62) (start m a : Int) (k : Nat) :
    slotAt ((2 : Int) ^ b - 1) start m a k < 2 ^ b := by
  rw [slotAt_eq b hb]
  have h1 : (start + lcgIter m a k) % 2 ^ b < 2 ^ b := Int.emod_lt_of_pos _ (by positivity)
  have h3 : 0 ≤ (start + lcgIter m a k) % 2 ^ b := Int.emod_nonneg _ (by positivity)
  have : (((start + lcgIter m a k) % 2 ^ b).toNat : Int) < ((2 ^ b : Nat) : Int) := by
    rw [Int.toNat_of_nonneg h3]; push_cast; exact h1
  exact_mod_cast this

theorem slotAt_inj (b : Nat) (hb : b ≤ 62) (start m a : Int) (hm : m % 4 = 1) (ha : a % 2 = 1)
    (i j : Nat) (hi : i < 2 ^ b) (hj : j < 2 ^ b)
    (h : slotAt ((2 : Int) ^ b - 1) start m a i = slotAt ((2 : Int) ^ b - 1) start m a j) :
    i = j := by
  rw [slotAt_eq b hb, slotAt_eq b hb] at h
  have h3 : ∀ k, 0 ≤ (start + lcgIter m a k) % 2 ^ b := fun k => Int.emod_nonneg _ (by positivity)
  have h4 : (start + lcgIter m a i) % 2 ^ b = (start + lcgIter m a j) % 2 ^ b := by
    have := congrArg (fun n : Nat => (n : Int)) h
    simp only [Int.toNat_of_nonneg (h3 _)] at this
    exact this
  apply lcgIter_inj m a hm ha b i j hi hj
  have h5 : (start + lcgIter m a i) ≡ (start + lcgIter m a j) [ZMOD 2 ^ b] := h4
  exact Int.ModEq.add_left_cancel' start h5

/-- Full period: every slot of the table is among the first `2^b` slots a generator probes. -/
theorem slotAt_surj (b : Nat) (hb : b ≤ 62) (start m a : Int) (hm : m % 4 = 1) (ha : a % 2 = 1)
    (s : Nat) (hs : s < 2 ^ b) : ∃ j, j < 2 ^ b ∧ slotAt ((2 : Int) ^ b - 1) start m a j = s := by
  have hinj : Set.InjOn (slotAt ((2 : Int) ^ b - 1) start m a) (Finset.range (2 ^ b) : Set Nat) := by
    intro i hi j hj h
    simp only [Finset.coe_range, Set.mem_Iio] at hi hj
    exact slotAt_inj b hb start m a hm ha i j hi hj h
  have hsub : (Finset.range (2 ^ b)).image (slotAt ((2 : Int) ^ b - 1) start m a) ⊆
      Finset.range (2 ^ b) := by
    intro x hx
    rw [Finset.mem_image] at hx
    obtain ⟨k, _, rfl⟩ := hx
    exact Finset.mem_range.2 (slotAt_lt b hb start m a k)
  have hcard : ((Finset.range (2 ^ b)).image (slotAt ((2 : Int) ^ b - 1) start m a)).card =
      (Finset.range (2 ^ b)).card := Finset.card_image_of_injOn hinj
  have heq := Finset.eq_of_subset_of_card_le hsub (by rw [hcard])
  have hmem : s ∈ (Finset.range (2 ^ b)).image (slotAt ((2 : Int) ^ b - 1) start m a) := by
    rw [heq]; exact Finset.mem_range.2 hs
  rw [Finset.mem_image] at hmem
  obtain ⟨j, hj, hjs⟩ := hmem
  exact ⟨j, Finset.mem_range.1 hj, hjs⟩

/-! ## The inner loop -/

theorem probe_ok (mask : Int) (table : Table) : ∀ (fuel : Nat) (sh : shardGen) (k : Nat)
    (cur : Nat) (sh1 : shardGen), sh.pos = posAt sh.mult sh.add k →
    (∀ j < k, table.getD (slotAt mask sh.start sh.mult sh.add j) 0 ≠ 0) →
    probe mask table fuel sh = some (cur, sh1) →
    ∃ k1, k ≤ k1 ∧ cur = slotAt mask sh.start sh.mult sh.add k1 ∧ table.getD cur 0 = 0 ∧
      sh1 = { sh with pos := posAt sh.mult sh.add (k1 + 1) } ∧
      ∀ j < k1, table.getD (slotAt mask sh.start sh.mult sh.add j) 0 ≠ 0 := by
  intro fuel
  induction fuel with
  | zero => intro sh k cur sh1 _ _ h; simp [probe] at h
  | succ fuel ih =>
    intro sh k cur sh1 hpos hprev h
    have hcur : (and64 (wrap (sh.start + sh.pos)) mask).toNat =
        slotAt mask sh.start sh.mult sh.add k := by
      unfold slotAt; rw [hpos]
    have hnext : wrap (sh.pos * sh.mult + sh.add) = posAt sh.mult sh.add (k + 1) := by
      simp only [posAt]; rw [hpos]
    simp only [probe] at h
    rw [hcur, hnext] at h
    by_cases hz : table.getD (slotAt mask sh.start sh.mult sh.add k) 0 = 0
    · rw [if_pos hz] at h
      simp only [Option.some.injEq, Prod.mk.injEq] at h
      obtain ⟨h1, h2⟩ := h
      exact ⟨k, le_refl k, h1.symm, by rw [← h1]; exact hz, h2.symm, hprev⟩
    · rw [if_neg hz] at h
      have hprev2 : ∀ j < k + 1, table.getD (slotAt mask sh.start sh.mult sh.add j) 0 ≠ 0 := by
        intro j hj
        rcases Nat.lt_succ_iff_lt_or_eq.1 hj with h1 | h1
        · exact hprev j h1
        · rw [h1]; exact hz
      obtain ⟨k1, hk1, hc, hz1, hs, hp⟩ :=
        ih { sh with pos := posAt sh.mult sh.add (k + 1) } (k + 1) cur sh1 rfl hprev2 h
      exact ⟨k1, by omega, hc, hz1, hs, hp⟩

theorem probe_total (mask : Int) (table : Table) : ∀ (d fuel : Nat) (sh : shardGen) (k : Nat),
    sh.pos = posAt sh.mult sh.add k →
    table.getD (slotAt mask sh.start sh.mult sh.add (k + d)) 0 = 0 → d < fuel →
    ∃ r, probe mask table fuel sh = some r := by
  intro d
  induction d with
  | zero =>
    intro fuel sh k hpos hz hf
    obtain ⟨f, rfl⟩ : ∃ f, fuel = f + 1 := ⟨fuel - 1, by omega⟩
    have hcur : (and64 (wrap (sh.start + sh.pos)) mask).toNat =
        slotAt mask sh.start sh.mult sh.add k := by
      unfold slotAt; rw [hpos]
    simp only [probe]
    rw [hcur, if_pos (by simpa using hz)]
    exact ⟨_, rfl⟩
  | succ d ih =>
    intro fuel sh k hpos hz hf
    obtain ⟨f, rfl⟩ : ∃ f, fuel = f + 1 := ⟨fuel - 1, by omega⟩
    have hcur : (and64 (wrap (sh.start + sh.pos)) mask).toNat =
        slotAt mask sh.start sh.mult sh.add k := by
      unfold slotAt; rw [hpos]
    have hnext : wrap (sh.pos * sh.mult + sh.add) = posAt sh.mult sh.add (k + 1) := by
      simp only [posAt]; rw [hpos]
    simp only [probe]
    rw [hcur, hnext]
    by_cases hz0 : table.getD (slotAt mask sh.start sh.mult sh.add k) 0 = 0
    · rw [if_pos hz0]; exact ⟨_, rfl⟩
    · rw [if_neg hz0]
      apply ih f { sh with pos := posAt sh.mult sh.add (k + 1) } (k + 1) rfl
      · have : k + 1 + d = k + (d + 1) := by omega
        show table.getD (slotAt mask sh.start sh.mult sh.add (k + 1 + d)) 0 = 0
        rw [this]; exact hz
      · omega

/-! ## The placement loop -/

theorem sum_map_set {α : Type} (f : α → Int) : ∀ (l : List α) (k : Nat) (v0 v : α),
    l[k]? = some v0 → ((l.set k v).map f).sum = (l.map f).sum - f v0 + f v := by
  intro l
  induction l with
  | nil => intro k v0 v h; simp at h
  | cons a l ih =>
    intro k v0 v h
    cases k with
    | zero =>
      simp only [List.getElem?_cons_zero, Option.some.injEq] at h
      subst h
      simp only [List.set_cons_zero, List.map_cons, List.sum_cons]
      ring
    | succ k =>
      simp only [List.getElem?_cons_succ] at h
      simp only [List.set_cons_succ, List.map_cons, List.sum_cons]
      rw [ih k v0 v h]; ring

theorem getD_set_self (t : Table) (c v : Nat) (h : c < t.length) : (t.set c v).getD c 0 = v := by
  rw [List.getD_eq_getElem?_getD, List.getElem?_set_self (by simpa using h)]
  rfl

theorem getD_set_other (t : Table) (c s v : Nat) (h : c ≠ s) :
    (t.set c v).getD s 0 = t.getD s 0 := by
  rw [List.getD_eq_getElem?_getD, List.getD_eq_getElem?_getD, List.getElem?_set_ne h]

theorem getD_set_ne_zero (t : Table) (c s v : Nat) (hv : v ≠ 0) (h : t.getD s 0 ≠ 0) :
    (t.set c v).getD s 0 ≠ 0 := by
  by_cases hcs : c = s
  · subst hcs
    have hlt : c < t.length := by
      by_contra hc
      apply h
      rw [List.getD_eq_getElem?_getD, List.getElem?_eq_none (by omega)]
      rfl
    rw [getD_set_self t c v hlt]; exact hv
  · rw [getD_set_other t c s v hcs]; exact h

theorem mem_set_cases {α : Type} (l : List α) (k : Nat) (v g : α) (h : g ∈ l.set k v) :
    g = v ∨ g ∈ l := by
  rcases List.mem_or_eq_of_mem_set h with h1 | h1
  · exact Or.inr h1
  · exact Or.inl h1

theorem sum_cnt_nonneg (gens : List shardGen) (h : ∀ g ∈ gens, 0 ≤ g.cnt) :
    0 ≤ (gens.map fun g => g.cnt).sum := by
  apply List.sum_nonneg
  intro x hx
  rw [List.mem_map] at hx
  obtain ⟨g, hg, rfl⟩ := hx
  exact h g hg

/-- One claim keeps the invariant. -/
theorem placeInv_step (b : Nat) (hb : b ≤ 62) (gens0 : List shardGen) (rest : Int)
    (gens : List shardGen) (table : Table) (writes : List (Nat × Int)) (pfuel k : Nat)
    (sh sh1 : shardGen) (cur : Nat)
    (inv : PlaceInv ((2 : Int) ^ b - 1) (2 ^ b) gens0 rest gens table writes)
    (hk : gens[k]? = some sh) (hc : sh.cnt ≠ 0)
    (hp : probe ((2 : Int) ^ b - 1) table pfuel { sh with cnt := sh.cnt - 1 } = some (cur, sh1)) :
    PlaceInv ((2 : Int) ^ b - 1) (2 ^ b) gens0 (rest + 1) (gens.set k sh1)
      (table.set cur (uint16 sh.ix)) (writes ++ [(cur, sh.ix)]) := by
  have hmem : sh ∈ gens := List.getElem?_mem hk
  obtain ⟨k0, hpos, hprev⟩ := inv.probed sh hmem
  obtain ⟨k1, _, hcur, hz, hs1, hprev1⟩ :=
    probe_ok _ table pfuel { sh with cnt := sh.cnt - 1 } k0 cur sh1 hpos hprev hp
  simp only at hcur hs1 hprev1
  have htag : uint16 sh.ix ≠ 0 := inv.tag_ne sh hmem hc
  have hlen : table.length = 2 ^ b := by
    have := inv.len_table; exact_mod_cast this
  have hcurlt : cur < table.length := by
    rw [hcur, hlen]; exact slotAt_lt b hb _ _ _ _
  have hcnt0 : 0 ≤ sh.cnt := inv.cnt_nonneg sh hmem
  have hnew : ∀ p ∈ writes, p.1 ≠ cur := by
    intro p hp1 he
    have := (inv.w_slot p hp1).2
    rw [he, hz] at this
    exact this.2 this.1.symm
  constructor
  · rw [List.length_set]; exact inv.len_table
  · rw [List.length_set]; exact inv.len_gens
  · intro g hg
    rcases mem_set_cases _ _ _ _ hg with h | h
    · rw [h, hs1]; exact inv.odd sh hmem
    · exact inv.odd g h
  · intro g hg
    rcases mem_set_cases _ _ _ _ hg with h | h
    · rw [h, hs1]; show 0 ≤ sh.cnt - 1; omega
    · exact inv.cnt_nonneg g h
  · intro g hg hne
    rcases mem_set_cases _ _ _ _ hg with h | h
    · rw [h, hs1]; exact htag
    · exact inv.tag_ne g h hne
  · rw [sum_map_set (fun g => g.cnt) gens k sh sh1 hk, hs1]
    have := inv.sum
    show rest + 1 + ((gens.map fun g => g.cnt).sum - sh.cnt + (sh.cnt - 1)) = 2 ^ b
    linarith
  · rw [List.length_append, inv.rest_eq]; simp
  · intro g hg
    rcases mem_set_cases _ _ _ _ hg with h | h
    · refine ⟨k1 + 1, by rw [h, hs1], ?_⟩
      rw [h, hs1]
      intro j hj
      show (table.set cur (uint16 sh.ix)).getD (slotAt _ sh.start sh.mult sh.add j) 0 ≠ 0
      rcases Nat.lt_succ_iff_lt_or_eq.1 hj with h1 | h1
      · exact getD_set_ne_zero _ _ _ _ htag (hprev1 j h1)
      · rw [h1, ← hcur, getD_set_self _ _ _ hcurlt]; exact htag
    · obtain ⟨kg, hpg, hprevg⟩ := inv.probed g h
      exact ⟨kg, hpg, fun j hj => getD_set_ne_zero _ _ _ _ htag (hprevg j hj)⟩
  · intro p hp1
    rw [List.mem_append] at hp1
    rcases hp1 with h | h
    · obtain ⟨h1, h2, h3⟩ := inv.w_slot p h
      refine ⟨by rw [List.length_set]; exact h1, ?_, h3⟩
      rw [getD_set_other _ _ _ _ (hnew p h).symm]; exact h2
    · simp only [List.mem_singleton] at h
      subst h
      exact ⟨by rw [List.length_set]; exact hcurlt, getD_set_self _ _ _ hcurlt, htag⟩
  · rw [List.map_append, List.nodup_append]
    refine ⟨inv.w_nodup, by simp, ?_⟩
    intro s hs1 hs2
    simp only [List.map_cons, List.map_nil, List.mem_singleton] at hs2
    rw [List.mem_map] at hs1
    obtain ⟨p, hp1, hp2⟩ := hs1
    exact hnew p hp1 (by rw [hp2, hs2])
  · intro s hs
    rw [List.map_append, List.mem_append]
    by_cases hsc : cur = s
    · right; simp [hsc]
    · left
      rw [getD_set_other _ _ _ _ hsc] at hs
      exact inv.w_cover s hs
  · intro x
    rw [sum_map_set (fun g => if g.ix = x then g.cnt else 0) gens k sh sh1 hk, hs1,
      List.map_append, List.count_append]
    have := inv.w_count x
    simp only [List.map_cons, List.map_nil, List.count_cons, List.count_nil]
    by_cases hx : sh.ix = x
    · simp only [hx, beq_self_eq_true, if_true] at this ⊢
      push_cast
      linarith
    · have hx2 : (sh.ix == x) = false := by simpa using hx
      simp only [hx, hx2, if_false] at this ⊢
      push_cast
      linarith

/-- If the placement loop returns, the invariant holds at the exit, where `rest` is the
table size. -/
theorem placeLoop_ok (b : Nat) (hb : b ≤ 62) (gens0 : List shardGen) (pfuel : Nat) :
    ∀ (fuel i : Nat) (rest : Int) (gens : List shardGen) (table : Table)
      (writes : List (Nat × Int)) (t : Table) (ws : List (Nat × Int)),
    PlaceInv ((2 : Int) ^ b - 1) (2 ^ b) gens0 rest gens table writes →
    placeLoop ((2 : Int) ^ b - 1) (2 ^ b) pfuel fuel i rest gens table writes = .ok (t, ws) →
    ∃ gens1, PlaceInv ((2 : Int) ^ b - 1) (2 ^ b) gens0 (2 ^ b) gens1 t ws := by
  intro fuel
  induction fuel with
  | zero => intro i rest gens table writes t ws _ h; simp [placeLoop] at h
  | succ fuel ih =>
    intro i rest gens table writes t ws inv h
    simp only [placeLoop] at h
    by_cases hr : rest < 2 ^ b
    · rw [if_pos hr] at h
      cases hk : gens[i % gens.length]? with
      | none => rw [hk] at h; simp at h
      | some sh =>
        rw [hk] at h
        simp only at h
        by_cases hc : sh.cnt = 0
        · rw [if_pos hc] at h
          exact ih _ _ _ _ _ _ _ inv h
        · rw [if_neg hc] at h
          cases hp : probe ((2 : Int) ^ b - 1) table pfuel { sh with cnt := sh.cnt - 1 } with
          | none => rw [hp] at h; simp at h
          | some r =>
            obtain ⟨cur, sh1⟩ := r
            rw [hp] at h
            simp only at h
            exact ih _ _ _ _ _ _ _ (placeInv_step b hb gens0 rest gens table writes pfuel _ sh sh1
              cur inv hk hc hp) h
    · rw [if_neg hr] at h
      simp only [Except.ok.injEq, Prod.mk.injEq] at h
      obtain ⟨h1, h2⟩ := h
      subst h1 h2
      have h0 := sum_cnt_nonneg gens inv.cnt_nonneg
      have hs := inv.sum
      have : rest = 2 ^ b := by omega
      rw [this] at inv
      exact ⟨gens, inv⟩

/-- Generators whose quota is used up are skipped. -/
theorem placeLoop_skip (mask T : Int) (pfuel : Nat) (rest : Int) (gens : List shardGen)
    (table : Table) (writes : List (Nat × Int)) (hr : rest < T) :
    ∀ (d fuel i : Nat),
    (∀ j < d, ∃ sh, gens[(i + j) % gens.length]? = some sh ∧ sh.cnt = 0) →
    placeLoop mask T pfuel (fuel + d) i rest gens table writes =
      placeLoop mask T pfuel fuel (i + d) rest gens table writes := by
  intro d
  induction d with
  | zero => intro fuel i _; rfl
  | succ d ih =>
    intro fuel i h
    obtain ⟨sh, hk, hc⟩ := h 0 (by omega)
    have h1 : fuel + (d + 1) = (fuel + d) + 1 := by omega
    rw [h1]
    simp only [placeLoop]
    rw [if_pos hr]
    simp only [Nat.add_zero] at hk
    rw [hk]
    simp only
    rw [if_pos hc, ih fuel (i + 1)]
    · congr 1; omega
    · intro j hj
      have := h (j + 1) (by omega)
      have h2 : i + 1 + j = i + (j + 1) := by omega
      rw [h2]; exact this

theorem exists_cnt_ne_zero (gens : List shardGen) (h : (gens.map fun g => g.cnt).sum ≠ 0) :
    ∃ g ∈ gens, g.cnt ≠ 0 := by
  by_contra hc
  push_neg at hc
  apply h
  apply List.sum_eq_zero
  intro x hx
  rw [List.mem_map] at hx
  obtain ⟨g, hg, rfl⟩ := hx
  exact hc g hg

/-- From any iteration, the next generator with quota left is fewer than `n` turns away. -/
theorem next_turn (gens : List shardGen) (i : Nat) (h : ∃ g ∈ gens, g.cnt ≠ 0) :
    ∃ d sh, d < gens.length ∧ gens[(i + d) % gens.length]? = some sh ∧ sh.cnt ≠ 0 ∧
      ∀ j < d, ∃ s, gens[(i + j) % gens.length]? = some s ∧ s.cnt = 0 := by
  obtain ⟨g, hg, hc⟩ := h
  obtain ⟨p, hp⟩ := List.mem_iff_getElem?.1 hg
  have hplt : p < gens.length := by
    by_contra hlt
    rw [List.getElem?_eq_none (by omega)] at hp
    simp at hp
  have hn : 0 < gens.length := by omega
  have hex : ∃ d, ∃ sh, gens[(i + d) % gens.length]? = some sh ∧ sh.cnt ≠ 0 := by
    refine ⟨p + (gens.length - i % gens.length), g, ?_, hc⟩
    have h1 : (i + (p + (gens.length - i % gens.length))) % gens.length = p := by
      have hmod := Nat.mod_lt i hn
      have hdiv := Nat.div_add_mod i gens.length
      have : i + (p + (gens.length - i % gens.length)) =
          p + gens.length * (i / gens.length + 1) := by
        have h3 : gens.length * (i / gens.length + 1) =
            gens.length * (i / gens.length) + gens.length := by ring
        omega
      rw [this, Nat.add_mul_mod_self_left, Nat.mod_eq_of_lt hplt]
    rw [h1]; exact hp
  classical
  refine ⟨Nat.find hex, ?_⟩
  obtain ⟨sh, hsh, hcs⟩ := Nat.find_spec hex
  refine ⟨sh, ?_, hsh, hcs, ?_⟩
  · by_contra hge
    have hmin := Nat.find_min hex (m := Nat.find hex - gens.length) (by omega)
    apply hmin
    refine ⟨sh, ?_, hcs⟩
    have : i + (Nat.find hex - gens.length) + gens.length = i + Nat.find hex := by omega
    rw [← Nat.add_mod_right, this]; exact hsh
  · intro j hj
    have hmin := Nat.find_min hex hj
    have hlt : (i + j) % gens.length < gens.length := Nat.mod_lt _ hn
    refine ⟨gens[(i + j) % gens.length], by rw [List.getElem?_eq_getElem hlt], ?_⟩
    by_contra hne
    exact hmin ⟨_, by rw [List.getElem?_eq_getElem hlt], hne⟩

theorem exists_free_slot (T : Nat) (table : Table) (writes : List (Nat × Int))
    (hlen : writes.length < T)
    (hcover : ∀ s, table.getD s 0 ≠ 0 → s ∈ writes.map Prod.fst) :
    ∃ s, s < T ∧ table.getD s 0 = 0 := by
  by_contra hc
  push_neg at hc
  have hsub : List.range T ⊆ writes.map Prod.fst := by
    intro s hs
    exact hcover s (hc s (List.mem_range.1 hs))
  have := (List.nodup_range T).subperm hsub
  have h2 := this.length_le
  rw [List.length_range, List.length_map] at h2
  omega

/-- The placement loop ends: one slot is claimed in every `n` turns, each claim within
`2^b` probes. -/
theorem placeLoop_total (b : Nat) (hb : b ≤ 62) (gens0 : List shardGen) (pfuel : Nat)
    (hpf : 2 ^ b ≤ pfuel) :
    ∀ (R fuel i : Nat) (rest : Int) (gens : List shardGen) (table : Table)
      (writes : List (Nat × Int)),
    PlaceInv ((2 : Int) ^ b - 1) (2 ^ b) gens0 rest gens table writes →
    ((2 : Int) ^ b - rest).toNat = R → R * gens.length + 1 ≤ fuel →
    ∃ r, placeLoop ((2 : Int) ^ b - 1) (2 ^ b) pfuel fuel i rest gens table writes = .ok r := by
  intro R
  induction R with
  | zero =>
    intro fuel i rest gens table writes inv hR hf
    obtain ⟨f, rfl⟩ : ∃ f, fuel = f + 1 := ⟨fuel - 1, by omega⟩
    simp only [placeLoop]
    rw [if_neg (by omega)]
    exact ⟨_, rfl⟩
  | succ R ih =>
    intro fuel i rest gens table writes inv hR hf
    have hr : rest < 2 ^ b := by omega
    have hsum : (gens.map fun g => g.cnt).sum ≠ 0 := by
      have := inv.sum; omega
    obtain ⟨d, sh, hd, hk, hc, hskip⟩ := next_turn gens i (exists_cnt_ne_zero gens hsum)
    have hfuel : fuel = (fuel - d - 1 + 1) + d := by
      have : (R + 1) * gens.length = R * gens.length + gens.length := by ring
      omega
    rw [hfuel, placeLoop_skip _ _ pfuel rest gens table writes hr d _ i hskip]
    simp only [placeLoop]
    rw [if_pos hr, hk]
    simp only
    rw [if_neg hc]
    have hmem : sh ∈ gens := List.getElem?_mem hk
    obtain ⟨k0, hpos, hprev⟩ := inv.probed sh hmem
    have hlenw : writes.length < 2 ^ b := by
      have := inv.rest_eq
      have h2 : ((writes.length : Nat) : Int) < ((2 ^ b : Nat) : Int) := by
        push_cast; omega
      exact_mod_cast h2
    obtain ⟨s, hs, hz⟩ := exists_free_slot (2 ^ b) table writes hlenw inv.w_cover
    obtain ⟨j, hj, hjs⟩ := slotAt_surj b hb sh.start sh.mult sh.add (inv.odd sh hmem).2
      (inv.odd sh hmem).1 s hs
    have hkj : k0 ≤ j := by
      by_contra hlt
      exact hprev j (by omega) (by rw [hjs]; exact hz)
    obtain ⟨r, hpr⟩ := probe_total ((2 : Int) ^ b - 1) table (j - k0) pfuel
      { sh with cnt := sh.cnt - 1 } k0 hpos
      (by show table.getD (slotAt _ sh.start sh.mult sh.add (k0 + (j - k0))) 0 = 0
          have : k0 + (j - k0) = j := by omega
          rw [this, hjs]; exact hz)
      (by omega)
    obtain ⟨cur, sh1⟩ := r
    rw [hpr]
    simp only
    have inv2 := placeInv_step b hb gens0 rest gens table writes pfuel _ sh sh1 cur inv hk hc hpr
    apply ih _ _ _ _ _ _ inv2 (by omega)
    rw [List.length_set]
    have : (R + 1) * gens.length = R * gens.length + gens.length := by ring
    omega

/-! ## Signs of the float operations -/

theorem withF64_eq {α : Type} (x : F64) (k : F64 → α) : withF64 x k = k x := by
  cases x <;> simp [withF64, withNat_eq]

theorem withNat_prop {α : Type} (P : α → Prop) (n : Nat) (k : Nat → α) (h : ∀ v, P (k v)) :
    P (withNat n k) := by
  rw [withNat_eq]; exact h n

theorem round_shape (neg : Bool) (num den eb bias : Nat) :
    F64.round neg num den eb bias = F64.zero ∨
    (∃ q e, F64.round neg num den eb bias = .fin neg q e) ∨
    F64.round neg num den eb bias = .inf neg := by
  have key : ∀ x : F64, (x = F64.zero ∨ (∃ q e, x = .fin neg q e) ∨ x = .inf neg) →
      (x = F64.zero ∨ (∃ q e, x = .fin neg q e) ∨ x = .inf neg) := fun _ h => h
  apply key
  unfold F64.round
  split
  · exact Or.inl rfl
  · refine withNat_prop (fun x => x = F64.zero ∨ (∃ q e, x = .fin neg q e) ∨ x = .inf neg) _ _ ?_
    intro bn
    refine withNat_prop (fun x => x = F64.zero ∨ (∃ q e, x = .fin neg q e) ∨ x = .inf neg) _ _ ?_
    intro bd
    refine withNat_prop (fun x => x = F64.zero ∨ (∃ q e, x = .fin neg q e) ∨ x = .inf neg) _ _ ?_
    intro tb
    refine withNat_prop (fun x => x = F64.zero ∨ (∃ q e, x = .fin neg q e) ∨ x = .inf neg) _ _ ?_
    intro off
    refine withNat_prop (fun x => x = F64.zero ∨ (∃ q e, x = .fin neg q e) ∨ x = .inf neg) _ _ ?_
    intro Qn
    refine withNat_prop (fun x => x = F64.zero ∨ (∃ q e, x = .fin neg q e) ∨ x = .inf neg) _ _ ?_
    intro eb2
    refine withNat_prop (fun x => x = F64.zero ∨ (∃ q e, x = .fin neg q e) ∨ x = .inf neg) _ _ ?_
    intro N
    refine withNat_prop (fun x => x = F64.zero ∨ (∃ q e, x = .fin neg q e) ∨ x = .inf neg) _ _ ?_
    intro D
    refine withNat_prop (fun x => x = F64.zero ∨ (∃ q e, x = .fin neg q e) ∨ x = .inf neg) _ _ ?_
    intro q
    refine withNat_prop (fun x => x = F64.zero ∨ (∃ q e, x = .fin neg q e) ∨ x = .inf neg) _ _ ?_
    intro r
    refine withNat_prop (fun x => x = F64.zero ∨ (∃ q e, x = .fin neg q e) ∨ x = .inf neg) _ _ ?_
    intro q1
    split_ifs <;> simp

theorem round_notNeg (num den eb bias : Nat) : (F64.round false num den eb bias).NotNeg := by
  rcases round_shape false num den eb bias with h | ⟨q, e, h⟩ | h <;> rw [h] <;>
    simp [F64.NotNeg, F64.zero]

theorem round_zero_notNeg (neg : Bool) (den eb bias : Nat) :
    (F64.round neg 0 den eb bias).NotNeg := by
  unfold F64.round
  simp [F64.NotNeg, F64.zero]

theorem notNeg_of_not_lt (w : F64) (h : F64.lt w F64.zero = false) : w.NotNeg := by
  cases w with
  | fin s m e =>
    cases s with
    | false => simp [F64.NotNeg]
    | true =>
      simp only [F64.lt, F64.zero] at h
      simp only [F64.NotNeg]
      right
      simp only [Nat.zero_mul, lt_self_iff_false, or_false, decide_eq_false_iff_not,
        not_lt, Nat.le_zero_eq, mul_eq_zero] at h
      rcases h with h | h
      · exact h
      · exact absurd h (by positivity)
  | inf s => simpa [F64.lt, F64.zero, F64.NotNeg] using h
  | nan => simp [F64.NotNeg]

theorem add_notNeg (x y : F64) (hx : x.NotNeg) (hy : y.NotNeg) : (F64.add x y).NotNeg := by
  cases x with
  | fin s1 m1 e1 =>
    cases y with
    | fin s2 m2 e2 =>
      simp only [F64.NotNeg] at hx hy
      simp only [F64.add]
      cases s1 <;> cases s2
      · simp only [if_true]; exact round_notNeg _ _ _ _
      · have h2 : m2 = 0 := by simpa using hy
        subst h2
        simp only [Bool.false_eq_true, if_false, Nat.zero_mul, Nat.zero_le, if_true]
        exact round_notNeg _ _ _ _
      · have h1 : m1 = 0 := by simpa using hx
        subst h1
        simp only [Bool.true_eq_false, if_false, Nat.zero_mul, Nat.le_zero_eq]
        split
        · rename_i h0
          rw [h0]; exact round_zero_notNeg _ _ _ _
        · exact round_notNeg _ _ _ _
      · have h1 : m1 = 0 := by simpa using hx
        have h2 : m2 = 0 := by simpa using hy
        subst h1 h2
        simp only [if_true, Nat.zero_mul, Nat.add_zero]
        exact round_zero_notNeg _ _ _ _
    | inf s2 => simpa [F64.add, F64.NotNeg] using hy
    | nan => simp [F64.add, F64.NotNeg]
  | inf s1 =>
    cases y with
    | fin s2 m2 e2 => simpa [F64.add, F64.NotNeg] using hx
    | inf s2 =>
      simp only [F64.NotNeg] at hx hy
      subst hx hy
      simp [F64.add, F64.NotNeg]
    | nan => simp [F64.add, F64.NotNeg]
  | nan => cases y <;> simp [F64.add, F64.NotNeg]

theorem sumWeights_notNeg : ∀ (l : List Shard) (avg : F64), avg.NotNeg →
    (∀ s ∈ l, F64.lt s.Weight F64.zero = false) → (sumWeights avg l).NotNeg := by
  intro l
  induction l with
  | nil => intro avg h _; exact h
  | cons s l ih =>
    intro avg h hl
    simp only [sumWeights, List.foldl_cons]
    apply ih
    · exact add_notNeg _ _ h (notNeg_of_not_lt _ (hl s (List.mem_cons_self _ _)))
    · intro t ht
      exact hl t (List.mem_cons_of_mem _ ht)

theorem ofInt_shape (n : Int) (h : 0 ≤ n) :
    F64.ofInt n = F64.zero ∨ (∃ q e, F64.ofInt n = .fin false q e) ∨ F64.ofInt n = .inf false := by
  cases n with
  | ofNat n => exact round_shape false n 1 0 0
  | negSucc n => exact absurd h (by simp [Int.negSucc_lt_zero])

/-- The average of weights that are not negative is not negative. -/
theorem avg_notNeg (sum : F64) (n : Int) (hs : sum.NotNeg) (hz : F64.isZero sum = false)
    (hn : 0 ≤ n) : (F64.div sum (F64.ofInt n)).NotNeg := by
  have hy := ofInt_shape n hn
  generalize F64.ofInt n = y at hy
  cases sum with
  | fin s1 m1 e1 =>
    have hm : m1 ≠ 0 := by simpa [F64.isZero] using hz
    have hs1 : s1 = false := by
      simp only [F64.NotNeg] at hs
      rcases hs with h | h
      · exact h
      · exact absurd h hm
    subst hs1
    rcases hy with h | ⟨q, e, h⟩ | h
    · subst h
      simp [F64.div, F64.zero, hm, F64.NotNeg]
    · subst h
      simp only [F64.div]
      split
      · simp [hm, F64.NotNeg]
      · exact round_notNeg _ _ _ _
    · subst h
      simp [F64.div, F64.NotNeg]
  | inf s1 =>
    simp only [F64.NotNeg] at hs
    subst hs
    rcases hy with h | ⟨q, e, h⟩ | h <;> subst h <;> simp [F64.div, F64.zero, F64.NotNeg]
  | nan => cases y <;> simp [F64.div, F64.NotNeg]

theorem toInt_fin_nonneg (q e : Nat) (a : Int) (h : F64.toInt (.fin false q e) = some a) :
    0 ≤ a := by
  unfold F64.toInt at h
  simp only [Bool.false_eq_true, if_false] at h
  generalize (if 1074 ≤ e then q * 2 ^ (e - 1074) else q / 2 ^ (1074 - e)) = X at h
  by_cases hx : X < 9223372036854775808
  · rw [if_pos hx] at h
    injection h with h
    rw [← h]; exact Int.ofNat_nonneg X
  · rw [if_neg hx] at h
    simp at h

/-- A quotient that passed the test `w >= averageWeight` converts to a non-negative `int`. -/
theorem toInt_div_nonneg (w avg : F64) (a : Int) (havg : avg.NotNeg)
    (hge : F64.ge w avg = true) (h : F64.toInt (F64.div w avg) = some a) : 0 ≤ a := by
  cases avg with
  | fin s2 m2 e2 =>
    cases w with
    | fin s1 m1 e1 =>
      by_cases hm2 : m2 = 0
      · simp only [F64.div, hm2, if_true] at h
        split at h <;> simp [F64.toInt] at h
      · have hs2 : s2 = false := by
          simp only [F64.NotNeg] at havg
          rcases havg with h1 | h1
          · exact h1
          · exact absurd h1 hm2
        subst hs2
        have hs1 : s1 = false := by
          cases s1 with
          | false => rfl
          | true =>
            exfalso
            simp only [F64.ge, F64.le, decide_eq_true_eq] at hge
            have : m2 * 2 ^ (e2 - min e2 e1) ≠ 0 := by positivity
            exact this hge.1
        subst hs1
        simp only [F64.div, hm2, if_false] at h
        have hsh : (false != false) = false := rfl
        rw [hsh] at h
        rcases round_shape false m1 m2 e1 e2 with h1 | ⟨q, e, h1⟩ | h1
        · rw [h1] at h; exact toInt_fin_nonneg 0 0 a h
        · rw [h1] at h; exact toInt_fin_nonneg q e a h
        · rw [h1] at h
          simp [F64.toInt] at h
    | inf s1 => simp [F64.div, F64.toInt] at h
    | nan => simp [F64.div, F64.toInt] at h
  | inf s2 =>
    cases w with
    | fin s1 m1 e1 =>
      exfalso
      simp only [F64.NotNeg] at havg
      subst havg
      simp [F64.ge, F64.le] at hge
    | inf s1 => simp [F64.div, F64.toInt] at h
    | nan => simp [F64.div, F64.toInt] at h
  | nan => cases w <;> simp [F64.div, F64.toInt] at h

/-! ## Generator setup -/

theorem toU64_ofU64 (u : Nat) (h : u < 18446744073709551616) : toU64 (ofU64 u) = u := by
  unfold toU64 ofU64
  split <;> omega

theorem ofU64_emod_four (u : Nat) : ofU64 u % 4 = (u : Int) % 4 := by
  unfold ofU64; split <;> omega

theorem or64_one_odd (x : Int) : or64 x 1 % 2 = 1 := by
  have h1 : toU64 1 = 1 := by decide
  have h2 : (toU64 x ||| 1) % 2 = 1 := Nat.or_mod_two_eq_one.2 (Or.inr rfl)
  have h3 := ofU64_emod_four (toU64 x ||| 1)
  unfold or64
  rw [h1]
  show ofU64 (toU64 x ||| 1) % 2 = 1
  omega

theorem lor_five_mod_four (u : Nat) : ((u &&& 18446744073709551612) ||| 5) % 4 = 1 := by
  have h1 : ((u &&& 18446744073709551612) ||| 5) % 2 = 1 :=
    Nat.or_mod_two_eq_one.2 (Or.inr rfl)
  have h2 : (((u &&& 18446744073709551612) ||| 5) / 2) % 2 ≠ 1 := by
    rw [Nat.or_div_two, Nat.and_div_two]
    intro h
    rcases Nat.or_mod_two_eq_one.1 h with h3 | h3
    · have := (Nat.and_mod_two_eq_one.1 h3).2
      norm_num at this
    · norm_num at h3
  omega

theorem mult_mod_four (y : Int) : or64 (andNot64 y 3) 5 % 4 = 1 := by
  have h5 : toU64 5 = 5 := by decide
  have h3 : 18446744073709551615 - toU64 3 = 18446744073709551612 := by decide
  have hlt : toU64 y &&& 18446744073709551612 < 18446744073709551616 :=
    lt_of_le_of_lt Nat.and_le_left (toU64_lt y)
  unfold or64 andNot64
  rw [h5, h3]
  show ofU64 (toU64 (ofU64 (toU64 y &&& 18446744073709551612)) ||| 5) % 4 = 1
  rw [toU64_ofU64 _ hlt, ofU64_emod_four]
  have := lor_five_mod_four (toU64 y)
  omega

theorem mkGen_odd (hb i : Nat) (s : Shard) :
    (mkGen hb i s).add % 2 = 1 ∧ (mkGen hb i s).mult % 4 = 1 :=
  ⟨or64_one_odd _, mult_mod_four _⟩

theorem mkGens_length (hb : Nat) : ∀ (l : List Shard) (i : Nat), (mkGens hb i l).length = l.length := by
  intro l
  induction l with
  | nil => intro i; rfl
  | cons s l ih => intro i; simp [mkGens, ih]

theorem mkGens_getElem? (hb : Nat) : ∀ (l : List Shard) (i j : Nat),
    (mkGens hb i l)[j]? = (l[j]?).map (mkGen hb (i + j)) := by
  intro l
  induction l with
  | nil => intro i j; simp [mkGens]
  | cons s l ih =>
    intro i j
    cases j with
    | zero => simp [mkGens]
    | succ j =>
      simp only [mkGens, List.getElem?_cons_succ]
      rw [ih (i + 1) j]
      have : i + 1 + j = i + (j + 1) := by omega
      rw [this]

theorem mem_mkGens (hb : Nat) (l : List Shard) (i : Nat) (g : shardGen) (h : g ∈ mkGens hb i l) :
    ∃ j s, l[j]? = some s ∧ g = mkGen hb (i + j) s := by
  obtain ⟨j, hj⟩ := List.mem_iff_getElem?.1 h
  rw [mkGens_getElem?] at hj
  cases hl : l[j]? with
  | none => rw [hl] at hj; simp at hj
  | some s =>
    rw [hl] at hj
    simp only [Option.map_some', Option.some.injEq] at hj
    exact ⟨j, s, hl, hj.symm⟩

theorem mkGens_ix (hb : Nat) : ∀ (l : List Shard) (i : Nat),
    (mkGens hb i l).map (fun g => g.ix) =
      (List.range l.length).map (fun j => ((i + j : Nat) : Int) + 1) := by
  intro l
  induction l with
  | nil => intro i; rfl
  | cons s l ih =>
    intro i
    simp only [mkGens, List.map_cons, List.length_cons, List.range_succ_eq_map, List.map_map]
    rw [ih (i + 1)]
    refine congrArg₂ _ (by simp [mkGen]) ?_
    apply List.map_congr_left
    intro j _
    simp only [Function.comp]
    have : i + 1 + j = i + (j + 1) := by omega
    rw [this]

theorem setupLoop_ok (hb : Nat) : ∀ (l : List Shard) (i : Nat) (avg : F64) (gens : List shardGen)
    (sum : F64) (gens1 : List shardGen), setupLoop hb l i avg gens = .ok (sum, gens1) →
    (∀ s ∈ l, F64.lt s.Weight F64.zero = false) ∧ (l ≠ [] → hb ≠ 0) ∧
      sum = sumWeights avg l ∧ gens1 = gens ++ mkGens hb i l := by
  intro l
  induction l with
  | nil =>
    intro i avg gens sum gens1 h
    simp only [setupLoop, Except.ok.injEq, Prod.mk.injEq] at h
    simp [sumWeights, mkGens, h.1.symm, h.2.symm]
  | cons s l ih =>
    intro i avg gens sum gens1 h
    simp only [setupLoop] at h
    by_cases hw : F64.lt s.Weight F64.zero = true
    · rw [if_pos hw] at h; simp at h
    · rw [if_neg hw] at h
      by_cases hz : hb = 0
      · rw [if_pos hz] at h; simp at h
      · rw [if_neg hz] at h
        obtain ⟨h1, _, h3, h4⟩ := ih _ _ _ _ _ h
        refine ⟨?_, fun _ => hz, ?_, ?_⟩
        · intro t ht
          rcases List.mem_cons.1 ht with h5 | h5
          · rw [h5]; simpa using hw
          · exact h1 t h5
        · rw [h3]; rfl
        · rw [h4]; simp [mkGens]

theorem setupLoop_total (hb : Nat) (hz : hb ≠ 0) : ∀ (l : List Shard) (i : Nat) (avg : F64)
    (gens : List shardGen), (∀ s ∈ l, F64.lt s.Weight F64.zero = false) →
    setupLoop hb l i avg gens = .ok (sumWeights avg l, gens ++ mkGens hb i l) := by
  intro l
  induction l with
  | nil => intro i avg gens _; simp [setupLoop, sumWeights, mkGens]
  | cons s l ih =>
    intro i avg gens h
    simp only [setupLoop]
    rw [if_neg (by simp [h s (List.mem_cons_self _ _)]), if_neg hz,
      ih _ _ _ (fun t ht => h t (List.mem_cons_of_mem _ ht))]
    simp [sumWeights, mkGens]

/-! ## The quota loop -/

theorem map_set_same {α β : Type} (f : α → β) : ∀ (l : List α) (k : Nat) (v0 v : α),
    l[k]? = some v0 → f v = f v0 → (l.set k v).map f = l.map f := by
  intro l
  induction l with
  | nil => intro k v0 v h; simp at h
  | cons a l ih =>
    intro k v0 v h hf
    cases k with
    | zero =>
      simp only [List.getElem?_cons_zero, Option.some.injEq] at h
      subst h
      simp [hf]
    | succ k =>
      simp only [List.getElem?_cons_succ] at h
      simp only [List.set_cons_succ, List.map_cons]
      rw [ih k v0 v h hf]

/-- If the quota loop exits, `rest` is zero there, the quotas are not negative and sum up
to what `rest` was plus what had been granted, and only `cnt` and `w` of a generator
have changed. -/
theorem quotaLoop_ok (avg : F64) (havg : avg.NotNeg) : ∀ (fuel i : Nat) (rest : Int)
    (gens : List shardGen) (r : Int) (gens1 : List shardGen), 0 ≤ rest →
    (∀ g ∈ gens, 0 ≤ g.cnt) → quotaLoop avg fuel i rest gens = .ok (r, gens1) →
    r = 0 ∧ gens1.map shardGen.fixed = gens.map shardGen.fixed ∧ (∀ g ∈ gens1, 0 ≤ g.cnt) ∧
      (gens1.map fun g => g.cnt).sum = rest + (gens.map fun g => g.cnt).sum := by
  intro fuel
  induction fuel with
  | zero => intro i rest gens r gens1 _ _ h; simp [quotaLoop] at h
  | succ fuel ih =>
    intro i rest gens r gens1 hrest hcnt h
    simp only [quotaLoop] at h
    by_cases hr : 0 < rest
    · rw [if_pos hr] at h
      cases hk : gens[i % gens.length]? with
      | none => rw [hk] at h; simp at h
      | some sh =>
        rw [hk] at h
        simp only at h
        have hmem : sh ∈ gens := List.getElem?_mem hk
        by_cases hge : F64.ge (F64.add sh.w sh.sh.Weight) avg = true
        · rw [if_pos hge] at h
          cases ha : F64.toInt (F64.div (F64.add sh.w sh.sh.Weight) avg) with
          | none => rw [ha] at h; simp at h
          | some a =>
            rw [ha] at h
            simp only at h
            have ha0 : 0 ≤ a := toInt_div_nonneg _ _ _ havg hge ha
            have hadd : 0 ≤ (if rest < a then rest else a) ∧ (if rest < a then rest else a) ≤ rest := by
              split <;> omega
            obtain ⟨h1, h2, h3, h4⟩ := ih _ _ _ _ _ (by omega) (by
              intro g hg
              rcases mem_set_cases _ _ _ _ hg with h5 | h5
              · rw [h5]
                have := hcnt sh hmem
                show 0 ≤ sh.cnt + (if rest < a then rest else a)
                omega
              · exact hcnt g h5) h
            refine ⟨h1, ?_, h3, ?_⟩
            · rw [h2]; exact map_set_same _ _ _ _ _ hk rfl
            · rw [h4, sum_map_set (fun g => g.cnt) gens _ sh _ hk]
              show rest - (if rest < a then rest else a) + ((gens.map fun g => g.cnt).sum - sh.cnt +
                (sh.cnt + (if rest < a then rest else a))) = _
              ring
        · rw [if_neg hge] at h
          obtain ⟨h1, h2, h3, h4⟩ := ih _ _ _ _ _ hrest (by
            intro g hg
            rcases mem_set_cases _ _ _ _ hg with h5 | h5
            · rw [h5]; exact hcnt sh hmem
            · exact hcnt g h5) h
          refine ⟨h1, ?_, h3, ?_⟩
          · rw [h2]; exact map_set_same _ _ _ _ _ hk rfl
          · rw [h4, sum_map_set (fun g => g.cnt) gens _ sh _ hk]
            show rest + ((gens.map fun g => g.cnt).sum - sh.cnt + sh.cnt) = _
            ring
    · rw [if_neg hr] at h
      simp only [Except.ok.injEq, Prod.mk.injEq] at h
      obtain ⟨h1, h2⟩ := h
      subst h1 h2
      exact ⟨by omega, rfl, hcnt, by omega⟩

/-- More fuel does not change the result of the quota loop. -/
theorem quotaLoop_mono (avg : F64) : ∀ (fuel i : Nat) (rest : Int) (gens : List shardGen)
    (r : Int × List shardGen), quotaLoop avg fuel i rest gens = .ok r →
    ∀ d, quotaLoop avg (fuel + d) i rest gens = .ok r := by
  intro fuel
  induction fuel with
  | zero => intro i rest gens r h; simp [quotaLoop] at h
  | succ fuel ih =>
    intro i rest gens r h d
    have h1 : fuel + 1 + d = (fuel + d) + 1 := by omega
    rw [h1]
    simp only [quotaLoop] at h ⊢
    by_cases hr : 0 < rest
    · rw [if_pos hr] at h ⊢
      cases hk : gens[i % gens.length]? with
      | none => rw [hk] at h; simp at h
      | some sh =>
        rw [hk] at h
        simp only at h ⊢
        by_cases hge : F64.ge (F64.add sh.w sh.sh.Weight) avg = true
        · rw [if_pos hge] at h ⊢
          cases ha : F64.toInt (F64.div (F64.add sh.w sh.sh.Weight) avg) with
          | none => rw [ha] at h; simp at h
          | some a =>
            rw [ha] at h
            simp only at h ⊢
            exact ih _ _ _ _ h d
        · rw [if_neg hge] at h ⊢
          exact ih _ _ _ _ h d
    · rw [if_neg hr] at h ⊢
      exact h

/-! ## From the loops to a run -/

theorem fixed_mem (gens gens1 : List shardGen)
    (h : gens1.map shardGen.fixed = gens.map shardGen.fixed) (g : shardGen) (hg : g ∈ gens1) :
    ∃ g0 ∈ gens, g.fixed = g0.fixed := by
  have : g.fixed ∈ gens1.map shardGen.fixed := List.mem_map_of_mem _ hg
  rw [h, List.mem_map] at this
  obtain ⟨g0, h0, h1⟩ := this
  exact ⟨g0, h0, h1.symm⟩

theorem fixed_fields (g g0 : shardGen) (h : g.fixed = g0.fixed) :
    g.start = g0.start ∧ g.pos = g0.pos ∧ g.add = g0.add ∧ g.mult = g0.mult ∧ g.ix = g0.ix ∧
      g.sh = g0.sh := by
  unfold shardGen.fixed at h
  injection h with h1 h2 h3 h4 h5 h6 h7 h8
  exact ⟨h1, h2, h3, h4, h6, h8⟩

theorem fixed_ix (gens gens1 : List shardGen)
    (h : gens1.map shardGen.fixed = gens.map shardGen.fixed) :
    gens1.map (fun g => g.ix) = gens.map (fun g => g.ix) := by
  have := congrArg (List.map fun g : shardGen => g.ix) h
  simpa [List.map_map, Function.comp, shardGen.fixed] using this

/-- The invariant holds when the placement loop is entered. -/
theorem placeInv_init (mask : Int) (T : Nat) (gens : List shardGen)
    (hodd : ∀ g ∈ gens, g.add % 2 = 1 ∧ g.mult % 4 = 1) (hpos : ∀ g ∈ gens, g.pos = 0)
    (hcnt : ∀ g ∈ gens, 0 ≤ g.cnt) (htag : ∀ g ∈ gens, g.cnt ≠ 0 → uint16 g.ix ≠ 0)
    (hsum : (gens.map fun g => g.cnt).sum = T) :
    PlaceInv mask T gens 0 gens (List.replicate T 0) [] := by
  constructor
  · simp
  · rfl
  · exact hodd
  · exact hcnt
  · exact htag
  · rw [hsum]; simp
  · simp
  · intro g hg
    exact ⟨0, hpos g hg, fun j hj => absurd hj (by omega)⟩
  · intro p hp; simp at hp
  · simp
  · intro s hs
    exfalso; apply hs
    rw [List.getD_eq_getElem?_getD]
    by_cases h : s < T
    · rw [List.getElem?_replicate_of_lt h]; rfl
    · rw [List.getElem?_eq_none (by simpa using h)]; rfl
  · intro x; simp

theorem perm_range_of_nodup (T : Nat) (l : List Nat) (hn : l.Nodup) (hlen : l.length = T)
    (hlt : ∀ s ∈ l, s < T) : l.Perm (List.range T) := by
  have hsub : l ⊆ List.range T := fun s hs => List.mem_range.2 (hlt s hs)
  exact (hn.subperm hsub).perm_of_length_le (by simp [hlen])

theorem table_eq_map_range (t : Table) : t = (List.range t.length).map (fun s => t.getD s 0) := by
  apply List.ext_getElem?
  intro n
  by_cases h : n < t.length
  · rw [List.getElem?_map, List.getElem?_range h, Option.map_some', List.getD_eq_getElem?_getD,
      List.getElem?_eq_getElem h]
    rfl
  · rw [List.getElem?_eq_none (by omega), List.getElem?_eq_none (by simp; omega)]

/-- What the invariant gives when the table is full. -/
theorem placeInv_final (mask : Int) (T : Nat) (gens0 gens : List shardGen) (t : Table)
    (ws : List (Nat × Int)) (inv : PlaceInv mask T gens0 T gens t ws) :
    t.length = T ∧ (ws.map Prod.fst).Perm (List.range T) ∧
    t.Perm (ws.map fun p => uint16 p.2) ∧
    ∀ x : Int, ((ws.map Prod.snd).count x : Int) =
      (gens0.map fun g => if g.ix = x then g.cnt else 0).sum := by
  have hlen : t.length = T := by have := inv.len_table; exact_mod_cast this
  have hwl : ws.length = T := by have := inv.rest_eq; exact_mod_cast this.symm
  have hperm : (ws.map Prod.fst).Perm (List.range T) := by
    apply perm_range_of_nodup T _ inv.w_nodup (by simp [hwl])
    intro s hs
    rw [List.mem_map] at hs
    obtain ⟨p, hp, rfl⟩ := hs
    rw [← hlen]; exact (inv.w_slot p hp).1
  refine ⟨hlen, hperm, ?_, ?_⟩
  · have h1 : t = (List.range T).map (fun s => t.getD s 0) := by
      have := table_eq_map_range t
      rw [hlen] at this; exact this
    have h2 : ((ws.map Prod.fst).map fun s => t.getD s 0).Perm
        ((List.range T).map fun s => t.getD s 0) := hperm.map _
    have h3 : ((ws.map Prod.fst).map fun s => t.getD s 0) = ws.map fun p => uint16 p.2 := by
      rw [List.map_map]
      apply List.map_congr_left
      intro p hp
      exact (inv.w_slot p hp).2.1
    rw [h3] at h2
    rw [h1]
    exact h2.symm
  · intro x
    have hz : ∀ g ∈ gens, g.cnt = 0 := by
      have hs := inv.sum
      have h0 : (gens.map fun g => g.cnt).sum = 0 := by omega
      intro g hg
      by_contra hne
      have hpos : 0 < g.cnt := lt_of_le_of_ne (inv.cnt_nonneg g hg) (Ne.symm hne)
      have hle : g.cnt ≤ (gens.map fun g => g.cnt).sum :=
        List.single_le_sum (fun x hx => by
          rw [List.mem_map] at hx
          obtain ⟨g1, hg1, rfl⟩ := hx
          exact inv.cnt_nonneg g1 hg1) _ (List.mem_map_of_mem _ hg)
      omega
    have h1 : (gens.map fun g => if g.ix = x then g.cnt else 0).sum = 0 := by
      apply List.sum_eq_zero
      intro y hy
      rw [List.mem_map] at hy
      obtain ⟨g, hg, rfl⟩ := hy
      simp [hz g hg]
    have := inv.w_count x
    omega

theorem sum_ite_ix (gens : List shardGen) (hn : (gens.map fun g => g.ix).Nodup) (g : shardGen)
    (hg : g ∈ gens) : (gens.map fun h => if h.ix = g.ix then h.cnt else 0).sum = g.cnt := by
  induction gens with
  | nil => simp at hg
  | cons a l ih =>
    simp only [List.map_cons, List.nodup_cons, List.mem_map, not_exists, not_and] at hn
    simp only [List.map_cons, List.sum_cons]
    rcases List.mem_cons.1 hg with h | h
    · subst h
      have : (l.map fun h => if h.ix = g.ix then h.cnt else 0).sum = 0 := by
        apply List.sum_eq_zero
        intro y hy
        rw [List.mem_map] at hy
        obtain ⟨h1, hh1, rfl⟩ := hy
        rw [if_neg (hn.1 h1 hh1)]
      simp [this]
    · have hne : a.ix ≠ g.ix := fun he => hn.1 g h he.symm
      rw [if_neg hne, ih hn.2 h]
      simp

theorem uint16_ix (x : Int) (h1 : 1 ≤ x) (h2 : x ≤ 65535) :
    uint16 x = x.toNat ∧ (uint16 x + 65535) % 65536 = (x - 1).toNat := by
  unfold uint16 toU64
  omega

theorem count_map_congr {α : Type} (l : List α) (f : α → Int) (F : α → Nat) (a : Nat) (x : Int)
    (h : ∀ p ∈ l, (F p = a ↔ f p = x)) : (l.map F).count a = (l.map f).count x := by
  induction l with
  | nil => rfl
  | cons p l ih =>
    simp only [List.map_cons, List.count_cons]
    rw [ih (fun q hq => h q (List.mem_cons_of_mem _ hq))]
    have := h p (List.mem_cons_self _ _)
    by_cases hp : F p = a
    · simp [hp, this.1 hp]
    · have : f p ≠ x := fun he => hp (this.2 he)
      simp [hp, this]

theorem highbits_ne_zero (b : Nat) (h1 : 1 ≤ b) (h2 : b ≤ 62) : highbitsOf ((2 : Int) ^ b) ≠ 0 := by
  have hp := two_pow_le_of_le h2
  have h2b : 2 ≤ 2 ^ b := by
    calc 2 = 2 ^ 1 := by norm_num
      _ ≤ 2 ^ b := Nat.pow_le_pow_right (by decide) h1
  have hc : ((2 : Int) ^ b) = ((2 ^ b : Nat) : Int) := by push_cast; rfl
  have hu : toU64 ((2 : Int) ^ b) = 2 ^ b := by
    rw [hc, toU64_of_nonneg _ (by omega) (by omega), Int.toNat_ofNat]
  unfold highbitsOf
  rw [hu]
  have hle : 18446744073709551615 / 2 ^ b ≤ 18446744073709551615 / 2 :=
    Nat.div_le_div_left h2b (by decide)
  generalize 18446744073709551615 / 2 ^ b = e at hle ⊢
  omega

theorem two_pow_exponent (ts : Int) (k : Nat) (h : ts = 2 ^ k) (hhi : ts < 9223372036854775808) :
    k ≤ 62 := by
  by_contra hk
  have h63 : (2 : Int) ^ 63 ≤ 2 ^ k := pow_le_pow_right₀ (by norm_num) (by omega)
  norm_num at h63
  omega

theorem mkGen_fields (hb i : Nat) (s : Shard) :
    (mkGen hb i s).pos = 0 ∧ (mkGen hb i s).cnt = 0 ∧ (mkGen hb i s).ix = (i : Int) + 1 ∧
      (mkGen hb i s).sh = s := ⟨rfl, rfl, rfl, rfl⟩

/-- The generators the placement loop starts from, from the result of the quota loop. -/
theorem goodQuotas_of_quotaLoop (sortSlice : List shardGen → List shardGen)
    (hperm : ∀ l, (sortSlice l).Perm l) (hbits : Nat) (shards : List Shard) (avg : F64)
    (havg : avg.NotNeg) (fuel : Nat) (ts : Int) (hts : 0 ≤ ts) (rest : Int)
    (quotas : List shardGen)
    (h : quotaLoop avg fuel 0 ts (sortSlice (mkGens hbits 0 shards)) = .ok (rest, quotas)) :
    rest = 0 ∧ GoodQuotas shards ts quotas := by
  have hsorted : ∀ g ∈ sortSlice (mkGens hbits 0 shards), ∃ j s, shards[j]? = some s ∧
      g = mkGen hbits (0 + j) s := fun g hg =>
    mem_mkGens hbits shards 0 g ((hperm _).subset hg)
  have hcnt0 : ∀ g ∈ sortSlice (mkGens hbits 0 shards), g.cnt = 0 := by
    intro g hg
    obtain ⟨j, s, _, rfl⟩ := hsorted g hg
    rfl
  obtain ⟨h1, h2, h3, h4⟩ := quotaLoop_ok avg havg fuel 0 ts _ rest quotas hts
    (fun g hg => by rw [hcnt0 g hg]) h
  have hsum0 : ((sortSlice (mkGens hbits 0 shards)).map fun g => g.cnt).sum = 0 := by
    apply List.sum_eq_zero
    intro y hy
    rw [List.mem_map] at hy
    obtain ⟨g, hg, rfl⟩ := hy
    exact hcnt0 g hg
  have hfix : ∀ g ∈ quotas, ∃ j s, shards[j]? = some s ∧ g.fixed = (mkGen hbits (0 + j) s).fixed := by
    intro g hg
    obtain ⟨g0, hg0, he⟩ := fixed_mem _ _ h2 g hg
    obtain ⟨j, s, hj, rfl⟩ := hsorted g0 hg0
    exact ⟨j, s, hj, he⟩
  have hixl : (quotas.map fun g => g.ix).Perm
      ((List.range shards.length).map fun j => ((j : Nat) : Int) + 1) := by
    rw [fixed_ix _ _ h2]
    have := ((hperm (mkGens hbits 0 shards)).map fun g => g.ix)
    rw [mkGens_ix] at this
    simpa using this
  refine ⟨h1, ⟨?_, ?_, h3, ?_, ?_, hixl, ?_⟩⟩
  · intro g hg
    obtain ⟨j, s, _, he⟩ := hfix g hg
    obtain ⟨_, _, ha, hm, _, _⟩ := fixed_fields _ _ he
    rw [ha, hm]; exact mkGen_odd _ _ _
  · intro g hg
    obtain ⟨j, s, _, he⟩ := hfix g hg
    obtain ⟨_, hp, _, _, _, _⟩ := fixed_fields _ _ he
    rw [hp]; rfl
  · rw [h4, hsum0]; simp
  · apply hixl.nodup_iff.2
    apply List.Nodup.map _ (List.nodup_range _)
    intro a b hab
    simp only at hab
    omega
  · intro g hg
    obtain ⟨j, s, hj, he⟩ := hfix g hg
    obtain ⟨_, _, _, _, hix, hsh⟩ := fixed_fields _ _ he
    have hjlt : j < shards.length := by
      by_contra hlt
      rw [List.getElem?_eq_none (by omega)] at hj
      simp at hj
    have hix2 : g.ix = (j : Int) + 1 := by rw [hix]; simp [mkGen]
    refine ⟨by omega, by omega, ?_⟩
    have : (g.ix - 1).toNat = j := by omega
    rw [this, hj, hsh]; rfl

theorem pow_cast (b : Nat) : (((2 ^ b : Nat) : Nat) : Int) = (2 : Int) ^ b := by
  push_cast; rfl

theorem pow_toNat (b : Nat) : ((2 : Int) ^ b).toNat = 2 ^ b := by
  rw [← pow_cast, Int.toNat_ofNat]

/-- Every run that returns went through the quota loop and the placement loop, and the
placement invariant holds at the end. -/
theorem buildRun_inv (sortSlice : List shardGen → List shardGen)
    (hperm : ∀ l, (sortSlice l).Perm l) (fuel : Nat) (shards : List Shard) (ts : Int)
    (hlo : -9223372036854775808 ≤ ts) (hhi : ts < 9223372036854775808)
    (hn : shards.length ≤ 65535) (r : Run)
    (h : buildRun sortSlice fuel shards ts = .ok r) :
    ∃ b t gensEnd, 1 ≤ b ∧ b ≤ 62 ∧ ts = 2 ^ b ∧ r.table = decrement t ∧
      GoodQuotas shards ts r.quotas ∧
      PlaceInv ((2 : Int) ^ b - 1) (2 ^ b) r.quotas (2 ^ b) gensEnd t r.writes := by
  unfold buildRun at h
  by_cases hg : ts ≤ 0 ∨ and64 ts (wrap (ts - 1)) ≠ 0
  · rw [if_pos hg] at h; simp at h
  · rw [if_neg hg] at h
    have hk := (not_congr (guard_iff ts hlo hhi)).1 hg
    simp only [not_not] at hk
    obtain ⟨b, hb⟩ := hk
    have hb62 := two_pow_exponent ts b hb hhi
    cases hs : setupLoop (highbitsOf ts) shards 0 F64.zero [] with
    | error o => rw [hs] at h; simp at h
    | ok p =>
      obtain ⟨sum, gens⟩ := p
      rw [hs] at h
      simp only at h
      obtain ⟨hw, hne, hsum, hgens⟩ := setupLoop_ok _ _ _ _ _ _ _ hs
      by_cases hz : F64.isZero sum = true
      · rw [if_pos hz] at h; simp at h
      · rw [if_neg hz] at h
        have hshards : shards ≠ [] := by
          intro he
          apply hz
          rw [hsum, he]; rfl
        have hb1 : 1 ≤ b := by
          by_contra hb0
          have : b = 0 := by omega
          rw [this] at hb
          apply hne hshards
          rw [hb]; decide
        have havg : (F64.div sum (F64.ofInt shards.length)).NotNeg := by
          apply avg_notNeg _ _ _ (by simpa using hz) (by omega)
          rw [hsum]
          exact sumWeights_notNeg _ _ (by simp [F64.NotNeg, F64.zero]) hw
        simp only [List.nil_append] at hgens
        rw [hgens] at h
        cases hq : quotaLoop (F64.div sum (F64.ofInt shards.length)) fuel 0 ts
            (sortSlice (mkGens (highbitsOf ts) 0 shards)) with
        | error o => rw [hq] at h; simp at h
        | ok p =>
          obtain ⟨rest, quotas⟩ := p
          rw [hq] at h
          simp only at h
          have hts0 : 0 ≤ ts := by rw [hb]; positivity
          obtain ⟨hrest, good⟩ := goodQuotas_of_quotaLoop sortSlice hperm _ shards _ havg fuel ts
            hts0 rest quotas hq
          cases hp : placeLoop (ts - 1) ts fuel fuel 0 rest quotas
              (List.replicate ts.toNat 0) [] with
          | error o => rw [hp] at h; simp at h
          | ok p =>
            obtain ⟨t, ws⟩ := p
            rw [hp] at h
            simp only [Except.ok.injEq] at h
            subst h
            rw [hrest, hb, pow_toNat] at hp
            have htag : ∀ g ∈ quotas, g.cnt ≠ 0 → uint16 g.ix ≠ 0 := by
              intro g hg _
              obtain ⟨h1, h2, _⟩ := good.ix_shard g hg
              rw [(uint16_ix g.ix h1 (by omega)).1]
              omega
            have hsumT : (quotas.map fun g => g.cnt).sum = ((2 ^ b : Nat) : Int) := by
              rw [good.sum, hb, pow_cast]
            have inv0 := placeInv_init ((2 : Int) ^ b - 1) (2 ^ b) quotas good.odd good.pos
              good.cnt_nonneg htag hsumT
            rw [pow_cast] at inv0
            obtain ⟨gensEnd, inv⟩ := placeLoop_ok b hb62 quotas fuel fuel 0 0 quotas _ [] t ws inv0 hp
            exact ⟨b, t, gensEnd, hb1, hb62, hb, rfl, good, inv⟩

/-- With enough fuel the run returns, given the result of the quota loop. -/
theorem buildRun_total (sortSlice : List shardGen → List shardGen)
    (hperm : ∀ l, (sortSlice l).Perm l) (shards : List Shard) (b : Nat) (hb1 : 1 ≤ b)
    (hb62 : b ≤ 62) (hw : ∀ s ∈ shards, F64.lt s.Weight F64.zero = false)
    (hz : F64.isZero (sumWeights F64.zero shards) = false) (fuelq : Nat) (rest : Int)
    (quotas : List shardGen)
    (hq : quotaLoop (F64.div (sumWeights F64.zero shards) (F64.ofInt shards.length)) fuelq 0
      (2 ^ b) (sortSlice (mkGens (highbitsOf (2 ^ b)) 0 shards)) = .ok (rest, quotas))
    (htag : ∀ g ∈ quotas, g.cnt ≠ 0 → uint16 g.ix ≠ 0)
    (fuel : Nat) (hf1 : fuelq ≤ fuel) (hf2 : 2 ^ b * shards.length + 1 ≤ fuel) :
    ∃ t ws gensEnd, buildRun sortSlice fuel shards (2 ^ b) = .ok ⟨quotas, ws, decrement t⟩ ∧
      GoodQuotas shards (2 ^ b) quotas ∧
      PlaceInv ((2 : Int) ^ b - 1) (2 ^ b) quotas (2 ^ b) gensEnd t ws := by
  have hp := two_pow_le_of_le hb62
  have hc := pow_cast b
  have hts0 : (0 : Int) ≤ 2 ^ b := by positivity
  have hhi : (2 : Int) ^ b < 9223372036854775808 := by omega
  have hlo : -9223372036854775808 ≤ (2 : Int) ^ b := by omega
  have hg : ¬ ((2 : Int) ^ b ≤ 0 ∨ and64 (2 ^ b) (wrap (2 ^ b - 1)) ≠ 0) := by
    rw [guard_iff _ hlo hhi]
    simp only [not_not]
    exact ⟨b, rfl⟩
  have havg : (F64.div (sumWeights F64.zero shards) (F64.ofInt shards.length)).NotNeg := by
    apply avg_notNeg _ _ _ hz (by omega)
    exact sumWeights_notNeg _ _ (by simp [F64.NotNeg, F64.zero]) hw
  obtain ⟨hrest, good⟩ := goodQuotas_of_quotaLoop sortSlice hperm _ shards _ havg fuelq _
    hts0 rest quotas hq
  have hq2 := quotaLoop_mono _ _ _ _ _ _ hq (fuel - fuelq)
  have hfe : fuelq + (fuel - fuelq) = fuel := by omega
  rw [hfe] at hq2
  have hsumT : (quotas.map fun g => g.cnt).sum = ((2 ^ b : Nat) : Int) := by
    rw [good.sum, pow_cast]
  have inv0 := placeInv_init ((2 : Int) ^ b - 1) (2 ^ b) quotas good.odd good.pos
    good.cnt_nonneg htag hsumT
  rw [pow_cast] at inv0
  have hlen : quotas.length = shards.length := by
    have := good.ix_perm.length_eq
    simpa using this
  obtain ⟨⟨t, ws⟩, hpl⟩ := placeLoop_total b hb62 quotas fuel (by
      have : 2 ^ b ≤ 2 ^ b * shards.length + 1 := by
        have hs : 0 < shards.length := by
          rcases Nat.eq_zero_or_pos shards.length with h0 | h0
          · exfalso
            have : shards = [] := List.length_eq_zero.1 h0
            rw [this] at hz
            simp [sumWeights, F64.isZero, F64.zero] at hz
          · exact h0
        nlinarith
      omega) (2 ^ b) fuel 0 0 quotas _ [] inv0 (by simp [pow_toNat]) (by rw [hlen]; exact hf2)
  obtain ⟨gensEnd, inv⟩ := placeLoop_ok b hb62 quotas fuel fuel 0 0 quotas _ [] t ws inv0 hpl
  refine ⟨t, ws, gensEnd, ?_, good, inv⟩
  unfold buildRun
  rw [if_neg hg, setupLoop_total _ (highbits_ne_zero b hb1 hb62) _ _ _ _ hw]
  simp only [List.nil_append]
  rw [if_neg (by simp [hz]), hq2]
  simp only
  rw [hrest, pow_toNat, hpl]

/-- The returned table, read off the placement invariant, for at most 65535 shards. -/
theorem table_facts (shards : List Shard) (hn : shards.length ≤ 65535) (b : Nat)
    (quotas gensEnd : List shardGen) (t : Table) (ws : List (Nat × Int))
    (good : GoodQuotas shards (2 ^ b) quotas)
    (inv : PlaceInv ((2 : Int) ^ b - 1) (2 ^ b) quotas (2 ^ b) gensEnd t ws) :
    (decrement t).length = 2 ^ b ∧ (ws.map Prod.fst).Perm (List.range (2 ^ b)) ∧
    (∀ p ∈ ws, (decrement t).getD p.1 0 = (p.2 - 1).toNat ∧
      ∃ g ∈ quotas, g.ix = p.2 ∧ shards[(p.2 - 1).toNat]? = some g.sh) ∧
    (∀ g ∈ quotas, (((decrement t).count (g.ix - 1).toNat : Nat) : Int) = g.cnt) := by
  rw [← pow_cast] at inv
  obtain ⟨hlen, hperm, htperm, hcount⟩ := placeInv_final _ _ _ _ _ _ inv
  have hwix : ∀ p ∈ ws, ∃ g ∈ quotas, g.ix = p.2 := by
    intro p hp
    have h1 := hcount p.2
    have hpos : 0 < (ws.map Prod.snd).count p.2 :=
      List.count_pos_iff.2 (List.mem_map_of_mem _ hp)
    by_contra hc
    push_neg at hc
    have : (quotas.map fun g => if g.ix = p.2 then g.cnt else 0).sum = 0 := by
      apply List.sum_eq_zero
      intro y hy
      rw [List.mem_map] at hy
      obtain ⟨g, hg, rfl⟩ := hy
      rw [if_neg (hc g hg)]
    omega
  have hwrange : ∀ p ∈ ws, 1 ≤ p.2 ∧ p.2 ≤ 65535 := by
    intro p hp
    obtain ⟨g, hg, he⟩ := hwix p hp
    obtain ⟨h1, h2, _⟩ := good.ix_shard g hg
    rw [← he]; omega
  refine ⟨by simp [decrement, hlen], hperm, ?_, ?_⟩
  · intro p hp
    obtain ⟨g, hg, he⟩ := hwix p hp
    obtain ⟨h1, h2⟩ := hwrange p hp
    refine ⟨?_, g, hg, he, by rw [← he]; exact (good.ix_shard g hg).2.2⟩
    have hs := inv.w_slot p hp
    unfold decrement
    rw [List.getD_eq_getElem?_getD, List.getElem?_map, List.getElem?_eq_getElem hs.1]
    have h3 : t[p.1] = uint16 p.2 := by
      have := hs.2.1
      rw [List.getD_eq_getElem?_getD, List.getElem?_eq_getElem hs.1] at this
      exact this
    simp only [Option.map_some', Option.getD_some]
    rw [h3]
    exact (uint16_ix p.2 h1 h2).2
  · intro g hg
    obtain ⟨hg1, hg2, _⟩ := good.ix_shard g hg
    have hd : (decrement t).Perm (ws.map fun p => (uint16 p.2 + 65535) % 65536) := by
      have := htperm.map (fun v => (v + 65535) % 65536)
      rw [List.map_map] at this
      exact this
    rw [hd.count_eq, count_map_congr ws (fun p => p.2) _ _ g.ix, hcount g.ix,
      sum_ite_ix quotas good.ix_nodup g hg]
    intro p hp
    obtain ⟨h1, h2⟩ := hwrange p hp
    rw [(uint16_ix p.2 h1 h2).2]
    constructor
    · intro h; omega
    · intro h; rw [h]

/-! ## The sort -/

theorem goSort_sorts : SortsByHash goSort := by
  intro l
  haveI : IsTotal shardGen hashLE := ⟨fun a b => Nat.le_total _ _⟩
  haveI : IsTrans shardGen hashLE := ⟨fun a b c h1 h2 => Nat.le_trans h1 h2⟩
  exact ⟨List.perm_insertionSort hashLE l, List.sorted_insertionSort hashLE l⟩

/-! ## More shards than a table cell can name -/

theorem mkGens_append (hb : Nat) : ∀ (l1 l2 : List Shard) (i : Nat),
    mkGens hb i (l1 ++ l2) = mkGens hb i l1 ++ mkGens hb (i + l1.length) l2 := by
  intro l1
  induction l1 with
  | nil => intro l2 i; simp [mkGens]
  | cons s l ih =>
    intro l2 i
    show mkGen hb i s :: mkGens hb (i + 1) (l ++ l2) =
      mkGen hb i s :: mkGens hb (i + 1) l ++ mkGens hb (i + (l.length + 1)) l2
    rw [ih l2 (i + 1)]
    have : i + 1 + l.length = i + (l.length + 1) := by omega
    rw [this]; rfl

theorem sumWeights_zero : ∀ l : List Shard, (∀ s ∈ l, s.Weight = F64.zero) →
    sumWeights F64.zero l = F64.zero := by
  intro l
  induction l with
  | nil => intro _; rfl
  | cons s l ih =>
    intro h
    have h0 : F64.add F64.zero F64.zero = F64.zero := by decide!
    simp only [sumWeights, List.foldl_cons]
    rw [h s (List.mem_cons_self _ _), h0]
    exact ih (fun t ht => h t (List.mem_cons_of_mem _ ht))

theorem sumWeights_append (a : F64) (l1 l2 : List Shard) :
    sumWeights a (l1 ++ l2) = sumWeights (sumWeights a l1) l2 := by
  simp [sumWeights, List.foldl_append]

theorem orderedInsert_head (b : shardGen) (l : List shardGen) (h : ∀ g ∈ l, hashLE b g) :
    l.orderedInsert hashLE b = b :: l := by
  cases l with
  | nil => rfl
  | cons c l => simp [List.orderedInsert, h c (List.mem_cons_self _ _)]

/-- Sorting a sorted list followed by one generator with a smaller hash moves that
generator to the front. -/
theorem goSort_append_min (a : shardGen) : ∀ l : List shardGen, l.Pairwise hashLE →
    (∀ g ∈ l, ¬ hashLE g a) → goSort (l ++ [a]) = a :: l := by
  intro l
  induction l with
  | nil => intro _ _; rfl
  | cons b l ih =>
    intro hp hlt
    rw [List.pairwise_cons] at hp
    have h1 := ih hp.2 (fun g hg => hlt g (List.mem_cons_of_mem _ hg))
    unfold goSort at h1 ⊢
    show List.orderedInsert hashLE b (List.insertionSort hashLE (l ++ [a])) = a :: b :: l
    rw [h1]
    simp only [List.orderedInsert]
    rw [if_neg (hlt b (List.mem_cons_self _ _)), orderedInsert_head b l hp.1]

theorem mkGens_sorted (hb : Nat) : ∀ (l : List Shard) (i : Nat),
    l.Pairwise (fun a b => a.Hash ≤ b.Hash) → (mkGens hb i l).Pairwise hashLE := by
  intro l
  induction l with
  | nil => intro i _; simp [mkGens]
  | cons s l ih =>
    intro i hp
    rw [List.pairwise_cons] at hp
    simp only [mkGens, List.pairwise_cons]
    refine ⟨?_, ih (i + 1) hp.2⟩
    intro g hg
    obtain ⟨j, t, hj, rfl⟩ := mem_mkGens hb l (i + 1) g hg
    exact hp.1 t (List.getElem?_mem hj)

/-- The first turn of the quota loop when the first generator takes every slot. -/
theorem quotaLoop_first (avg : F64) (g : shardGen) (tl : List shardGen) (rest a : Int)
    (w0 wt : F64) (hw0 : g.w = w0) (hwt : g.sh.Weight = wt)
    (hge : F64.ge (F64.add w0 wt) avg = true)
    (ha : F64.toInt (F64.div (F64.add w0 wt) avg) = some a) (h0 : 0 < rest)
    (hle : rest ≤ a) (fuel : Nat) :
    quotaLoop avg (fuel + 2) 0 rest (g :: tl) =
      .ok (0, { g with cnt := g.cnt + rest,
                       w := F64.sub (F64.add g.w g.sh.Weight) (F64.mul avg (F64.ofInt rest)) } :: tl) := by
  have hadd : (if rest < a then rest else a) = rest := by
    split <;> omega
  subst hw0 hwt
  simp only [quotaLoop]
  rw [if_pos h0]
  simp only [Nat.zero_mod, List.getElem?_cons_zero, hge, if_true, ha, hadd, sub_self,
    lt_self_iff_false, if_false, List.set_cons_zero]


theorem placeInv_final_pow (b : Nat) (quotas gensEnd : List shardGen) (t : Table)
    (ws : List (Nat × Int))
    (inv : PlaceInv ((2 : Int) ^ b - 1) (2 ^ b) quotas (2 ^ b) gensEnd t ws) :
    t.length = 2 ^ b ∧ (ws.map Prod.fst).Perm (List.range (2 ^ b)) ∧
    t.Perm (ws.map fun p => uint16 p.2) ∧
    ∀ x : Int, ((ws.map Prod.snd).count x : Int) =
      (quotas.map fun g => if g.ix = x then g.cnt else 0).sum := by
  rw [← pow_cast] at inv
  exact placeInv_final _ _ _ _ _ _ inv

theorem zeroShards_weight (n : Nat) : ∀ s ∈ zeroShards n, s.Weight = F64.zero := by
  intro s hs
  unfold zeroShards at hs
  rw [List.mem_map] at hs
  obtain ⟨j, _, rfl⟩ := hs
  rfl

theorem zeroShards_length (n : Nat) : (zeroShards n).length = n := by
  unfold zeroShards
  rw [List.length_map, List.length_range]

theorem zeroShards_sort (hb n : Nat) (s : Shard) (hs : s.Hash = 0) :
    goSort (mkGens hb 0 (zeroShards n ++ [s])) = mkGen hb n s :: mkGens hb 0 (zeroShards n) := by
  rw [mkGens_append, zeroShards_length, Nat.zero_add]
  show goSort (mkGens hb 0 (zeroShards n) ++ [mkGen hb n s]) = _
  apply goSort_append_min
  · apply mkGens_sorted
    unfold zeroShards
    rw [List.pairwise_map]
    exact (List.pairwise_lt_range n).imp (fun h => by simp only; omega)
  · intro g hg
    obtain ⟨j, z, hj, rfl⟩ := mem_mkGens _ _ _ g hg
    have hz := List.getElem?_mem hj
    unfold zeroShards at hz
    rw [List.mem_map] at hz
    obtain ⟨k, _, rfl⟩ := hz
    show ¬ (k + 1 ≤ s.Hash)
    rw [hs]
    omega

theorem manyShards_length : manyShards.length = 65537 := by
  unfold manyShards
  rw [List.length_append, zeroShards_length, List.length_singleton]

theorem manyShards_sum : sumWeights F64.zero manyShards = F64.add F64.zero (F64.lit 1 1) := by
  unfold manyShards
  rw [sumWeights_append, sumWeights_zero _ (zeroShards_weight _)]
  simp only [sumWeights, List.foldl_cons, List.foldl_nil]

theorem manyShards_weights : ∀ s ∈ manyShards, F64.lt s.Weight F64.zero = false := by
  intro s hs
  unfold manyShards at hs
  rcases List.mem_append.1 hs with h | h
  · rw [zeroShards_weight _ s h]; decide
  · simp only [List.mem_singleton] at h
    rw [h]; decide!

theorem manyShards_sum_ne_zero : F64.isZero (sumWeights F64.zero manyShards) = false := by
  rw [manyShards_sum]; decide!

theorem zeroShards_cnt (hb n : Nat) : ∀ g ∈ mkGens hb 0 (zeroShards n), g.cnt = 0 := by
  intro g hg
  obtain ⟨j, s, _, rfl⟩ := mem_mkGens _ _ _ g hg
  rfl

theorem manyShards_quota (hb : Nat) (ts : Int) (h0 : 0 < ts) (hle : ts ≤ 65537) :
    quotaLoop (F64.div (sumWeights F64.zero manyShards) (F64.ofInt manyShards.length)) 2 0
    ts (goSort (mkGens hb 0 manyShards)) =
    .ok (0, { mkGen hb 65536 ⟨0, F64.lit 1 1⟩ with
                cnt := (mkGen hb 65536 ⟨0, F64.lit 1 1⟩).cnt + ts,
                w := F64.sub (F64.add (mkGen hb 65536 ⟨0, F64.lit 1 1⟩).w
                    (mkGen hb 65536 ⟨0, F64.lit 1 1⟩).sh.Weight)
                  (F64.mul (F64.div (F64.add F64.zero (F64.lit 1 1)) (F64.ofInt 65537))
                    (F64.ofInt ts)) } ::
          mkGens hb 0 (zeroShards 65536)) := by
  have hge : F64.ge (F64.add F64.zero (F64.lit 1 1))
      (F64.div (F64.add F64.zero (F64.lit 1 1)) (F64.ofInt 65537)) = true := by decide!
  have ha : F64.toInt (F64.div (F64.add F64.zero (F64.lit 1 1))
      (F64.div (F64.add F64.zero (F64.lit 1 1)) (F64.ofInt 65537))) = some 65537 := by decide!
  have hcast : ((manyShards.length : Nat) : Int) = 65537 := by rw [manyShards_length]; rfl
  have hsort : goSort (mkGens hb 0 manyShards) =
      mkGen hb 65536 ⟨0, F64.lit 1 1⟩ :: mkGens hb 0 (zeroShards 65536) := by
    unfold manyShards
    exact zeroShards_sort _ _ _ rfl
  rw [manyShards_sum, hcast, hsort]
  exact quotaLoop_first (F64.div (F64.add F64.zero (F64.lit 1 1)) (F64.ofInt 65537))
    (mkGen hb 65536 ⟨0, F64.lit 1 1⟩) (mkGens hb 0 (zeroShards 65536))
    ts 65537 F64.zero (F64.lit 1 1) rfl rfl hge ha h0 hle 0

theorem count_of_single (ws : List (Nat × Int)) (g : shardGen) (tl : List shardGen) (x : Int)
    (n : Nat) (hcount : ((ws.map Prod.snd).count x : Int) =
      ((g :: tl).map fun g => if g.ix = x then g.cnt else 0).sum)
    (hix : g.ix = x) (hcnt : g.cnt = n) (htail : ∀ g ∈ tl, g.cnt = 0) :
    (ws.map Prod.snd).count x = n := by
  have h2 : (tl.map fun g => if g.ix = x then g.cnt else 0).sum = 0 := by
    apply List.sum_eq_zero
    intro y hy
    rw [List.mem_map] at hy
    obtain ⟨g, hg, rfl⟩ := hy
    rw [htail g hg]; simp
  rw [List.map_cons, List.sum_cons, h2, if_pos hix, hcnt, add_zero] at hcount
  exact Int.ofNat.inj hcount
/-! ## Errors are not tables -/

theorem setupLoop_error (hb : Nat) : ∀ (l : List Shard) (i : Nat) (avg : F64)
    (gens : List shardGen) (o : Outcome), setupLoop hb l i avg gens = .error o →
    ∀ t, o ≠ .table t := by
  intro l
  induction l with
  | nil => intro i avg gens o h; simp [setupLoop] at h
  | cons s l ih =>
    intro i avg gens o h t
    simp only [setupLoop] at h
    split_ifs at h with h1 h2
    · injection h with h; rw [← h]; simp
    · injection h with h; rw [← h]; simp
    · exact ih _ _ _ _ h t

theorem quotaLoop_error (avg : F64) : ∀ (fuel i : Nat) (rest : Int) (gens : List shardGen)
    (o : Outcome), quotaLoop avg fuel i rest gens = .error o → ∀ t, o ≠ .table t := by
  intro fuel
  induction fuel with
  | zero => intro i rest gens o h t; simp only [quotaLoop] at h; injection h with h; rw [← h]; simp
  | succ n ih =>
    intro i rest gens o h t
    simp only [quotaLoop] at h
    split_ifs at h with h0
    · split at h
      · injection h with h; rw [← h]; simp
      · split_ifs at h with hge
        · split at h
          · injection h with h; rw [← h]; simp
          · exact ih _ _ _ _ h t
        · exact ih _ _ _ _ h t

theorem placeLoop_error (mask T : Int) (pfuel : Nat) : ∀ (fuel i : Nat) (rest : Int)
    (gens : List shardGen) (table : Table) (ws : List (Nat × Int)) (o : Outcome),
    placeLoop mask T pfuel fuel i rest gens table ws = .error o → ∀ t, o ≠ .table t := by
  intro fuel
  induction fuel with
  | zero =>
    intro i rest gens table ws o h t
    simp only [placeLoop] at h; injection h with h; rw [← h]; simp
  | succ n ih =>
    intro i rest gens table ws o h t
    simp only [placeLoop] at h
    split_ifs at h with h0
    · split at h
      · injection h with h; rw [← h]; simp
      · split_ifs at h with hc
        · exact ih _ _ _ _ _ _ h t
        · split at h
          · injection h with h; rw [← h]; simp
          · exact ih _ _ _ _ _ _ h t

theorem buildRun_error (sortSlice : List shardGen → List shardGen) (fuel : Nat)
    (shards : List Shard) (ts : Int) (o : Outcome)
    (h : buildRun sortSlice fuel shards ts = .error o) : ∀ t, o ≠ .table t := by
  intro t
  unfold buildRun at h
  split_ifs at h with hg
  · injection h with h; rw [← h]; simp
  · split at h
    · next o1 hs => injection h with h; rw [← h]; exact setupLoop_error _ _ _ _ _ _ hs t
    · split_ifs at h with hz
      · injection h with h; rw [← h]; simp
      · split at h
        · next o1 hq => injection h with h; rw [← h]; exact quotaLoop_error _ _ _ _ _ _ hq t
        · split at h
          · next o1 hp =>
            injection h with h; rw [← h]; exact placeLoop_error _ _ _ _ _ _ _ _ _ _ hp t
          · simp at h

theorem BuildTable_of_run (sortSlice : List shardGen → List shardGen) (fuel : Nat)
    (shards : List Shard) (tableSize : Int) (r : Run)
    (h : buildRun sortSlice fuel shards tableSize = .ok r) :
    BuildTable sortSlice fuel shards tableSize = .table r.table := by
  unfold BuildTable
  rw [h]

theorem run_of_BuildTable (sortSlice : List shardGen → List shardGen) (fuel : Nat)
    (shards : List Shard) (tableSize : Int) (t : Table)
    (h : BuildTable sortSlice fuel shards tableSize = .table t) :
    ∃ r, buildRun sortSlice fuel shards tableSize = .ok r ∧ r.table = t := by
  unfold BuildTable at h
  cases hr : buildRun sortSlice fuel shards tableSize with
  | error o =>
    rw [hr] at h
    exact absurd h (buildRun_error _ _ _ _ _ hr t)
  | ok r =>
    rw [hr] at h
    injection h with h
    exact ⟨r, rfl, h⟩
theorem list_two_of_count (l : List Int) (x : Int) (hlen : l.length = 2) (hc : l.count x = 2) :
    l = [x, x] := by
  have h := (List.count_eq_length (a := x) (l := l)).1 (by rw [hc, hlen])
  match l, hlen, h with
  | [a, b], _, h =>
    rw [← h a (by simp), ← h b (by simp)]

theorem list_two_of_perm (t : Table) (v : Nat) (h : t.Perm [v, v]) : t = [v, v] := by
  have hlen : t.length = 2 := h.length_eq
  have hm : ∀ a ∈ t, a = v := fun a ha => by
    have := h.subset ha
    simpa using this
  match t, hlen, hm with
  | [a, b], _, hm => rw [hm a (by simp), hm b (by simp)]

theorem manyShards_run : ∃ r, buildRun goSort 200000 manyShards (2 ^ 1) = .ok r ∧
    r.table = [0, 0] ∧ r.writes.map Prod.snd = [65537, 65537] ∧
    (∀ g ∈ r.quotas, g.ix = 1 → g.cnt = 0) := by
  have hq := manyShards_quota (highbitsOf (2 ^ 1)) (2 ^ 1) (by norm_num) (by norm_num)
  have hg0 := mkGen_fields (highbitsOf (2 ^ 1)) 65536 ⟨0, F64.lit 1 1⟩
  generalize mkGen (highbitsOf (2 ^ 1)) 65536 ⟨0, F64.lit 1 1⟩ = g0 at hq hg0
  have htail := zeroShards_cnt (highbitsOf (2 ^ 1)) 65536
  generalize mkGens (highbitsOf (2 ^ 1)) 0 (zeroShards 65536) = tl at hq htail
  obtain ⟨t, ws, gensEnd, hrun, _, inv⟩ := buildRun_total goSort (fun l => (goSort_sorts l).1)
    manyShards 1 (le_refl 1) (by norm_num) manyShards_weights manyShards_sum_ne_zero 2 0 _ hq
    (by
      intro g hg hc
      rcases List.mem_cons.1 hg with h | h
      · rw [h]
        show uint16 g0.ix ≠ 0
        rw [hg0.2.2.1]; decide
      · exact absurd (htail g h) hc)
    200000 (by norm_num) (by rw [manyShards_length]; norm_num)
  obtain ⟨_, hperm, htperm, hcount⟩ := placeInv_final_pow _ _ _ _ _ inv
  have hwl : ws.length = 2 := by
    have := hperm.length_eq
    simpa using this
  have hc2 : (ws.map Prod.snd).count 65537 = 2 :=
    count_of_single ws _ tl 65537 2 (hcount 65537)
      (by show g0.ix = 65537; rw [hg0.2.2.1]; decide)
      (by show g0.cnt + 2 ^ 1 = 2; rw [hg0.2.1]; decide) htail
  have hws : ws.map Prod.snd = [65537, 65537] :=
    list_two_of_count _ _ (by simp [hwl]) hc2
  have ht : t = [1, 1] := by
    apply list_two_of_perm
    have : (ws.map fun p => uint16 p.2) = (ws.map Prod.snd).map uint16 := by
      rw [List.map_map]; rfl
    rw [this, hws] at htperm
    exact htperm
  refine ⟨_, hrun, ?_, hws, ?_⟩
  · show decrement t = [0, 0]
    rw [ht]; rfl
  · intro g hg hix
    rcases List.mem_cons.1 hg with h | h
    · exfalso
      rw [h] at hix
      have : g0.ix = 1 := hix
      rw [hg0.2.2.1] at this
      norm_num at this
    · exact htail g h

theorem rot3_length {α : Type} (i : Nat) (x y z : α) : (rot3 i x y z).length = 3 := by
  unfold rot3; split_ifs <;> rfl

theorem rot3_get {α : Type} (i : Nat) (x y z : α) : (rot3 i x y z)[i % 3]? = some x := by
  unfold rot3
  split_ifs with h0 h1
  · rw [h0]; rfl
  · rw [h1]; rfl
  · have : i % 3 = 2 := by omega
    rw [this]; rfl

theorem rot3_set {α : Type} (i : Nat) (x y z v : α) :
    (rot3 i x y z).set (i % 3) v = rot3 (i + 1) y z v := by
  unfold rot3
  have h3 := Nat.mod_lt i (by norm_num : 0 < 3)
  rcases (by omega : i % 3 = 0 ∨ i % 3 = 1 ∨ i % 3 = 2) with h | h | h
  · have h' : (i + 1) % 3 = 1 := by omega
    simp [h, h']
  · have h' : (i + 1) % 3 = 2 := by omega
    simp [h, h']
  · have h' : (i + 1) % 3 = 0 := by omega
    simp [h, h']

theorem rot3_perm {α : Type} (i : Nat) (x y z : α) : (rot3 i x y z).Perm [x, y, z] := by
  unfold rot3
  split_ifs
  · exact List.Perm.refl _
  · exact (@List.perm_append_comm _ [x, y] [z]).symm
  · exact (@List.perm_append_comm _ [x] [y, z]).symm

/-- The loop `quota3` is the quota loop on three generators. -/
theorem quota3_sound (avg : F64) : ∀ (fuel i rest : Nat) (a b c : QS) (ga gb gc : shardGen),
    QS.Of ga a → QS.Of gb b → QS.Of gc c → ∀ r, quota3 avg fuel i rest a b c = some r →
    ∃ ga1 gb1 gc1, QS.Of ga1 r.2.1 ∧ QS.Of gb1 r.2.2.1 ∧ QS.Of gc1 r.2.2.2 ∧
      quotaLoop avg fuel i rest (rot3 i ga gb gc) = .ok (0, rot3 r.1 ga1 gb1 gc1) := by
  intro fuel
  induction fuel with
  | zero => intro i rest a b c ga gb gc _ _ _ r h; simp [quota3] at h
  | succ n ih =>
    intro i rest a b c ga gb gc ha hb hc r h
    simp only [quota3, withF64_eq, withNat_eq] at h
    simp only [quotaLoop, rot3_length, rot3_get, rot3_set]
    by_cases h0 : 0 < rest
    · have h0i : (0 : Int) < (rest : Int) := by exact_mod_cast h0
      rw [if_pos h0] at h
      rw [if_pos h0i, ha.1, ha.2.2]
      by_cases hge : F64.ge (F64.add a.w a.weight) avg = true
      · rw [if_pos hge] at h
        rw [if_pos hge]
        cases hti : F64.toInt (F64.div (F64.add a.w a.weight) avg) with
        | none => rw [hti] at h; simp at h
        | some x =>
          cases x with
          | negSucc m => rw [hti] at h; simp at h
          | ofNat x =>
            rw [hti] at h
            simp only at h ⊢
            have hadd : (if (rest : Int) < Int.ofNat x then (rest : Int) else Int.ofNat x) =
                ((if rest < x then rest else x : Nat) : Int) := by
              have hx : Int.ofNat x = ((x : Nat) : Int) := rfl
              rw [hx]
              split_ifs with h1 h2 h2
              · rfl
              · exfalso; apply h2; exact_mod_cast h1
              · exfalso; apply h1; exact_mod_cast h2
              · rfl
            have hle : (if rest < x then rest else x) ≤ rest := by split_ifs <;> omega
            rw [hadd]
            have hsub : (rest : Int) - ((if rest < x then rest else x : Nat) : Int) =
                ((rest - (if rest < x then rest else x) : Nat) : Int) := by
              rw [Nat.cast_sub hle]
            rw [hsub]
            refine ih _ _ _ _ _ gb gc
              { ga with cnt := ga.cnt + ((if rest < x then rest else x : Nat) : Int),
                        w := F64.sub (F64.add a.w a.weight) (F64.mul avg
                          (F64.ofInt ((if rest < x then rest else x : Nat) : Int))) }
              hb hc ?_ r h
            refine ⟨rfl, ?_, ha.2.2⟩
            show ga.cnt + _ = ((a.cnt + _ : Nat) : Int)
            rw [Nat.cast_add, ha.2.1]
      · rw [if_neg hge] at h
        rw [if_neg hge]
        refine ih _ _ _ _ _ gb gc { ga with w := F64.add a.w a.weight } hb hc ?_ r h
        exact ⟨rfl, ha.2.1, ha.2.2⟩
    · have hr : rest = 0 := by omega
      rw [if_neg h0] at h
      injection h with h
      subst h hr
      simp only [Nat.cast_zero, lt_self_iff_false, if_false]
      exact ⟨ga, gb, gc, ha, hb, hc, rfl⟩
theorem insertionSort_perm (l1 l2 : List Nat) (h : l1.Perm l2) :
    l1.insertionSort (· ≤ ·) = l2.insertionSort (· ≤ ·) := by
  apply List.eq_of_perm_of_sorted (r := (· ≤ ·))
  · exact (List.perm_insertionSort _ l1).trans (h.trans (List.perm_insertionSort _ l2).symm)
  · exact List.sorted_insertionSort _ l1
  · exact List.sorted_insertionSort _ l2

/-- The sorted slot counts are the sorted quotas. -/
theorem sortedCounts_of_quotas (shards : List Shard) (T : Int) (quotas : List shardGen)
    (good : GoodQuotas shards T quotas) (t : Table)
    (hcount : ∀ g ∈ quotas, ((t.count (g.ix - 1).toNat : Nat) : Int) = g.cnt) :
    sortedCounts t shards.length = (quotas.map fun g => g.cnt.toNat).insertionSort (· ≤ ·) := by
  unfold sortedCounts
  apply insertionSort_perm
  have h1 : (List.range shards.length).map (fun i => t.count i) =
      ((List.range shards.length).map fun j => ((j : Nat) : Int) + 1).map
        (fun x => t.count (x - 1).toNat) := by
    rw [List.map_map]
    apply List.map_congr_left
    intro j _
    simp
  have h2 : quotas.map (fun g => g.cnt.toNat) =
      (quotas.map fun g => g.ix).map (fun x => t.count (x - 1).toNat) := by
    rw [List.map_map]
    apply List.map_congr_left
    intro g hg
    have := hcount g hg
    simp only [Function.comp]
    omega
  rw [h1, h2]
  exact (good.ix_perm.map _).symm

theorem mkGens_map_sh (hb : Nat) : ∀ (l : List Shard) (i : Nat),
    (mkGens hb i l).map (fun g => g.sh) = l := by
  intro l
  induction l with
  | nil => intro i; rfl
  | cons s l ih =>
    intro i
    show (mkGen hb i s).sh :: (mkGens hb (i + 1) l).map (fun g => g.sh) = s :: l
    rw [ih]; rfl

theorem list_three {α : Type} (l : List α) (h : l.length = 3) : ∃ a b c, l = [a, b, c] := by
  match l, h with
  | [a, b, c], _ => exact ⟨a, b, c, rfl⟩

/-- The run succeeds when the quota loop does (at most 65535 shards). -/
theorem buildRun_total_small (sortSlice : List shardGen → List shardGen)
    (hperm : ∀ l, (sortSlice l).Perm l) (shards : List Shard) (hn : shards.length ≤ 65535)
    (b : Nat) (hb1 : 1 ≤ b)
    (hb62 : b ≤ 62) (hw : ∀ s ∈ shards, F64.lt s.Weight F64.zero = false)
    (hz : F64.isZero (sumWeights F64.zero shards) = false) (fuelq : Nat) (rest : Int)
    (quotas : List shardGen)
    (hq : quotaLoop (F64.div (sumWeights F64.zero shards) (F64.ofInt shards.length)) fuelq 0
      (2 ^ b) (sortSlice (mkGens (highbitsOf (2 ^ b)) 0 shards)) = .ok (rest, quotas))
    (fuel : Nat) (hf1 : fuelq ≤ fuel) (hf2 : 2 ^ b * shards.length + 1 ≤ fuel) :
    ∃ t ws gensEnd, buildRun sortSlice fuel shards (2 ^ b) = .ok ⟨quotas, ws, decrement t⟩ ∧
      GoodQuotas shards (2 ^ b) quotas ∧
      PlaceInv ((2 : Int) ^ b - 1) (2 ^ b) quotas (2 ^ b) gensEnd t ws := by
  have havg : (F64.div (sumWeights F64.zero shards) (F64.ofInt shards.length)).NotNeg := by
    apply avg_notNeg _ _ _ hz (by omega)
    exact sumWeights_notNeg _ _ (by simp [F64.NotNeg, F64.zero]) hw
  obtain ⟨_, good⟩ := goodQuotas_of_quotaLoop sortSlice hperm _ shards _ havg fuelq _
    (by positivity) rest quotas hq
  apply buildRun_total sortSlice hperm shards b hb1 hb62 hw hz fuelq rest quotas hq _ fuel hf1 hf2
  intro g hg _
  obtain ⟨h1, h2, _⟩ := good.ix_shard g hg
  rw [(uint16_ix g.ix h1 (by omega)).1]
  omega
/-- Three shards at `tableSize = 1024`: the table's sorted slot counts are the sorted quotas
`quota3` computes for the weights in the order the sort leaves them in. -/
theorem counts_of_quota3 (P : List Nat → Prop) (sortSlice : List shardGen → List shardGen)
    (hs : SortsByHash sortSlice) (shards : List Shard) (hlen : shards.length = 3)
    (hw : ∀ s ∈ shards, F64.lt s.Weight F64.zero = false)
    (hz : F64.isZero (sumWeights F64.zero shards) = false) (fuelq : Nat)
    (hQ : ∀ l, l.Perm (shards.map Shard.Weight) →
      ∃ L, quota3Counts (weightsAvg (shards.map Shard.Weight)) fuelq 1024 l = some L ∧ P L)
    (fuel : Nat) (hf1 : fuelq ≤ fuel) (hf2 : 3073 ≤ fuel) :
    ∃ t, BuildTable sortSlice fuel shards 1024 = .table t ∧ P (sortedCounts t 3) := by
  have hperm := (hs (mkGens (highbitsOf (2 ^ 10)) 0 shards)).1
  have hl3 : (sortSlice (mkGens (highbitsOf (2 ^ 10)) 0 shards)).length = 3 := by
    rw [hperm.length_eq, mkGens_length, hlen]
  obtain ⟨ga, gb, gc, hsorted⟩ := list_three _ hl3
  have hWperm : [ga.sh.Weight, gb.sh.Weight, gc.sh.Weight].Perm (shards.map Shard.Weight) := by
    have h1 := (hperm.map (fun g => g.sh)).map Shard.Weight
    rw [hsorted, mkGens_map_sh] at h1
    exact h1
  have hA : weightsAvg (shards.map Shard.Weight) =
      F64.div (sumWeights F64.zero shards) (F64.ofInt shards.length) := by
    unfold weightsAvg sumWeights
    rw [List.foldl_map, List.length_map]
  obtain ⟨L, hL, hP⟩ := hQ _ hWperm
  rw [hA] at hL
  simp only [quota3Counts] at hL
  cases hq3 : quota3 (F64.div (sumWeights F64.zero shards) (F64.ofInt shards.length)) fuelq 0
      1024 ⟨F64.zero, 0, ga.sh.Weight⟩ ⟨F64.zero, 0, gb.sh.Weight⟩
      ⟨F64.zero, 0, gc.sh.Weight⟩ with
  | none => rw [hq3] at hL; simp at hL
  | some r =>
    obtain ⟨i1, a1, b1, c1⟩ := r
    rw [hq3] at hL
    simp only [Option.some.injEq] at hL
    have hfld : ∀ g ∈ [ga, gb, gc], QS.Of g ⟨F64.zero, 0, g.sh.Weight⟩ := by
      intro g hg
      rw [← hsorted] at hg
      obtain ⟨j, s, _, rfl⟩ := mem_mkGens _ _ _ g (hperm.subset hg)
      exact ⟨rfl, rfl, rfl⟩
    obtain ⟨ga1, gb1, gc1, ha1, hb1, hc1, hql⟩ := quota3_sound _ fuelq 0 1024 _ _ _ ga gb gc
      (hfld ga (by simp)) (hfld gb (by simp)) (hfld gc (by simp)) _ hq3
    have hrot0 : rot3 0 ga gb gc = [ga, gb, gc] := rfl
    have h1024 : ((1024 : Nat) : Int) = 2 ^ 10 := by norm_num
    rw [hrot0, ← hsorted, h1024] at hql
    obtain ⟨t, ws, gensEnd, hrun, good, inv⟩ := buildRun_total_small sortSlice
      (fun l => (hs l).1) shards (by omega) 10 (by norm_num) (by norm_num) hw hz fuelq 0 _ hql
      fuel hf1 (by rw [hlen]; omega)
    obtain ⟨_, _, _, hcount⟩ := table_facts shards (by omega) 10 _ _ _ _ good inv
    have hsc := sortedCounts_of_quotas shards _ _ good _ hcount
    have hp : ((rot3 i1 ga1 gb1 gc1).map fun g => g.cnt.toNat).Perm
        [a1.cnt, b1.cnt, c1.cnt] := by
      have := (rot3_perm i1 ga1 gb1 gc1).map fun g => g.cnt.toNat
      simp only [List.map_cons, List.map_nil] at this
      rw [ha1.2.1, hb1.2.1, hc1.2.1] at this
      exact this
    rw [insertionSort_perm _ _ hp, hlen] at hsc
    have h10 : (2 : Int) ^ 10 = 1024 := by norm_num
    rw [h10] at hrun
    refine ⟨decrement t, BuildTable_of_run _ _ _ _ _ hrun, ?_⟩
    rw [hsc, hL]
    exact hP
theorem perm_two {α : Type} (y z b c : α) (h : [y, z].Perm [b, c]) :
    (y = b ∧ z = c) ∨ (y = c ∧ z = b) := by
  have hy : y ∈ [b, c] := h.subset (by simp)
  simp only [List.mem_cons, List.mem_singleton, List.not_mem_nil, or_false] at hy
  rcases hy with rfl | rfl
  · left
    exact ⟨rfl, List.singleton_perm_singleton.1 h.cons_inv⟩
  · right
    have h2 : [y, z].Perm [y, b] := h.trans (List.Perm.swap _ _ _)
    exact ⟨rfl, List.singleton_perm_singleton.1 h2.cons_inv⟩

theorem perm_three {α : Type} (l : List α) (a b c : α) (h : l.Perm [a, b, c]) :
    l ∈ perms3 a b c := by
  obtain ⟨x, y, z, rfl⟩ := list_three l h.length_eq
  have hx : x ∈ [a, b, c] := h.subset (by simp)
  simp only [List.mem_cons, List.mem_singleton, List.not_mem_nil, or_false] at hx
  unfold perms3
  rcases hx with rfl | rfl | rfl
  · rcases perm_two _ _ _ _ h.cons_inv with ⟨rfl, rfl⟩ | ⟨rfl, rfl⟩ <;> simp
  · have h2 : [x, y, z].Perm [x, a, c] := h.trans (List.Perm.swap _ _ _)
    rcases perm_two _ _ _ _ h2.cons_inv with ⟨rfl, rfl⟩ | ⟨rfl, rfl⟩ <;> simp
  · have h2 : [x, y, z].Perm [x, a, b] :=
      h.trans (@List.perm_append_comm _ [a, b] [x])
    rcases perm_two _ _ _ _ h2.cons_inv with ⟨rfl, rfl⟩ | ⟨rfl, rfl⟩ <;> simp

/-- Three shards whose weights are `a`, `b`, `c` in some order, at `tableSize = 1024`: a
property of the sorted quotas, checked for each order the sort can leave the weights in,
holds of the table's sorted slot counts. -/
theorem three_weights (P : List Nat → Prop) (sortSlice : List shardGen → List shardGen)
    (hs : SortsByHash sortSlice) (shards : List Shard) (a b c A : F64)
    (hW : (shards.map Shard.Weight).Perm [a, b, c])
    (orders : List (List F64)) (good : List (List Nat))
    (hmem : ∀ l ∈ perms3 a b c, l ∈ orders)
    (hlt : ∀ w ∈ [a, b, c], F64.lt w F64.zero = false)
    (hA : ∀ l ∈ orders, weightsAvg l = A ∧ F64.isZero (l.foldl F64.add F64.zero) = false)
    (fuelq : Nat) (hQ : ∀ l ∈ orders, quota3Counts A fuelq 1024 l ∈ good.map some)
    (hgood : ∀ L ∈ good, P L) (fuel : Nat) (hf1 : fuelq ≤ fuel) (hf2 : 3073 ≤ fuel) :
    ∃ t, BuildTable sortSlice fuel shards 1024 = .table t ∧ P (sortedCounts t 3) := by
  have hlen : shards.length = 3 := by
    have := hW.length_eq
    simpa using this
  have ho := hmem _ (perm_three _ _ _ _ hW)
  apply counts_of_quota3 P sortSlice hs shards hlen _ _ fuelq _ fuel hf1 hf2
  · intro s hs
    exact hlt _ (hW.subset (List.mem_map_of_mem _ hs))
  · have := (hA _ ho).2
    rw [List.foldl_map] at this
    exact this
  · intro l hl
    have h1 := hQ l (hmem _ (perm_three _ _ _ _ (hl.trans hW)))
    rw [(hA _ ho).1]
    rw [List.mem_map] at h1
    obtain ⟨L, hL, he⟩ := h1
    exact ⟨L, he.symm, hgood L hL⟩
/-! ## Three weighted shards at 1024 slots -/

theorem lit_values : F64.lit 1 1 = F64.fin false 4503599627370496 1022 ∧
    F64.lit 2 1 = F64.fin false 4503599627370496 1023 ∧
    F64.lit 100 1 = F64.fin false 7036874417766400 1028 ∧
    F64.lit 200 1 = F64.fin false 7036874417766400 1029 ∧
    F64.lit 1 2 = F64.fin false 4503599627370496 1021 ∧
    F64.lit 21 10 = F64.fin false 4728779608739021 1023 ∧
    F64.lit 50 1 = F64.fin false 7036874417766400 1027 ∧
    F64.lit 210 1 = F64.fin false 7388718138654720 1029 := by
  decide!

theorem avg_w112 : ∀ l ∈
    [[F64.fin false 4503599627370496 1022, F64.fin false 4503599627370496 1022,
      F64.fin false 4503599627370496 1023],
      [F64.fin false 4503599627370496 1022, F64.fin false 4503599627370496 1023,
        F64.fin false 4503599627370496 1022],
      [F64.fin false 4503599627370496 1023, F64.fin false 4503599627370496 1022,
        F64.fin false 4503599627370496 1022]],
    weightsAvg l = F64.fin false 6004799503160661 1022 ∧
      F64.isZero (l.foldl F64.add F64.zero) = false := by
  decide!

theorem quotas_w112 : ∀ l ∈
    [[F64.fin false 4503599627370496 1022, F64.fin false 4503599627370496 1022,
      F64.fin false 4503599627370496 1023],
      [F64.fin false 4503599627370496 1022, F64.fin false 4503599627370496 1023,
        F64.fin false 4503599627370496 1022],
      [F64.fin false 4503599627370496 1023, F64.fin false 4503599627370496 1022,
        F64.fin false 4503599627370496 1022]],
    quota3Counts (F64.fin false 6004799503160661 1022) 1100 1024 l ∈
      List.map some [[255, 256, 513], [256, 256, 512]] := by
  decide!

theorem avg_w100 : ∀ l ∈
    [[F64.fin false 7036874417766400 1028, F64.fin false 7036874417766400 1028,
      F64.fin false 7036874417766400 1029],
      [F64.fin false 7036874417766400 1028, F64.fin false 7036874417766400 1029,
        F64.fin false 7036874417766400 1028],
      [F64.fin false 7036874417766400 1029, F64.fin false 7036874417766400 1028,
        F64.fin false 7036874417766400 1028]],
    weightsAvg l = F64.fin false 4691249611844267 1029 ∧
      F64.isZero (l.foldl F64.add F64.zero) = false := by
  decide!

theorem quotas_w100 : ∀ l ∈
    [[F64.fin false 7036874417766400 1028, F64.fin false 7036874417766400 1028,
      F64.fin false 7036874417766400 1029],
      [F64.fin false 7036874417766400 1028, F64.fin false 7036874417766400 1029,
        F64.fin false 7036874417766400 1028],
      [F64.fin false 7036874417766400 1029, F64.fin false 7036874417766400 1028,
        F64.fin false 7036874417766400 1028]],
    quota3Counts (F64.fin false 4691249611844267 1029) 1100 1024 l ∈
      List.map some [[255, 256, 513], [256, 256, 512]] := by
  decide!

theorem avg_w05 : ∀ l ∈
    [[F64.fin false 4503599627370496 1021, F64.fin false 4503599627370496 1022,
      F64.fin false 4728779608739021 1023],
      [F64.fin false 4503599627370496 1021, F64.fin false 4728779608739021 1023,
        F64.fin false 4503599627370496 1022],
      [F64.fin false 4503599627370496 1022, F64.fin false 4503599627370496 1021,
        F64.fin false 4728779608739021 1023],
      [F64.fin false 4503599627370496 1022, F64.fin false 4728779608739021 1023,
        F64.fin false 4503599627370496 1021],
      [F64.fin false 4728779608739021 1023, F64.fin false 4503599627370496 1021,
        F64.fin false 4503599627370496 1022],
      [F64.fin false 4728779608739021 1023, F64.fin false 4503599627370496 1022,
        F64.fin false 4503599627370496 1021]],
    weightsAvg l = F64.fin false 5404319552844595 1022 ∧
      F64.isZero (l.foldl F64.add F64.zero) = false := by
  decide!

theorem quotas_w05 : ∀ l ∈
    [[F64.fin false 4503599627370496 1021, F64.fin false 4503599627370496 1022,
      F64.fin false 4728779608739021 1023],
      [F64.fin false 4503599627370496 1021, F64.fin false 4728779608739021 1023,
        F64.fin false 4503599627370496 1022],
      [F64.fin false 4503599627370496 1022, F64.fin false 4503599627370496 1021,
        F64.fin false 4728779608739021 1023],
      [F64.fin false 4503599627370496 1022, F64.fin false 4728779608739021 1023,
        F64.fin false 4503599627370496 1021],
      [F64.fin false 4728779608739021 1023, F64.fin false 4503599627370496 1021,
        F64.fin false 4503599627370496 1022],
      [F64.fin false 4728779608739021 1023, F64.fin false 4503599627370496 1022,
        F64.fin false 4503599627370496 1021]],
    quota3Counts (F64.fin false 5404319552844595 1022) 1100 1024 l ∈
      List.map some [[142, 284, 598], [142, 285, 597]] := by
  decide!

theorem avg_w50 : ∀ l ∈
    [[F64.fin false 7036874417766400 1027, F64.fin false 7036874417766400 1028,
      F64.fin false 7388718138654720 1029],
      [F64.fin false 7036874417766400 1027, F64.fin false 7388718138654720 1029,
        F64.fin false 7036874417766400 1028],
      [F64.fin false 7036874417766400 1028, F64.fin false 7036874417766400 1027,
        F64.fin false 7388718138654720 1029],
      [F64.fin false 7036874417766400 1028, F64.fin false 7388718138654720 1029,
        F64.fin false 7036874417766400 1027],
      [F64.fin false 7388718138654720 1029, F64.fin false 7036874417766400 1027,
        F64.fin false 7036874417766400 1028],
      [F64.fin false 7388718138654720 1029, F64.fin false 7036874417766400 1028,
        F64.fin false 7036874417766400 1027]],
    weightsAvg l = F64.fin false 8444249301319680 1028 ∧
      F64.isZero (l.foldl F64.add F64.zero) = false := by
  decide!

theorem quotas_w50 : ∀ l ∈
    [[F64.fin false 7036874417766400 1027, F64.fin false 7036874417766400 1028,
      F64.fin false 7388718138654720 1029],
      [F64.fin false 7036874417766400 1027, F64.fin false 7388718138654720 1029,
        F64.fin false 7036874417766400 1028],
      [F64.fin false 7036874417766400 1028, F64.fin false 7036874417766400 1027,
        F64.fin false 7388718138654720 1029],
      [F64.fin false 7036874417766400 1028, F64.fin false 7388718138654720 1029,
        F64.fin false 7036874417766400 1027],
      [F64.fin false 7388718138654720 1029, F64.fin false 7036874417766400 1027,
        F64.fin false 7036874417766400 1028],
      [F64.fin false 7388718138654720 1029, F64.fin false 7036874417766400 1028,
        F64.fin false 7036874417766400 1027]],
    quota3Counts (F64.fin false 8444249301319680 1028) 1100 1024 l ∈
      List.map some [[142, 284, 598], [142, 285, 597]] := by
  decide!

theorem avg_w111 : ∀ l ∈
    [[F64.fin false 4503599627370496 1022, F64.fin false 4503599627370496 1022,
      F64.fin false 4503599627370496 1022]],
    weightsAvg l = F64.fin false 4503599627370496 1022 ∧
      F64.isZero (l.foldl F64.add F64.zero) = false := by
  decide!

theorem quotas_w111 : ∀ l ∈
    [[F64.fin false 4503599627370496 1022, F64.fin false 4503599627370496 1022,
      F64.fin false 4503599627370496 1022]],
    quota3Counts (F64.fin false 4503599627370496 1022) 1100 1024 l ∈
      List.map some [[341, 341, 342]] := by
  decide!

theorem avg_w100s : ∀ l ∈
    [[F64.fin false 7036874417766400 1028, F64.fin false 7036874417766400 1028,
      F64.fin false 7036874417766400 1028]],
    weightsAvg l = F64.fin false 7036874417766400 1028 ∧
      F64.isZero (l.foldl F64.add F64.zero) = false := by
  decide!

theorem quotas_w100s : ∀ l ∈
    [[F64.fin false 7036874417766400 1028, F64.fin false 7036874417766400 1028,
      F64.fin false 7036874417766400 1028]],
    quota3Counts (F64.fin false 7036874417766400 1028) 1100 1024 l ∈
      List.map some [[341, 341, 342]] := by
  decide!
/-! ## The probe sequence over any window -/

theorem lcgIter_shift (m a : Int) (n0 i : Nat) :
    lcgIter m a (n0 + i) = lcgIter m a n0 + m ^ n0 * lcgIter m a i := by
  have := lcgIter_add m a n0 i
  linarith

/-- Two positions of one window of `2^b` consecutive probes give different slots. -/
theorem slotAt_window_inj (b : Nat) (hb : b ≤ 62) (start m a : Int) (hm : m % 4 = 1)
    (ha : a % 2 = 1) (n0 i j : Nat) (hi : i < 2 ^ b) (hj : j < 2 ^ b)
    (h : slotAt ((2 : Int) ^ b - 1) start m a (n0 + i) =
      slotAt ((2 : Int) ^ b - 1) start m a (n0 + j)) : i = j := by
  rw [slotAt_eq b hb, slotAt_eq b hb] at h
  have h3 : ∀ k, 0 ≤ (start + lcgIter m a k) % 2 ^ b := fun k => Int.emod_nonneg _ (by positivity)
  have h4 : (start + lcgIter m a (n0 + i)) % 2 ^ b = (start + lcgIter m a (n0 + j)) % 2 ^ b := by
    have := congrArg (fun n : Nat => (n : Int)) h
    simp only [Int.toNat_of_nonneg (h3 _)] at this
    exact this
  apply lcgIter_inj m a hm ha b i j hi hj
  have h5 : (start + lcgIter m a (n0 + i)) ≡ (start + lcgIter m a (n0 + j)) [ZMOD 2 ^ b] := h4
  have h6 : lcgIter m a (n0 + i) ≡ lcgIter m a (n0 + j) [ZMOD 2 ^ b] :=
    Int.ModEq.add_left_cancel' start h5
  rw [lcgIter_shift, lcgIter_shift] at h6
  have h7 : m ^ n0 * lcgIter m a i ≡ m ^ n0 * lcgIter m a j [ZMOD 2 ^ b] :=
    Int.ModEq.add_left_cancel' _ h6
  have h8 : (2 : Int) ^ b ∣ m ^ n0 * (lcgIter m a j - lcgIter m a i) := by
    have := h7.dvd
    rw [← mul_sub] at this
    exact this
  have hodd : m ^ n0 % 2 = 1 := by
    have := pow_mod_four m hm n0
    omega
  have h9 := odd_mul_dvd b _ _ hodd h8
  exact (Int.modEq_of_dvd h9)

theorem slotAt_window_perm (b : Nat) (hb : b ≤ 62) (start m a : Int) (hm : m % 4 = 1)
    (ha : a % 2 = 1) (n0 : Nat) :
    ((List.range (2 ^ b)).map fun n => slotAt ((2 : Int) ^ b - 1) start m a (n0 + n)).Perm
      (List.range (2 ^ b)) := by
  apply perm_range_of_nodup
  · apply List.Nodup.map_on _ (List.nodup_range _)
    intro i hi j hj h
    exact slotAt_window_inj b hb start m a hm ha n0 i j (List.mem_range.1 hi)
      (List.mem_range.1 hj) h
  · simp
  · intro s hs
    rw [List.mem_map] at hs
    obtain ⟨n, _, rfl⟩ := hs
    exact slotAt_lt b hb start m a _

/-! ## The divisor `highbits` -/

theorem toU64_two_pow (b : Nat) (h2 : b ≤ 62) : toU64 ((2 : Int) ^ b) = 2 ^ b := by
  have hp := two_pow_le_of_le h2
  have hpos : 0 < 2 ^ b := Nat.two_pow_pos b
  have hc : ((2 : Int) ^ b) = ((2 ^ b : Nat) : Int) := by push_cast; rfl
  rw [hc, toU64_of_nonneg _ (by omega) (by omega), Int.toNat_ofNat]

theorem highbits_pow (b : Nat) (h1 : 1 ≤ b) (h2 : b ≤ 62) :
    highbitsOf ((2 : Int) ^ b) = 2 ^ (64 - b) := by
  unfold highbitsOf
  rw [toU64_two_pow b h2]
  have hsplit : (18446744073709551616 : Nat) = 2 ^ (64 - b) * 2 ^ b := by
    rw [← pow_add]
    have : 64 - b + b = 64 := by omega
    rw [this]; norm_num
  have hpos : 0 < 2 ^ b := Nat.two_pow_pos b
  have hq1 : 0 < 2 ^ (64 - b) := Nat.two_pow_pos _
  have hmul : (2 ^ (64 - b) - 1) * 2 ^ b = 2 ^ (64 - b) * 2 ^ b - 2 ^ b := Nat.sub_one_mul _ _
  have h3 : 2 ^ b ≤ 2 ^ (64 - b) * 2 ^ b := Nat.le_mul_of_pos_left _ hq1
  have hq : 18446744073709551615 / 2 ^ b = 2 ^ (64 - b) - 1 := by
    apply Nat.div_eq_of_lt_le
    · omega
    · have : 2 ^ (64 - b) - 1 + 1 = 2 ^ (64 - b) := by omega
      rw [this]; omega
  rw [hq]
  have hlt : 2 ^ (64 - b) < 18446744073709551616 := by
    calc 2 ^ (64 - b) < 2 ^ 64 := Nat.pow_lt_pow_right (by decide) (by omega)
      _ = 18446744073709551616 := by norm_num
  have : 2 ^ (64 - b) - 1 + 1 = 2 ^ (64 - b) := by omega
  rw [this, Nat.mod_eq_of_lt hlt]

/-- The projection `x / highbits` of a 64-bit value lands in the table. -/
theorem project_lt (b : Nat) (h1 : 1 ≤ b) (h2 : b ≤ 62) (x : Nat)
    (hx : x < 18446744073709551616) : x / highbitsOf ((2 : Int) ^ b) < 2 ^ b := by
  rw [highbits_pow b h1 h2]
  have hsplit : (18446744073709551616 : Nat) = 2 ^ b * 2 ^ (64 - b) := by
    rw [← pow_add]
    have : b + (64 - b) = 64 := by omega
    rw [this]; norm_num
  apply Nat.div_lt_of_lt_mul
  rw [mul_comm, ← hsplit]
  exact hx
/-! ## The stages of a run that returns -/

/-- A run that returns went through the three loops. -/
theorem buildRun_stages (sortSlice : List shardGen → List shardGen) (fuel : Nat)
    (shards : List Shard) (ts : Int) (r : Run)
    (h : buildRun sortSlice fuel shards ts = .ok r) :
    (∀ s ∈ shards, F64.lt s.Weight F64.zero = false) ∧
    F64.isZero (sumWeights F64.zero shards) = false ∧
    ∃ rest t, quotaLoop (F64.div (sumWeights F64.zero shards) (F64.ofInt shards.length)) fuel 0
        ts (sortSlice (mkGens (highbitsOf ts) 0 shards)) = .ok (rest, r.quotas) ∧
      placeLoop (ts - 1) ts fuel fuel 0 rest r.quotas (List.replicate ts.toNat 0) [] =
        .ok (t, r.writes) ∧ r.table = decrement t := by
  unfold buildRun at h
  by_cases hg : ts ≤ 0 ∨ and64 ts (wrap (ts - 1)) ≠ 0
  · rw [if_pos hg] at h; simp at h
  · rw [if_neg hg] at h
    cases hs : setupLoop (highbitsOf ts) shards 0 F64.zero [] with
    | error o => rw [hs] at h; simp at h
    | ok p =>
      obtain ⟨sum, gens⟩ := p
      rw [hs] at h
      simp only at h
      obtain ⟨hw, _, hsum, hgens⟩ := setupLoop_ok _ _ _ _ _ _ _ hs
      by_cases hz : F64.isZero sum = true
      · rw [if_pos hz] at h; simp at h
      · rw [if_neg hz] at h
        simp only [List.nil_append] at hgens
        rw [hgens, hsum] at h
        cases hq : quotaLoop (F64.div (sumWeights F64.zero shards) (F64.ofInt shards.length))
            fuel 0 ts (sortSlice (mkGens (highbitsOf ts) 0 shards)) with
        | error o => rw [hq] at h; simp at h
        | ok p =>
          obtain ⟨rest, quotas⟩ := p
          rw [hq] at h
          simp only at h
          cases hp : placeLoop (ts - 1) ts fuel fuel 0 rest quotas
              (List.replicate ts.toNat 0) [] with
          | error o => rw [hp] at h; simp at h
          | ok p =>
            obtain ⟨t, ws⟩ := p
            rw [hp] at h
            simp only [Except.ok.injEq] at h
            subst h
            refine ⟨hw, ?_, rest, t, rfl, hp, rfl⟩
            rw [← hsum]
            simpa using hz

/-! ## Shards of weight zero -/

theorem add_zero_zero (x y : F64) (hx : F64.isZero x = true) (hy : F64.isZero y = true) :
    F64.add x y = F64.zero := by
  cases x with
  | fin s1 m1 e1 =>
    cases y with
    | fin s2 m2 e2 =>
      simp only [F64.isZero, decide_eq_true_eq] at hx hy
      subst hx hy
      simp only [F64.add, zero_mul, add_zero, le_refl, if_true, Nat.sub_self]
      split_ifs <;> simp [F64.round]
    | inf s => simp [F64.isZero] at hy
    | nan => simp [F64.isZero] at hy
  | inf s => simp [F64.isZero] at hx
  | nan => simp [F64.isZero] at hx
/-! ## The exact quota loop -/

theorem sum_map_set_rat {α : Type} (f : α → ℚ) : ∀ (l : List α) (k : Nat) (v0 v : α),
    l[k]? = some v0 → ((l.set k v).map f).sum = (l.map f).sum - f v0 + f v := by
  intro l
  induction l with
  | nil => intro k v0 v h; simp at h
  | cons a l ih =>
    intro k v0 v h
    cases k with
    | zero =>
      simp only [List.getElem?_cons_zero, Option.some.injEq] at h
      subst h
      simp only [List.set_cons_zero, List.map_cons, List.sum_cons]
      ring
    | succ k =>
      simp only [List.getElem?_cons_succ] at h
      simp only [List.set_cons_succ, List.map_cons, List.sum_cons]
      rw [ih k v0 v h]; ring

theorem map_set_eq {α β : Type} (f : α → β) : ∀ (l : List α) (k : Nat) (v0 v : α),
    l[k]? = some v0 → f v = f v0 → (l.set k v).map f = l.map f := by
  intro l
  induction l with
  | nil => intro k v0 v h; simp at h
  | cons a l ih =>
    intro k v0 v h hf
    cases k with
    | zero =>
      simp only [List.getElem?_cons_zero, Option.some.injEq] at h
      subst h
      simp [hf]
    | succ k =>
      simp only [List.getElem?_cons_succ] at h
      simp only [List.set_cons_succ, List.map_cons]
      rw [ih k v0 v h hf]

theorem take_succ_sum (ws : List ℚ) (m : Nat) (w : ℚ) (h : ws[m]? = some w) :
    (ws.take (m + 1)).sum = (ws.take m).sum + w := by
  rw [List.take_succ, h]
  simp

theorem succ_mod_div (i n : Nat) (hn : 0 < n) :
    (i % n + 1 < n ∧ (i + 1) % n = i % n + 1 ∧ (i + 1) / n = i / n) ∨
    (i % n + 1 = n ∧ (i + 1) % n = 0 ∧ (i + 1) / n = i / n + 1) := by
  have e := Nat.div_add_mod i n
  have hlt := Nat.mod_lt i hn
  by_cases hc : i % n + 1 < n
  · left
    have h : i + 1 = n * (i / n) + (i % n + 1) := by omega
    refine ⟨hc, ?_, ?_⟩
    · rw [h, Nat.mul_add_mod, Nat.mod_eq_of_lt hc]
    · rw [h, Nat.mul_add_div hn, Nat.div_eq_of_lt hc]
      simp
  · right
    have hm : i % n + 1 = n := by omega
    have h : i + 1 = n * (i / n + 1) := by rw [Nat.mul_add, Nat.mul_one]; omega
    refine ⟨hm, ?_, ?_⟩
    · rw [h]; exact Nat.mul_mod_right _ _
    · rw [h]; exact Nat.mul_div_cancel_left _ hn

theorem addedQ_succ (ws : List ℚ) (i : Nat) (w : ℚ) (h : ws[i % ws.length]? = some w) :
    addedQ ws (i + 1) = addedQ ws i + w := by
  have hn : 0 < ws.length := by
    rcases Nat.eq_zero_or_pos ws.length with h0 | h0
    · have : ws = [] := List.length_eq_zero.1 h0
      subst this
      simp at h
    · exact h0
  unfold addedQ
  rcases succ_mod_div i ws.length hn with ⟨_, h1, h2⟩ | ⟨hm, h1, h2⟩
  · rw [h1, h2, take_succ_sum ws _ w h]
    ring
  · have h3 : (ws.take (i % ws.length)).sum + w = ws.sum := by
      rw [← take_succ_sum ws _ w h, hm, List.take_length]
    rw [h1, h2, ← h3]
    simp only [List.take_zero, List.sum_nil, add_zero]
    push_cast
    ring
theorem truncQ_nonneg (q : ℚ) (h : 0 ≤ q) : truncQ q = ⌊q⌋ := by
  unfold truncQ
  rw [if_pos h]

theorem averageQ_pos_length (ws : List ℚ) (h : 0 < averageQ ws) : 0 < ws.length := by
  rcases Nat.eq_zero_or_pos ws.length with h0 | h0
  · unfold averageQ at h
    rw [h0] at h
    simp at h
  · exact h0

theorem averageQ_mul (ws : List ℚ) (h : 0 < averageQ ws) :
    (ws.length : ℚ) * averageQ ws = ws.sum := by
  have hn := averageQ_pos_length ws h
  unfold averageQ
  have : (ws.length : ℚ) ≠ 0 := by exact_mod_cast (Nat.pos_iff_ne_zero.1 hn)
  field_simp

/-- One iteration of the exact quota loop keeps the invariant. -/
theorem quotaStepQ_inv (ws : List ℚ) (hw : ∀ w ∈ ws, 0 ≤ w) (T : Int)
    (hpos : 0 < averageQ ws) (k : Nat) (s : QState) (inv : QInv ws T k s) :
    QInv ws T (k + 1) (quotaStepQ (averageQ ws) s) := by
  unfold quotaStepQ
  by_cases hr : 0 < s.rest
  · rw [if_pos hr]
    have hn := averageQ_pos_length ws hpos
    have hlen : s.gens.length = ws.length := by
      have := congrArg List.length inv.weights
      simpa using this
    have hidx : s.i % s.gens.length < s.gens.length := Nat.mod_lt _ (by omega)
    have hsh : s.gens[s.i % s.gens.length]? = some (s.gens[s.i % s.gens.length]) :=
      List.getElem?_eq_getElem hidx
    generalize s.gens[s.i % s.gens.length] = sh at hsh
    have hmem : sh ∈ s.gens := List.getElem?_mem hsh
    have hwt : ws[s.i % ws.length]? = some sh.weight := by
      rw [← inv.weights, List.getElem?_map, List.length_map, hsh]
      rfl
    have hwt0 : 0 ≤ sh.weight := hw _ (List.getElem?_mem hwt)
    have hw0 := inv.w_nonneg sh hmem
    have hi := inv.iter hr
    have hadd := addedQ_succ ws s.i sh.weight hwt
    simp only [hsh]
    by_cases hge : averageQ ws ≤ sh.w + sh.weight
    · rw [if_pos hge]
      have hq0 : 0 ≤ (sh.w + sh.weight) / averageQ ws := div_nonneg (by linarith) hpos.le
      rw [truncQ_nonneg _ hq0]
      have hfl1 : (1 : Int) ≤ ⌊(sh.w + sh.weight) / averageQ ws⌋ := by
        rw [Int.le_floor]
        rw [le_div_iff₀ hpos]
        simpa using hge
      have hfle : ((⌊(sh.w + sh.weight) / averageQ ws⌋ : Int) : ℚ) * averageQ ws ≤
          sh.w + sh.weight := by
        rw [← le_div_iff₀ hpos]
        exact Int.floor_le _
      have hflt : sh.w + sh.weight <
          (((⌊(sh.w + sh.weight) / averageQ ws⌋ : Int) : ℚ) + 1) * averageQ ws := by
        rw [← div_lt_iff₀ hpos]
        exact Int.lt_floor_add_one _
      generalize ⌊(sh.w + sh.weight) / averageQ ws⌋ = a at hfl1 hfle hflt
      have hadd1 : 1 ≤ (if s.rest < a then s.rest else a) := by split_ifs <;> omega
      have hadd2 : (if s.rest < a then s.rest else a) ≤ s.rest := by split_ifs <;> omega
      have hadd3 : (if s.rest < a then s.rest else a) ≤ a := by split_ifs <;> omega
      have hadd4 : 0 < s.rest - (if s.rest < a then s.rest else a) →
          (if s.rest < a then s.rest else a) = a := by
        split_ifs <;> omega
      generalize (if s.rest < a then s.rest else a) = add at hadd1 hadd2 hadd3 hadd4
      have hacc0 : 0 ≤ sh.w + sh.weight - averageQ ws * (add : ℚ) := by
        have : ((add : Int) : ℚ) ≤ ((a : Int) : ℚ) := by exact_mod_cast hadd3
        nlinarith
      refine ⟨?_, ?_, ?_, ?_, ?_, ?_, ?_, ?_⟩
      · refine (map_set_eq _ _ _ sh _ hsh ?_).trans inv.weights
        rfl
      · show 0 ≤ s.rest - add
        omega
      · intro g hg
        rcases mem_set_cases _ _ _ _ hg with he | hin
        · rw [he]; exact hacc0
        · exact inv.w_nonneg g hin
      · intro hr1 g hg
        have hr1 : 0 < s.rest - add := hr1
        rcases mem_set_cases _ _ _ _ hg with he | hin
        · rw [he]
          show sh.w + sh.weight - averageQ ws * (add : ℚ) < averageQ ws
          rw [hadd4 hr1]
          linarith
        · exact inv.w_lt hr g hin
      · intro _
        show s.i + 1 = k + 1
        omega
      · show ((s.gens.set _ _).map _).sum = addedQ ws (s.i + 1) - _ * ((T - (s.rest - add) : Int) : ℚ)
        rw [sum_map_set_rat _ _ _ sh _ hsh, inv.total, hadd]
        push_cast
        ring
      · intro g hg
        rcases mem_set_cases _ _ _ _ hg with he | hin
        · rw [he]
          show 0 ≤ sh.cnt + add
          have := inv.cnt_nonneg sh hmem
          omega
        · exact inv.cnt_nonneg g hin
      · show ((s.gens.set _ _).map _).sum = T - (s.rest - add)
        rw [sum_map_set _ _ _ sh _ hsh, inv.cnt_sum]
        ring
    · rw [if_neg hge]
      have hlt : sh.w + sh.weight < averageQ ws := lt_of_not_le hge
      refine ⟨?_, inv.rest_nonneg, ?_, ?_, ?_, ?_, ?_, ?_⟩
      · refine (map_set_eq _ _ _ sh _ hsh ?_).trans inv.weights
        rfl
      · intro g hg
        rcases mem_set_cases _ _ _ _ hg with he | hin
        · rw [he]; show 0 ≤ sh.w + sh.weight; linarith
        · exact inv.w_nonneg g hin
      · intro _ g hg
        rcases mem_set_cases _ _ _ _ hg with he | hin
        · rw [he]; exact hlt
        · exact inv.w_lt hr g hin
      · intro _
        show s.i + 1 = k + 1
        omega
      · show ((s.gens.set _ _).map _).sum = addedQ ws (s.i + 1) - _ * ((T - s.rest : Int) : ℚ)
        rw [sum_map_set_rat _ _ _ sh _ hsh, inv.total, hadd]
        ring
      · intro g hg
        rcases mem_set_cases _ _ _ _ hg with he | hin
        · rw [he]; exact inv.cnt_nonneg sh hmem
        · exact inv.cnt_nonneg g hin
      · show ((s.gens.set _ _).map _).sum = T - s.rest
        rw [sum_map_set _ _ _ sh _ hsh, inv.cnt_sum]
        ring
  · rw [if_neg hr]
    exact ⟨inv.weights, inv.rest_nonneg, inv.w_nonneg, fun h => absurd h hr,
      fun h => absurd h hr, inv.total, inv.cnt_nonneg, inv.cnt_sum⟩
theorem sum_lt_length_mul (b : ℚ) : ∀ l : List ℚ, l ≠ [] → (∀ x ∈ l, x < b) →
    l.sum < (l.length : ℚ) * b := by
  intro l
  induction l with
  | nil => intro h; exact absurd rfl h
  | cons a l ih =>
    intro _ hl
    have ha := hl a (List.mem_cons_self _ _)
    rcases l with _ | ⟨c, l⟩
    · simpa using ha
    · have := ih (by simp) (fun x hx => hl x (List.mem_cons_of_mem _ hx))
      simp only [List.sum_cons, List.length_cons] at this ⊢
      push_cast at this ⊢
      linarith

theorem sum_nonneg_of_mem : ∀ l : List ℚ, (∀ x ∈ l, 0 ≤ x) → 0 ≤ l.sum := by
  intro l
  induction l with
  | nil => intro _; simp
  | cons a l ih =>
    intro hl
    have := ih (fun x hx => hl x (List.mem_cons_of_mem _ hx))
    have ha := hl a (List.mem_cons_self _ _)
    simp only [List.sum_cons]
    linarith

theorem averageQ_pos (ws : List ℚ) (hs : 0 < ws.sum) : 0 < averageQ ws := by
  have hne : ws ≠ [] := by
    intro h
    rw [h] at hs
    simp at hs
  have hn : 0 < ws.length := List.length_pos.2 hne
  unfold averageQ
  exact div_pos hs (by exact_mod_cast hn)

theorem addedQ_add_length (ws : List ℚ) (hn : 0 < ws.length) (k : Nat) :
    addedQ ws (k + ws.length) = addedQ ws k + ws.sum := by
  unfold addedQ
  rw [Nat.add_div_right _ hn, Nat.add_mod_right]
  push_cast
  ring

theorem addedQ_mul_length (ws : List ℚ) (hn : 0 < ws.length) (t : Nat) :
    addedQ ws (ws.length * t) = (t : ℚ) * ws.sum := by
  unfold addedQ
  rw [Nat.mul_div_cancel_left _ hn, Nat.mul_mod_right]
  simp

theorem quotaInitQ_inv (ws : List ℚ) (hs : 0 < ws.sum) (T : Int) (hT : 0 ≤ T) :
    QInv ws T 0 (quotaInitQ ws T) := by
  have hpos := averageQ_pos ws hs
  refine ⟨?_, hT, ?_, ?_, fun _ => rfl, ?_, ?_, ?_⟩
  · simp [quotaInitQ, List.map_map, Function.comp_def]
  · intro g hg
    simp only [quotaInitQ, List.mem_map] at hg
    obtain ⟨w, _, rfl⟩ := hg
    exact le_refl _
  · intro _ g hg
    simp only [quotaInitQ, List.mem_map] at hg
    obtain ⟨w, _, rfl⟩ := hg
    exact hpos
  · simp [quotaInitQ, List.map_map, Function.comp_def, addedQ]
  · intro g hg
    simp only [quotaInitQ, List.mem_map] at hg
    obtain ⟨w, _, rfl⟩ := hg
    exact le_refl _
  · simp [quotaInitQ, List.map_map, Function.comp_def]

/-- The invariant holds after every number of iterations. -/
theorem quotaRunQ_inv (ws : List ℚ) (hw : ∀ w ∈ ws, 0 ≤ w) (hs : 0 < ws.sum) (T : Int)
    (hT : 0 ≤ T) : ∀ k, QInv ws T k (quotaRunQ ws T k) := by
  intro k
  induction k with
  | zero => exact quotaInitQ_inv ws hs T hT
  | succ k ih =>
    unfold quotaRunQ
    rw [Function.iterate_succ_apply']
    exact quotaStepQ_inv ws hw T (averageQ_pos ws hs) k _ ih
/-! ## Bit patterns -/

theorem toU64_wrap (x : Int) : toU64 (wrap x) = toU64 x :=
  toU64_congr _ _ (wrap_emod x)

theorem toU64_add (a b : Int) :
    toU64 (a + b) = (toU64 a + toU64 b) % 18446744073709551616 := by
  have h : ((toU64 (a + b) : Nat) : Int) =
      (((toU64 a + toU64 b) % 18446744073709551616 : Nat) : Int) := by
    push_cast
    rw [toU64_cast, toU64_cast, toU64_cast]
    exact Int.add_emod _ _ _
  exact_mod_cast h

theorem toU64_mul (a b : Int) :
    toU64 (a * b) = (toU64 a * toU64 b) % 18446744073709551616 := by
  have h : ((toU64 (a * b) : Nat) : Int) =
      (((toU64 a * toU64 b) % 18446744073709551616 : Nat) : Int) := by
    push_cast
    rw [toU64_cast, toU64_cast, toU64_cast]
    exact Int.mul_emod _ _ _
  exact_mod_cast h

theorem two_pow_dvd_word (b : Nat) (hb : b ≤ 62) : 2 ^ b ∣ 18446744073709551616 := by
  have : (18446744073709551616 : Nat) = 2 ^ b * 2 ^ (64 - b) := by
    rw [← pow_add]
    have : b + (64 - b) = 64 := by omega
    rw [this]; norm_num
  exact Dvd.intro _ this.symm

/-- The slot `(sh.start + sh.pos) & mask` from the bit patterns. -/
theorem cur_eq (b : Nat) (hb : b ≤ 62) (s p : Int) :
    (and64 (wrap (s + p)) ((2 : Int) ^ b - 1)).toNat = (toU64 s + toU64 p) % 2 ^ b := by
  have hp := two_pow_le_of_le hb
  have hpos : 0 < 2 ^ b := Nat.two_pow_pos b
  have hmask : toU64 ((2 : Int) ^ b - 1) = 2 ^ b - 1 := by
    have h1 : ((2 : Int) ^ b - 1) = ((2 ^ b - 1 : Nat) : Int) := by
      rw [Nat.cast_sub hpos]; norm_cast
    rw [h1, toU64_of_nonneg _ (by omega) (by omega), Int.toNat_ofNat]
  unfold and64
  rw [hmask]
  show (ofU64 (toU64 (wrap (s + p)) &&& (2 ^ b - 1))).toNat = _
  rw [Nat.and_pow_two_sub_one_eq_mod]
  have hlt : toU64 (wrap (s + p)) % 2 ^ b < 2 ^ b := Nat.mod_lt _ hpos
  rw [ofU64_of_lt _ (by omega), Int.toNat_ofNat, toU64_wrap, toU64_add,
    Nat.mod_mod_of_dvd _ (two_pow_dvd_word b hb)]

/-- The new `pos` from the bit patterns. -/
theorem pos_eq (p m a : Int) :
    toU64 (wrap (p * m + a)) = (toU64 p * toU64 m + toU64 a) % 18446744073709551616 := by
  rw [toU64_wrap, toU64_add, toU64_mul]
  simp [Nat.add_mod]

/-! ## The table as one number -/

theorem cell_testBit (d s j : Nat) :
    (cell d s).testBit j = (decide (j < 16) && d.testBit (16 * s + j)) := by
  unfold cell
  have : (65536 : Nat) = 2 ^ 16 := by norm_num
  rw [this, Nat.testBit_mod_two_pow, Nat.testBit_shiftRight]

theorem cell_zero (s : Nat) : cell 0 s = 0 := by
  unfold cell
  simp

theorem cell_lor_shift (d v c s : Nat) (hv : v < 65536) :
    cell (d ||| (v <<< (16 * c))) s = if s = c then cell d c ||| v else cell d s := by
  apply Nat.eq_of_testBit_eq
  intro j
  rw [cell_testBit, Nat.testBit_or, Nat.testBit_shiftLeft]
  by_cases hj : j < 16
  · by_cases hs : s = c
    · subst hs
      rw [if_pos rfl, Nat.testBit_or, cell_testBit]
      simp [hj]
    · rw [if_neg hs, cell_testBit]
      have : ¬ (16 * s + j ≥ 16 * c ∧ True) ∨ v.testBit (16 * s + j - 16 * c) = false := by
        by_cases hge : 16 * s + j ≥ 16 * c
        · right
          apply Nat.testBit_lt_two_pow
          have : 16 ≤ 16 * s + j - 16 * c := by omega
          calc v < 65536 := hv
            _ = 2 ^ 16 := by norm_num
            _ ≤ 2 ^ (16 * s + j - 16 * c) := Nat.pow_le_pow_right (by decide) this
        · left; simp [hge]
      rcases this with h1 | h1
      · simp only [and_true] at h1
        simp [hj, h1]
      · simp [hj, h1]
  · have hcz : ∀ x, (cell x s).testBit j = false := by
      intro x; rw [cell_testBit]; simp [hj]
    simp only [hj, decide_False, Bool.false_and]
    split_ifs with hs
    · subst hs
      rw [Nat.testBit_or, hcz]
      symm
      simp only [Bool.false_or]
      apply Nat.testBit_lt_two_pow
      calc v < 65536 := hv
        _ = 2 ^ 16 := by norm_num
        _ ≤ 2 ^ j := Nat.pow_le_pow_right (by decide) (by omega)
    · exact (hcz d).symm
/-! ## The placement loop on bit patterns -/

theorem probe3_sound (b : Nat) (hb : b ≤ 62) (table : Table) (d : Nat) (henc : Enc table d) :
    ∀ (fuel : Nat) (sh : shardGen) (cur pos1 : Nat),
    probe3 (2 ^ b) d (toU64 sh.start) (toU64 sh.mult) (toU64 sh.add) fuel (toU64 sh.pos) =
      some (cur, pos1) →
    ∃ sh1, probe ((2 : Int) ^ b - 1) table fuel sh = some (cur, sh1) ∧
      sh1.start = sh.start ∧ sh1.add = sh.add ∧ sh1.mult = sh.mult ∧ sh1.cnt = sh.cnt ∧
      sh1.ix = sh.ix ∧ toU64 sh1.pos = pos1 ∧ table.getD cur 0 = 0 ∧ cur < 2 ^ b := by
  intro fuel
  induction fuel with
  | zero => intro sh cur pos1 h; simp [probe3] at h
  | succ fuel ih =>
    intro sh cur pos1 h
    simp only [probe3, withNat_eq] at h
    simp only [probe]
    rw [cur_eq b hb]
    have hpos : 0 < 2 ^ b := Nat.two_pow_pos b
    by_cases hc : cell d ((toU64 sh.start + toU64 sh.pos) % 2 ^ b) = 0
    · rw [if_pos hc] at h
      simp only [Option.some.injEq, Prod.mk.injEq] at h
      rw [if_pos (by rw [henc]; exact hc)]
      refine ⟨{ sh with pos := wrap (sh.pos * sh.mult + sh.add) }, ?_, rfl, rfl, rfl, rfl, rfl,
        ?_, ?_, ?_⟩
      · rw [h.1]
      · show toU64 (wrap (sh.pos * sh.mult + sh.add)) = pos1
        rw [pos_eq, h.2]
      · rw [← h.1, henc]; exact hc
      · rw [← h.1]; exact Nat.mod_lt _ hpos
    · rw [if_neg hc] at h
      rw [if_neg (by rw [henc]; exact hc)]
      have h1 : toU64 (wrap (sh.pos * sh.mult + sh.add)) =
          (toU64 sh.pos * toU64 sh.mult + toU64 sh.add) % 18446744073709551616 := pos_eq _ _ _
      rw [← h1] at h
      obtain ⟨sh1, hp, e1, e2, e3, e4, e5, e6, e7, e8⟩ :=
        ih { sh with pos := wrap (sh.pos * sh.mult + sh.add) } cur pos1 h
      exact ⟨sh1, hp, e1, e2, e3, e4, e5, e6, e7, e8⟩

theorem uint16_lt (x : Int) : uint16 x < 65536 := by
  unfold uint16
  exact Nat.mod_lt _ (by decide)

theorem enc_set (table : Table) (d cur v : Nat) (henc : Enc table d) (hc : cur < table.length)
    (h0 : table.getD cur 0 = 0) (hv : v < 65536) :
    Enc (table.set cur v) (d ||| (v <<< (16 * cur))) := by
  intro s
  rw [cell_lor_shift d v cur s hv]
  by_cases hs : s = cur
  · subst hs
    rw [if_pos rfl, getD_set_self _ _ _ hc, ← henc, h0]
    simp
  · rw [if_neg hs, getD_set_other _ _ _ _ (fun h => hs h.symm), henc]

theorem rot3_succ {α : Type} (i : Nat) (x y z : α) : rot3 i x y z = rot3 (i + 1) y z x := by
  unfold rot3
  rcases (by omega : i % 3 = 0 ∨ i % 3 = 1 ∨ i % 3 = 2) with h | h | h
  · have h1 : (i + 1) % 3 = 1 := by omega
    simp [h, h1]
  · have h1 : (i + 1) % 3 = 2 := by omega
    simp [h, h1]
  · have h1 : (i + 1) % 3 = 0 := by omega
    simp [h, h1]

/-- The loop `place3` is the placement loop on three generators. -/
theorem place3_sound (b : Nat) (hb : b ≤ 62) (pfuel : Nat) : ∀ (fuel i rest : Nat)
    (a b1 c : PS) (ga gb gc : shardGen) (table : Table) (writes : List (Nat × Int))
    (d d1 : Nat), PS.Of ga a → PS.Of gb b1 → PS.Of gc c → Enc table d →
    table.length = 2 ^ b → place3 (2 ^ b) pfuel fuel rest a b1 c d = some d1 →
    ∃ t ws, placeLoop ((2 : Int) ^ b - 1) (2 ^ b) pfuel fuel i rest (rot3 i ga gb gc) table
        writes = .ok (t, ws) ∧ Enc t d1 ∧ t.length = 2 ^ b := by
  intro fuel
  induction fuel with
  | zero => intro i rest a b1 c ga gb gc table writes d d1 _ _ _ _ _ h; simp [place3] at h
  | succ fuel ih =>
    intro i rest a b1 c ga gb gc table writes d d1 ha hb1 hc henc hlen h
    simp only [place3, withNat_eq] at h
    simp only [placeLoop, rot3_length, rot3_get, rot3_set]
    have hcast : ((rest : Nat) : Int) < (2 : Int) ^ b ↔ rest < 2 ^ b := by
      rw [← pow_cast]
      exact Int.ofNat_lt
    by_cases hr : rest < 2 ^ b
    · rw [if_pos hr] at h
      rw [if_pos (hcast.2 hr)]
      by_cases hz : a.cnt = 0
      · rw [if_pos hz] at h
        have hz1 : ga.cnt = 0 := by rw [← ha.2.2.2.2.1, hz]; rfl
        rw [if_pos hz1]
        obtain ⟨t, ws, h1, h2, h3⟩ := ih (i + 1) rest b1 c a gb gc ga table writes d d1 hb1 hc
          ha henc hlen h
        rw [rot3_succ]
        exact ⟨t, ws, h1, h2, h3⟩
      · rw [if_neg hz] at h
        have hz1 : ¬ ga.cnt = 0 := by
          intro h0
          apply hz
          have := ha.2.2.2.2.1
          rw [h0] at this
          exact_mod_cast this
        rw [if_neg hz1]
        cases hp : probe3 (2 ^ b) d a.start a.mult a.add pfuel a.pos with
        | none => rw [hp] at h; simp at h
        | some r =>
          obtain ⟨cur, pos1⟩ := r
          rw [hp] at h
          simp only at h
          rw [ha.1, ha.2.2.2.1, ha.2.2.1, ha.2.1] at hp
          obtain ⟨sh1, hpr, e1, e2, e3, e4, e5, e6, e7, e8⟩ :=
            probe3_sound b hb table d henc pfuel { ga with cnt := ga.cnt - 1 } cur pos1 hp
          rw [hpr]
          simp only
          have hof : PS.Of sh1 ⟨a.start, pos1, a.add, a.mult, a.cnt - 1, a.tag⟩ := by
            refine ⟨by rw [e1]; exact ha.1, by rw [e6], by rw [e2]; exact ha.2.2.1,
              by rw [e3]; exact ha.2.2.2.1, ?_, by rw [e5]; exact ha.2.2.2.2.2⟩
            rw [e4]
            show ((a.cnt - 1 : Nat) : Int) = ga.cnt - 1
            rw [← ha.2.2.2.2.1]
            have : 1 ≤ a.cnt := Nat.one_le_iff_ne_zero.2 hz
            push_cast [Nat.cast_sub this]
            ring
          have henc1 : Enc (table.set cur (uint16 ga.ix))
              (d ||| (a.tag <<< (16 * cur))) := by
            rw [ha.2.2.2.2.2]
            exact enc_set table d cur _ henc (by rw [hlen]; exact e8) e7 (uint16_lt _)
          have hlen1 : (table.set cur (uint16 ga.ix)).length = 2 ^ b := by
            rw [List.length_set, hlen]
          obtain ⟨t, ws, h1, h2, h3⟩ := ih (i + 1) (rest + 1) b1 c _ gb gc sh1 _
            (writes ++ [(cur, ga.ix)]) _ d1 hb1 hc hof henc1 hlen1 h
          refine ⟨t, ws, ?_, h2, h3⟩
          rw [← h1]
          push_cast
          rfl
    · rw [if_neg hr] at h
      rw [if_neg (fun hh => hr (hcast.1 hh))]
      simp only [Option.some.injEq] at h
      subst h
      exact ⟨table, writes, rfl, henc, hlen⟩
/-! ## More fuel changes nothing -/

theorem probe_mono (mask : Int) (table : Table) : ∀ (fuel : Nat) (sh : shardGen)
    (r : Nat × shardGen), probe mask table fuel sh = some r →
    ∀ d, probe mask table (fuel + d) sh = some r := by
  intro fuel
  induction fuel with
  | zero => intro sh r h; simp [probe] at h
  | succ fuel ih =>
    intro sh r h d
    have h1 : fuel + 1 + d = (fuel + d) + 1 := by omega
    rw [h1]
    simp only [probe] at h ⊢
    by_cases hc : table.getD (and64 (wrap (sh.start + sh.pos)) mask).toNat 0 = 0
    · rw [if_pos hc] at h ⊢
      exact h
    · rw [if_neg hc] at h ⊢
      exact ih _ _ h d

theorem placeLoop_mono (mask tableSize : Int) (pfuel e : Nat) : ∀ (fuel i : Nat) (rest : Int)
    (gens : List shardGen) (table : Table) (writes : List (Nat × Int))
    (r : Table × List (Nat × Int)),
    placeLoop mask tableSize pfuel fuel i rest gens table writes = .ok r →
    ∀ d, placeLoop mask tableSize (pfuel + e) (fuel + d) i rest gens table writes = .ok r := by
  intro fuel
  induction fuel with
  | zero => intro i rest gens table writes r h; simp [placeLoop] at h
  | succ fuel ih =>
    intro i rest gens table writes r h d
    have h1 : fuel + 1 + d = (fuel + d) + 1 := by omega
    rw [h1]
    simp only [placeLoop] at h ⊢
    by_cases hr : rest < tableSize
    · rw [if_pos hr] at h ⊢
      cases hk : gens[i % gens.length]? with
      | none => rw [hk] at h; simp at h
      | some sh =>
        rw [hk] at h
        simp only at h ⊢
        by_cases hz : sh.cnt = 0
        · rw [if_pos hz] at h ⊢
          exact ih _ _ _ _ _ _ h d
        · rw [if_neg hz] at h ⊢
          cases hp : probe mask table pfuel { sh with cnt := sh.cnt - 1 } with
          | none => rw [hp] at h; simp at h
          | some p =>
            rw [hp] at h
            rw [probe_mono _ _ _ _ _ hp e]
            simp only at h ⊢
            exact ih _ _ _ _ _ _ h d
    · rw [if_neg hr] at h ⊢
      exact h

/-! ## The order the sort leaves distinct hashes in -/

theorem sort_unique (sortSlice : List shardGen → List shardGen) (hs : SortsByHash sortSlice)
    (l : List shardGen) (hd : (l.map fun g => g.sh.Hash).Nodup) : sortSlice l = goSort l := by
  have strict : ∀ l1 : List shardGen, l1.Perm l → l1.Pairwise hashLE →
      l1.Pairwise (fun a b => a.sh.Hash < b.sh.Hash) := by
    intro l1 hp hs1
    have hn : (l1.map fun g => g.sh.Hash).Nodup := (hp.map _).nodup_iff.2 hd
    have hn1 : l1.Pairwise (fun a b => a.sh.Hash ≠ b.sh.Hash) := List.pairwise_map.1 hn
    exact (hs1.and hn1).imp (fun h => Nat.lt_of_le_of_ne h.1 h.2)
  haveI : IsAntisymm shardGen (fun a b => a.sh.Hash < b.sh.Hash) :=
    ⟨fun a b h1 h2 => absurd h1 (Nat.lt_asymm h2)⟩
  have g := goSort_sorts l
  exact List.eq_of_perm_of_sorted ((hs l).1.trans g.1.symm) (strict _ (hs l).1 (hs l).2)
    (strict _ g.1 g.2)

/-! ## A run from its stages -/

theorem buildRun_of_stages (sortSlice : List shardGen → List shardGen) (shards : List Shard)
    (b : Nat) (hb1 : 1 ≤ b) (hb62 : b ≤ 62)
    (hw : ∀ s ∈ shards, F64.lt s.Weight F64.zero = false)
    (hz : F64.isZero (sumWeights F64.zero shards) = false) (fuel : Nat) (rest : Int)
    (quotas : List shardGen) (t : Table) (ws : List (Nat × Int))
    (hq : quotaLoop (F64.div (sumWeights F64.zero shards) (F64.ofInt shards.length)) fuel 0
      (2 ^ b) (sortSlice (mkGens (highbitsOf (2 ^ b)) 0 shards)) = .ok (rest, quotas))
    (hp : placeLoop ((2 : Int) ^ b - 1) (2 ^ b) fuel fuel 0 rest quotas
      (List.replicate (2 ^ b) 0) [] = .ok (t, ws)) :
    buildRun sortSlice fuel shards (2 ^ b) = .ok ⟨quotas, ws, decrement t⟩ := by
  have hp2 := two_pow_le_of_le hb62
  have hc := pow_cast b
  have hhi : (2 : Int) ^ b < 9223372036854775808 := by omega
  have hts0 : (0 : Int) ≤ 2 ^ b := by positivity
  have hlo : -9223372036854775808 ≤ (2 : Int) ^ b := by omega
  have hg : ¬ ((2 : Int) ^ b ≤ 0 ∨ and64 (2 ^ b) (wrap (2 ^ b - 1)) ≠ 0) := by
    rw [guard_iff _ hlo hhi]
    simp only [not_not]
    exact ⟨b, rfl⟩
  unfold buildRun
  rw [if_neg hg, setupLoop_total _ (highbits_ne_zero b hb1 hb62) _ _ _ _ hw]
  simp only [List.nil_append]
  rw [if_neg (by simp [hz]), hq]
  simp only
  rw [pow_toNat, hp]

theorem rot3_map {α β : Type} (f : α → β) (i : Nat) (x y z : α) :
    (rot3 i x y z).map f = rot3 i (f x) (f y) (f z) := by
  unfold rot3
  split_ifs <;> rfl

theorem enc_replicate (n : Nat) : Enc (List.replicate n 0) 0 := by
  intro s
  rw [cell_zero, List.getD_eq_getElem?_getD, List.getElem?_replicate]
  split_ifs <;> rfl

theorem decode_of_enc (t : Table) (d : Nat) (h : Enc t d) : t = decode d t.length := by
  unfold decode
  conv_lhs => rw [table_eq_map_range t]
  apply List.map_congr_left
  intro s _
  exact h s

theorem ofGen_of (g x : shardGen) (c : Nat) (hf : x.fixed = g.fixed) (hc : x.cnt = (c : Int)) :
    PS.Of x (PS.ofGen g c) := by
  have e1 : x.start = g.start := by
    have := congrArg shardGen.start hf
    exact this
  have e2 : x.pos = g.pos := by
    have := congrArg shardGen.pos hf
    exact this
  have e3 : x.add = g.add := by
    have := congrArg shardGen.add hf
    exact this
  have e4 : x.mult = g.mult := by
    have := congrArg shardGen.mult hf
    exact this
  have e5 : x.ix = g.ix := by
    have := congrArg shardGen.ix hf
    exact this
  simp only [PS.ofGen, withNat_eq, PS.Of]
  rw [e1, e2, e3, e4, e5, hc]
  exact ⟨rfl, rfl, rfl, rfl, rfl, rfl⟩
/-! ## The evaluator computes the table of `BuildTable` -/

theorem list3_inj {α : Type} (a b c x y z : α) (h : [a, b, c] = [x, y, z]) :
    a = x ∧ b = y ∧ c = z := by
  simp only [List.cons.injEq, and_true] at h
  exact h

/-- Three shards with distinct hashes: the number `table3` computes holds the table
`BuildTable` returns, whatever the sort, once the fuel covers that of the evaluation. -/
theorem table3_sound (sortSlice : List shardGen → List shardGen) (hs : SortsByHash sortSlice)
    (b : Nat) (hb1 : 1 ≤ b) (hb62 : b ≤ 62) (shards : List Shard)
    (hd : (shards.map Shard.Hash).Nodup)
    (hw : ∀ s ∈ shards, F64.lt s.Weight F64.zero = false)
    (hz : F64.isZero (sumWeights F64.zero shards) = false) (qf pf f d : Nat)
    (h : table3 (2 ^ b) qf pf f shards = some d) (fuel : Nat) (h1 : qf ≤ fuel)
    (h2 : pf ≤ fuel) (h3 : f ≤ fuel) :
    BuildTable sortSlice fuel shards (2 ^ b) = .table (decrement (decode d (2 ^ b))) := by
  simp only [table3, withF64_eq] at h
  rw [pow_cast] at h
  have hperm := (hs (mkGens (highbitsOf (2 ^ b)) 0 shards)).1
  have hdg : ((mkGens (highbitsOf (2 ^ b)) 0 shards).map fun g => g.sh.Hash).Nodup := by
    have e : ((mkGens (highbitsOf (2 ^ b)) 0 shards).map fun g => g.sh.Hash) =
        ((mkGens (highbitsOf (2 ^ b)) 0 shards).map fun g => g.sh).map Shard.Hash := by
      rw [List.map_map]; rfl
    rw [e, mkGens_map_sh]
    exact hd
  have hsu := sort_unique sortSlice hs _ hdg
  split at h
  · rename_i ga gb gc hsorted
    rw [← hsu] at hsorted
    have hlen : shards.length = 3 := by
      have := hperm.length_eq
      rw [hsorted, mkGens_length] at this
      exact this.symm
    have hA : weightsAvg (shards.map Shard.Weight) =
        F64.div (sumWeights F64.zero shards) (F64.ofInt shards.length) := by
      unfold weightsAvg sumWeights
      rw [List.foldl_map, List.length_map]
    rw [hA] at h
    simp only [run3] at h
    cases hq3 : quota3 (F64.div (sumWeights F64.zero shards) (F64.ofInt shards.length)) qf 0
        (2 ^ b) ⟨ga.w, 0, ga.sh.Weight⟩ ⟨gb.w, 0, gb.sh.Weight⟩ ⟨gc.w, 0, gc.sh.Weight⟩ with
    | none => rw [hq3] at h; simp at h
    | some r =>
      obtain ⟨i1, a1, b1, c1⟩ := r
      rw [hq3] at h
      simp only at h
      split at h
      · rename_i c0 c1n c2 hrot
        have hfld : ∀ g ∈ [ga, gb, gc], QS.Of g ⟨g.w, 0, g.sh.Weight⟩ := by
          intro g hg
          rw [← hsorted] at hg
          obtain ⟨j, s, _, rfl⟩ := mem_mkGens _ _ _ g (hperm.subset hg)
          exact ⟨rfl, rfl, rfl⟩
        obtain ⟨ga1, gb1, gc1, ha1, hb1q, hc1, hql⟩ := quota3_sound _ qf 0 (2 ^ b) _ _ _
          ga gb gc (hfld ga (by simp)) (hfld gb (by simp)) (hfld gc (by simp)) _ hq3
        have hrot0 : rot3 0 ga gb gc = [ga, gb, gc] := rfl
        rw [hrot0, ← hsorted, pow_cast] at hql
        have hql2 := quotaLoop_mono _ _ _ _ _ _ hql (fuel - qf)
        have hfe : qf + (fuel - qf) = fuel := by omega
        rw [hfe] at hql2
        have havg : (F64.div (sumWeights F64.zero shards)
            (F64.ofInt shards.length)).NotNeg := by
          apply avg_notNeg _ _ _ hz (by omega)
          exact sumWeights_notNeg _ _ (by simp [F64.NotNeg, F64.zero]) hw
        have hcnt0 : ∀ g ∈ sortSlice (mkGens (highbitsOf (2 ^ b)) 0 shards), 0 ≤ g.cnt := by
          intro g hg
          obtain ⟨j, s, _, rfl⟩ := mem_mkGens _ _ _ g (hperm.subset hg)
          exact le_refl _
        obtain ⟨_, hfix, _, _⟩ := quotaLoop_ok _ havg _ _ _ _ _ _ (by positivity) hcnt0 hql
        obtain ⟨x, y, z, hxyz⟩ := list_three (rot3 i1 ga1 gb1 gc1) (rot3_length _ _ _ _)
        rw [hxyz, hsorted] at hfix
        obtain ⟨fx, fy, fz⟩ := list3_inj _ _ _ _ _ _ hfix
        have hcn : [x.cnt, y.cnt, z.cnt] = [(c0 : Int), (c1n : Int), (c2 : Int)] := by
          have e1 := congrArg (List.map fun g : shardGen => g.cnt) hxyz
          rw [rot3_map, ha1.2.1, hb1q.2.1, hc1.2.1] at e1
          have e2 := congrArg (List.map fun n : Nat => (n : Int)) hrot
          rw [rot3_map] at e2
          exact e1.symm.trans e2
        obtain ⟨cx, cy, cz⟩ := list3_inj _ _ _ _ _ _ hcn
        obtain ⟨t, ws, hpl, henc, htl⟩ := place3_sound b hb62 pf f 0 0 _ _ _ x y z
          (List.replicate (2 ^ b) 0) [] 0 d (ofGen_of ga x c0 fx cx) (ofGen_of gb y c1n fy cy)
          (ofGen_of gc z c2 fz cz) (enc_replicate _) (List.length_replicate _ _) h
        have hrotx : rot3 0 x y z = rot3 i1 ga1 gb1 gc1 := hxyz.symm
        rw [hrotx] at hpl
        have hpl2 := placeLoop_mono _ _ pf (fuel - pf) _ _ _ _ _ _ _ hpl (fuel - f)
        have hfp : pf + (fuel - pf) = fuel := by omega
        have hff : f + (fuel - f) = fuel := by omega
        rw [hfp, hff] at hpl2
        have hrun := buildRun_of_stages sortSlice shards b hb1 hb62 hw hz fuel 0 _ t ws hql2
          hpl2
        rw [BuildTable_of_run _ _ _ _ _ hrun]
        show Outcome.table (decrement t) = _
        rw [decode_of_enc t d henc, htl]
      · simp at h
  · simp at h
/-! ## The tables of `TestMovements` -/

theorem testShards_facts (w1 w2 w3 : F64) :
    ((testShards w1 w2 w3).map Shard.Hash).Nodup ∧ (testShards w1 w2 w3).length = 3 := by
  have hn : ([h (ascii "shard1"), h (ascii "shard2"), h (ascii "shard3")] : List Nat).Nodup := by
    decide!
  exact ⟨hn, rfl⟩

/-- The four movement counts of `TestMovements`, evaluated. -/
theorem movements_eval :
    movements 1024 1100 1100 3100
      (testShards (F64.lit 100 1) (F64.lit 100 1) (F64.lit 100 1))
      (testShards (F64.lit 100 1) (F64.lit 100 1) (F64.lit 110 1))
      (testShards (F64.lit 100 1) (F64.lit 110 1) (F64.lit 100 1))
      (testShards (F64.lit 100 1) (F64.lit 110 1) (F64.lit 110 1)) =
    some (some 23, some 23, some 26, some 28) := by
  decide!

theorem testShards_weights :
    ∀ l ∈ [testShards (F64.lit 100 1) (F64.lit 100 1) (F64.lit 100 1),
      testShards (F64.lit 100 1) (F64.lit 100 1) (F64.lit 110 1),
      testShards (F64.lit 100 1) (F64.lit 110 1) (F64.lit 100 1),
      testShards (F64.lit 100 1) (F64.lit 110 1) (F64.lit 110 1)],
      (l.map fun s => F64.lt s.Weight F64.zero) = [false, false, false] ∧
        F64.isZero (sumWeights F64.zero l) = false := by
  decide!

/-- The table of three test shards from the number `table3` computes. -/
theorem testTable (sortSlice : List shardGen → List shardGen) (hs : SortsByHash sortSlice)
    (w1 w2 w3 : F64)
    (hw : ((testShards w1 w2 w3).map fun s => F64.lt s.Weight F64.zero) = [false, false, false])
    (hz : F64.isZero (sumWeights F64.zero (testShards w1 w2 w3)) = false) (d : Nat)
    (hd : table3 1024 1100 1100 3100 (testShards w1 w2 w3) = some d) (fuel : Nat)
    (hf : 3100 ≤ fuel) :
    BuildTable sortSlice fuel (testShards w1 w2 w3) 1024 =
      .table (decrement (decode d 1024)) := by
  have h10 : (2 : Int) ^ 10 = 1024 := by norm_num
  have h10n : (2 : Nat) ^ 10 = 1024 := by norm_num
  have hw1 : ∀ s ∈ testShards w1 w2 w3, F64.lt s.Weight F64.zero = false := by
    intro s hs1
    have hm := List.mem_map_of_mem (fun s => F64.lt s.Weight F64.zero) hs1
    rw [hw] at hm
    simpa using hm
  have key := table3_sound sortSlice hs 10 (by norm_num) (by norm_num) (testShards w1 w2 w3)
    (testShards_facts w1 w2 w3).1 hw1 hz 1100 1100 3100 d (by rw [h10n]; exact hd) fuel
    (by omega) (by omega) hf
  rw [h10, h10n] at key
  exact key

theorem movements_some (T qf pf f : Nat) (s1 s2 s3 s4 : List Shard)
    (r : Option Nat × Option Nat × Option Nat × Option Nat)
    (hm : movements T qf pf f s1 s2 s3 s4 = some r) :
    ∃ d1 d2 d3 d4, table3 T qf pf f s1 = some d1 ∧ table3 T qf pf f s2 = some d2 ∧
      table3 T qf pf f s3 = some d3 ∧ table3 T qf pf f s4 = some d4 ∧
      r = (countDiff (decrement (decode d1 T)) (decrement (decode d2 T)),
        countDiff (decrement (decode d1 T)) (decrement (decode d3 T)),
        countDiff (decrement (decode d2 T)) (decrement (decode d4 T)),
        countDiff (decrement (decode d3 T)) (decrement (decode d4 T))) := by
  unfold movements at hm
  cases h1 : table3 T qf pf f s1 with
  | none => rw [h1] at hm; simp at hm
  | some d1 =>
    cases h2 : table3 T qf pf f s2 with
    | none => rw [h1, h2] at hm; simp at hm
    | some d2 =>
      cases h3 : table3 T qf pf f s3 with
      | none => rw [h1, h2, h3] at hm; simp at hm
      | some d3 =>
        cases h4 : table3 T qf pf f s4 with
        | none => rw [h1, h2, h3, h4] at hm; simp at hm
        | some d4 =>
          rw [h1, h2, h3, h4] at hm
          simp only [Option.some.injEq] at hm
          exact ⟨d1, d2, d3, d4, rfl, rfl, rfl, rfl, hm.symm⟩
/-! ## The loops on an implementation

Where every conversion has a value that the Go specification fixes, the loops with the
conversion of an implementation do what the loops above do. -/

theorem toIntWith_some (impl : F64 → Int) (x : F64) (a : Int) (h : F64.toInt x = some a) :
    F64.toIntWith impl x = a := by
  simp [F64.toIntWith, h]

theorem cnt_le_sum : ∀ (gens : List shardGen), (∀ g ∈ gens, 0 ≤ g.cnt) → ∀ g ∈ gens,
    g.cnt ≤ (gens.map fun g => g.cnt).sum := by
  intro gens
  induction gens with
  | nil => intro _ g hg; simp at hg
  | cons a l ih =>
    intro h g hg
    have hl : ∀ g ∈ l, 0 ≤ g.cnt := fun g hg => h g (List.mem_cons_of_mem _ hg)
    have hs := sum_cnt_nonneg l hl
    have ha := h a (List.mem_cons_self _ _)
    simp only [List.map_cons, List.sum_cons]
    rcases List.mem_cons.1 hg with rfl | hg
    · omega
    · have := ih hl g hg
      omega

/-- A run of the quota loop that exits is a run on every implementation. -/
theorem quotaLoop_with (impl : F64 → Int) (avg : F64) (havg : avg.NotNeg) :
    ∀ (fuel i : Nat) (rest : Int) (gens : List shardGen) (r : Int × List shardGen),
    0 ≤ rest → (∀ g ∈ gens, 0 ≤ g.cnt) →
    rest + (gens.map fun g => g.cnt).sum < 9223372036854775808 →
    quotaLoop avg fuel i rest gens = .ok r → quotaLoopWith impl avg fuel i rest gens = .ok r := by
  intro fuel
  induction fuel with
  | zero => intro i rest gens r _ _ _ h; simp [quotaLoop] at h
  | succ fuel ih =>
    intro i rest gens r hrest hcnt hsum h
    simp only [quotaLoop] at h
    simp only [quotaLoopWith]
    by_cases hr : 0 < rest
    · rw [if_pos hr] at h ⊢
      cases hk : gens[i % gens.length]? with
      | none => rw [hk] at h; simp at h
      | some sh =>
        rw [hk] at h
        simp only at h ⊢
        have hmem : sh ∈ gens := List.getElem?_mem hk
        have hsh := hcnt sh hmem
        have hle := cnt_le_sum gens hcnt sh hmem
        by_cases hge : F64.ge (F64.add sh.w sh.sh.Weight) avg = true
        · rw [if_pos hge] at h ⊢
          cases ha : F64.toInt (F64.div (F64.add sh.w sh.sh.Weight) avg) with
          | none => rw [ha] at h; simp at h
          | some a =>
            rw [ha] at h
            simp only at h
            rw [toIntWith_some impl _ a ha]
            have ha0 : 0 ≤ a := toInt_div_nonneg _ _ _ havg hge ha
            have hadd : 0 ≤ (if rest < a then rest else a) ∧
                (if rest < a then rest else a) ≤ rest := by
              split <;> omega
            rw [wrap_of_range (rest - (if rest < a then rest else a)) (by omega) (by omega),
              wrap_of_range (sh.cnt + (if rest < a then rest else a)) (by omega) (by omega)]
            refine ih _ _ _ _ (by omega) ?_ ?_ h
            · intro g hg
              rcases mem_set_cases _ _ _ _ hg with h5 | h5
              · rw [h5]
                show 0 ≤ sh.cnt + (if rest < a then rest else a)
                omega
              · exact hcnt g h5
            · rw [sum_map_set (fun g => g.cnt) gens _ sh _ hk]
              show rest - (if rest < a then rest else a) + ((gens.map fun g => g.cnt).sum -
                sh.cnt + (sh.cnt + (if rest < a then rest else a))) < _
              omega
        · rw [if_neg hge] at h ⊢
          refine ih _ _ _ _ hrest ?_ ?_ h
          · intro g hg
            rcases mem_set_cases _ _ _ _ hg with h5 | h5
            · rw [h5]; exact hsh
            · exact hcnt g h5
          · rw [sum_map_set (fun g => g.cnt) gens _ sh _ hk]
            show rest + ((gens.map fun g => g.cnt).sum - sh.cnt + sh.cnt) < _
            omega
    · rw [if_neg hr] at h ⊢
      exact h

/-- What a successful search leaves of the generator, and where it ends. -/
theorem probe_fields (b : Nat) (hb : b ≤ 62) (table : Table) : ∀ (fuel : Nat)
    (sh : shardGen) (cur : Nat) (sh1 : shardGen),
    probe ((2 : Int) ^ b - 1) table fuel sh = some (cur, sh1) →
    sh1.cnt = sh.cnt ∧ sh1.ix = sh.ix ∧ table.getD cur 0 = 0 ∧ cur < 2 ^ b := by
  intro fuel
  induction fuel with
  | zero => intro sh cur sh1 h; simp [probe] at h
  | succ fuel ih =>
    intro sh cur sh1 h
    simp only [probe] at h
    by_cases hc : table.getD (and64 (wrap (sh.start + sh.pos)) ((2 : Int) ^ b - 1)).toNat 0 = 0
    · rw [if_pos hc] at h
      simp only [Option.some.injEq, Prod.mk.injEq] at h
      obtain ⟨h1, h2⟩ := h
      subst h1 h2
      refine ⟨rfl, rfl, hc, ?_⟩
      rw [cur_eq b hb]
      exact Nat.mod_lt _ (Nat.two_pow_pos b)
    · rw [if_neg hc] at h
      exact ih { sh with pos := wrap (sh.pos * sh.mult + sh.add) } _ _ h

theorem probe_cnt (mask : Int) (table : Table) : ∀ (fuel : Nat) (sh : shardGen) (cur : Nat)
    (sh1 : shardGen), probe mask table fuel sh = some (cur, sh1) →
    sh1.cnt = sh.cnt ∧ sh1.ix = sh.ix := by
  intro fuel
  induction fuel with
  | zero => intro sh cur sh1 h; simp [probe] at h
  | succ fuel ih =>
    intro sh cur sh1 h
    simp only [probe] at h
    by_cases hc : table.getD (and64 (wrap (sh.start + sh.pos)) mask).toNat 0 = 0
    · rw [if_pos hc] at h
      simp only [Option.some.injEq, Prod.mk.injEq] at h
      obtain ⟨h1, h2⟩ := h
      subst h1 h2
      exact ⟨rfl, rfl⟩
    · rw [if_neg hc] at h
      exact ih { sh with pos := wrap (sh.pos * sh.mult + sh.add) } _ _ h

/-- A run of the placement loop that returns is a run with wrap-around. -/
theorem placeLoop_wrap (mask T : Int) (pfuel : Nat) :
    ∀ (fuel i : Nat) (rest : Int) (gens : List shardGen) (table : Table)
      (writes : List (Nat × Int)) (r : Table × List (Nat × Int)),
    (∀ g ∈ gens, 0 ≤ g.cnt ∧ g.cnt < 9223372036854775808) →
    placeLoop mask T pfuel fuel i rest gens table writes = .ok r →
    placeLoopWrap mask T pfuel fuel i rest gens table writes = .ok r := by
  intro fuel
  induction fuel with
  | zero => intro i rest gens table writes r _ h; simp [placeLoop] at h
  | succ fuel ih =>
    intro i rest gens table writes r hcnt h
    simp only [placeLoop] at h
    simp only [placeLoopWrap]
    by_cases hr : rest < T
    · rw [if_pos hr] at h ⊢
      cases hk : gens[i % gens.length]? with
      | none => rw [hk] at h; simp at h
      | some sh =>
        rw [hk] at h
        simp only at h ⊢
        have hmem : sh ∈ gens := List.getElem?_mem hk
        have hsh := hcnt sh hmem
        by_cases hz : sh.cnt = 0
        · rw [if_pos hz] at h ⊢
          exact ih _ _ _ _ _ _ hcnt h
        · rw [if_neg hz] at h ⊢
          rw [wrap_of_range (sh.cnt - 1) (by omega) (by omega)]
          cases hp : probe mask table pfuel { sh with cnt := sh.cnt - 1 } with
          | none => rw [hp] at h; simp at h
          | some p =>
            obtain ⟨cur, sh1⟩ := p
            rw [hp] at h
            simp only at h ⊢
            obtain ⟨e1, _⟩ := probe_cnt mask table pfuel _ cur sh1 hp
            refine ih _ _ _ _ _ _ ?_ h
            intro g hg
            rcases mem_set_cases _ _ _ _ hg with h5 | h5
            · rw [h5, e1]
              show 0 ≤ sh.cnt - 1 ∧ sh.cnt - 1 < 9223372036854775808
              omega
            · exact hcnt g h5
    · rw [if_neg hr] at h ⊢
      exact h
/-! ## How the loops can fail -/

theorem quotaLoop_error_kind (avg : F64) : ∀ (fuel i : Nat) (rest : Int)
    (gens : List shardGen) (o : Outcome), 0 < gens.length →
    quotaLoop avg fuel i rest gens = .error o → o = .timeout ∨ o = .unspecified := by
  intro fuel
  induction fuel with
  | zero =>
    intro i rest gens o _ h
    simp only [quotaLoop, Except.error.injEq] at h
    exact Or.inl h.symm
  | succ fuel ih =>
    intro i rest gens o hlen h
    simp only [quotaLoop] at h
    by_cases hr : 0 < rest
    · rw [if_pos hr] at h
      have hi : i % gens.length < gens.length := Nat.mod_lt _ hlen
      rw [List.getElem?_eq_getElem hi] at h
      simp only at h
      by_cases hge : F64.ge (F64.add (gens[i % gens.length]).w (gens[i % gens.length]).sh.Weight)
          avg = true
      · rw [if_pos hge] at h
        cases ha : F64.toInt (F64.div (F64.add (gens[i % gens.length]).w
            (gens[i % gens.length]).sh.Weight) avg) with
        | none =>
          rw [ha] at h
          simp only [Except.error.injEq] at h
          exact Or.inr h.symm
        | some a =>
          rw [ha] at h
          exact ih _ _ _ _ (by rw [List.length_set]; exact hlen) h
      · rw [if_neg hge] at h
        exact ih _ _ _ _ (by rw [List.length_set]; exact hlen) h
    · rw [if_neg hr] at h
      simp at h

theorem placeLoop_error_kind (mask T : Int) (pfuel : Nat) : ∀ (fuel i : Nat) (rest : Int)
    (gens : List shardGen) (table : Table) (ws : List (Nat × Int)) (o : Outcome),
    0 < gens.length → placeLoop mask T pfuel fuel i rest gens table ws = .error o →
    o = .timeout := by
  intro fuel
  induction fuel with
  | zero =>
    intro i rest gens table ws o _ h
    simp only [placeLoop, Except.error.injEq] at h
    exact h.symm
  | succ fuel ih =>
    intro i rest gens table ws o hlen h
    simp only [placeLoop] at h
    by_cases hr : rest < T
    · rw [if_pos hr] at h
      have hi : i % gens.length < gens.length := Nat.mod_lt _ hlen
      rw [List.getElem?_eq_getElem hi] at h
      simp only at h
      by_cases hz : (gens[i % gens.length]).cnt = 0
      · rw [if_pos hz] at h
        exact ih _ _ _ _ _ _ hlen h
      · rw [if_neg hz] at h
        cases hp : probe mask table pfuel
            { gens[i % gens.length] with cnt := (gens[i % gens.length]).cnt - 1 } with
        | none =>
          rw [hp] at h
          simp only [Except.error.injEq] at h
          exact h.symm
        | some p =>
          rw [hp] at h
          exact ih _ _ _ _ _ _ (by rw [List.length_set]; exact hlen) h
    · rw [if_neg hr] at h
      simp at h

theorem sumWeights_nil_zero : F64.isZero (sumWeights F64.zero []) = true := by
  simp [sumWeights, F64.isZero, F64.zero]

/-- The run on an implementation is the run of the model unless the model stops at a
conversion that the Go specification leaves open, or runs out of fuel. -/
theorem buildRun_with (impl : F64 → Int) (sortSlice : List shardGen → List shardGen)
    (hperm : ∀ l, (sortSlice l).Perm l) (fuel : Nat) (shards : List Shard) (ts : Int)
    (hhi : ts < 9223372036854775808) (res : Except Outcome Run)
    (h : buildRun sortSlice fuel shards ts = res)
    (hres : ∀ o, res = .error o → o ≠ .unspecified ∧ o ≠ .timeout) :
    buildRunWith impl sortSlice fuel shards ts = res := by
  unfold buildRun at h
  unfold buildRunWith
  by_cases hg : ts ≤ 0 ∨ and64 ts (wrap (ts - 1)) ≠ 0
  · rw [if_pos hg] at h ⊢
    exact h
  · rw [if_neg hg] at h ⊢
    have hts : 0 < ts := by
      by_contra hc
      exact hg (Or.inl (by omega))
    cases hs : setupLoop (highbitsOf ts) shards 0 F64.zero [] with
    | error o1 => rw [hs] at h; exact h
    | ok p =>
      obtain ⟨sum, gens⟩ := p
      rw [hs] at h
      simp only at h ⊢
      obtain ⟨hw, _, hsum, hgens⟩ := setupLoop_ok _ _ _ _ _ _ _ hs
      simp only [List.nil_append] at hgens
      by_cases hz : F64.isZero sum = true
      · rw [if_pos hz] at h ⊢
        exact h
      · rw [if_neg hz] at h ⊢
        have hne : shards ≠ [] := by
          intro he
          rw [hsum, he] at hz
          exact hz sumWeights_nil_zero
        have hlen0 : 0 < shards.length := List.length_pos.2 hne
        have hglen : (sortSlice gens).length = shards.length := by
          rw [(hperm gens).length_eq, hgens, mkGens_length]
        have hz1 : F64.isZero (sumWeights F64.zero shards) = false := by
          rw [← hsum]
          simpa using hz
        have havg : (F64.div sum (F64.ofInt shards.length)).NotNeg := by
          rw [hsum]
          apply avg_notNeg _ _ _ hz1 (by omega)
          exact sumWeights_notNeg _ _ (by simp [F64.NotNeg, F64.zero]) hw
        have hcnt0 : ∀ g ∈ sortSlice gens, g.cnt = 0 := by
          intro g hg
          have hg1 := (hperm gens).subset hg
          rw [hgens] at hg1
          obtain ⟨j, s, _, rfl⟩ := mem_mkGens _ _ _ g hg1
          rfl
        have hsum0 : ((sortSlice gens).map fun g => g.cnt).sum = 0 := by
          apply List.sum_eq_zero
          intro x hx
          rw [List.mem_map] at hx
          obtain ⟨g, hg, rfl⟩ := hx
          exact hcnt0 g hg
        have hc0 : ∀ g ∈ sortSlice gens, 0 ≤ g.cnt := fun g hg => by rw [hcnt0 g hg]
        cases hq : quotaLoop (F64.div sum (F64.ofInt shards.length)) fuel 0 ts
            (sortSlice gens) with
        | error e =>
          rw [hq] at h
          simp only at h
          exfalso
          have hk := quotaLoop_error_kind _ _ _ _ _ _ (by rw [hglen]; exact hlen0) hq
          have hr := hres e h.symm
          rcases hk with hk | hk
          · exact hr.2 hk
          · exact hr.1 hk
        | ok p =>
          obtain ⟨rest, quotas⟩ := p
          rw [hq] at h
          simp only at h
          rw [quotaLoop_with impl _ havg _ _ _ _ _ (by omega) hc0 (by rw [hsum0]; omega) hq]
          simp only
          obtain ⟨_, hfix, hq3, hq4⟩ := quotaLoop_ok _ havg _ _ _ _ _ _ (by omega) hc0 hq
          have hqlen : quotas.length = shards.length := by
            have := congrArg List.length hfix
            simp only [List.length_map] at this
            rw [this, hglen]
          cases hp : placeLoop (ts - 1) ts fuel fuel 0 rest quotas
              (List.replicate ts.toNat 0) [] with
          | error e =>
            rw [hp] at h
            simp only at h
            exfalso
            have hk := placeLoop_error_kind _ _ _ _ _ _ _ _ _ _ (by rw [hqlen]; exact hlen0) hp
            exact (hres e h.symm).2 hk
          | ok p =>
            obtain ⟨t, ws⟩ := p
            rw [hp] at h
            simp only at h
            rw [placeLoop_wrap _ _ _ _ _ _ _ _ _ _ (by
              intro g hg
              have h1 := hq3 g hg
              have h2 := cnt_le_sum quotas hq3 g hg
              rw [hq4, hsum0] at h2
              constructor
              · exact h1
              · omega) hp]
            exact h

/-- `BuildTable` on an implementation ends as the model does unless the model stops at a
conversion that the Go specification leaves open, or runs out of fuel: what is proved of
a table, an error or a panic of the model holds on every implementation. -/
theorem BuildTable_with (impl : F64 → Int) (sortSlice : List shardGen → List shardGen)
    (hperm : ∀ l, (sortSlice l).Perm l) (fuel : Nat) (shards : List Shard) (ts : Int)
    (hhi : ts < 9223372036854775808) (o : Outcome)
    (h : BuildTable sortSlice fuel shards ts = o) (h1 : o ≠ .unspecified)
    (h2 : o ≠ .timeout) : BuildTableWith impl sortSlice fuel shards ts = o := by
  unfold BuildTable at h
  unfold BuildTableWith
  cases hr : buildRun sortSlice fuel shards ts with
  | error e =>
    rw [hr] at h
    simp only at h
    rw [buildRun_with impl sortSlice hperm fuel shards ts hhi _ hr (by
      intro o1 ho1
      injection ho1 with ho1
      rw [← ho1, h]
      exact ⟨h1, h2⟩)]
    exact h
  | ok r =>
    rw [hr] at h
    rw [buildRun_with impl sortSlice hperm fuel shards ts hhi _ hr (by
      intro o1 ho1
      cases ho1)]
    exact h
/-! ## More fuel, and a table that is full too early -/

theorem quotaLoopWith_mono (impl : F64 → Int) (avg : F64) : ∀ (fuel i : Nat) (rest : Int)
    (gens : List shardGen) (r : Int × List shardGen),
    quotaLoopWith impl avg fuel i rest gens = .ok r →
    ∀ d, quotaLoopWith impl avg (fuel + d) i rest gens = .ok r := by
  intro fuel
  induction fuel with
  | zero => intro i rest gens r h; simp [quotaLoopWith] at h
  | succ fuel ih =>
    intro i rest gens r h d
    have h1 : fuel + 1 + d = (fuel + d) + 1 := by omega
    rw [h1]
    simp only [quotaLoopWith] at h ⊢
    by_cases hr : 0 < rest
    · rw [if_pos hr] at h ⊢
      cases hk : gens[i % gens.length]? with
      | none => rw [hk] at h; simp at h
      | some sh =>
        rw [hk] at h
        simp only at h ⊢
        by_cases hge : F64.ge (F64.add sh.w sh.sh.Weight) avg = true
        · rw [if_pos hge] at h ⊢
          exact ih _ _ _ _ h d
        · rw [if_neg hge] at h ⊢
          exact ih _ _ _ _ h d
    · rw [if_neg hr] at h ⊢
      exact h

theorem placeLoopWrap_mono (mask tableSize : Int) (pfuel e : Nat) : ∀ (fuel i : Nat)
    (rest : Int) (gens : List shardGen) (table : Table) (writes : List (Nat × Int))
    (r : Table × List (Nat × Int)),
    placeLoopWrap mask tableSize pfuel fuel i rest gens table writes = .ok r →
    ∀ d, placeLoopWrap mask tableSize (pfuel + e) (fuel + d) i rest gens table writes =
      .ok r := by
  intro fuel
  induction fuel with
  | zero => intro i rest gens table writes r h; simp [placeLoopWrap] at h
  | succ fuel ih =>
    intro i rest gens table writes r h d
    have h1 : fuel + 1 + d = (fuel + d) + 1 := by omega
    rw [h1]
    simp only [placeLoopWrap] at h ⊢
    by_cases hr : rest < tableSize
    · rw [if_pos hr] at h ⊢
      cases hk : gens[i % gens.length]? with
      | none => rw [hk] at h; simp at h
      | some sh =>
        rw [hk] at h
        simp only at h ⊢
        by_cases hz : sh.cnt = 0
        · rw [if_pos hz] at h ⊢
          exact ih _ _ _ _ _ _ h d
        · rw [if_neg hz] at h ⊢
          cases hp : probe mask table pfuel { sh with cnt := wrap (sh.cnt - 1) } with
          | none => rw [hp] at h; simp at h
          | some p =>
            rw [hp] at h
            rw [probe_mono _ _ _ _ _ hp e]
            simp only at h ⊢
            exact ih _ _ _ _ _ _ h d
    · rw [if_neg hr] at h ⊢
      exact h

/-- More fuel does not change a run that returns. -/
theorem buildRunWith_mono (impl : F64 → Int) (sortSlice : List shardGen → List shardGen)
    (fuel : Nat) (shards : List Shard) (ts : Int) (r : Run)
    (h : buildRunWith impl sortSlice fuel shards ts = .ok r) (d : Nat) :
    buildRunWith impl sortSlice (fuel + d) shards ts = .ok r := by
  unfold buildRunWith at h ⊢
  by_cases hg : ts ≤ 0 ∨ and64 ts (wrap (ts - 1)) ≠ 0
  · rw [if_pos hg] at h; simp at h
  · rw [if_neg hg] at h ⊢
    cases hs : setupLoop (highbitsOf ts) shards 0 F64.zero [] with
    | error o1 => rw [hs] at h; simp at h
    | ok p =>
      obtain ⟨sum, gens⟩ := p
      rw [hs] at h
      simp only at h ⊢
      by_cases hz : F64.isZero sum = true
      · rw [if_pos hz] at h; simp at h
      · rw [if_neg hz] at h ⊢
        cases hq : quotaLoopWith impl (F64.div sum (F64.ofInt shards.length)) fuel 0 ts
            (sortSlice gens) with
        | error e => rw [hq] at h; simp at h
        | ok p =>
          obtain ⟨rest, quotas⟩ := p
          rw [hq] at h
          simp only at h
          rw [quotaLoopWith_mono impl _ _ _ _ _ _ hq d]
          simp only
          cases hp : placeLoopWrap (ts - 1) ts fuel fuel 0 rest quotas
              (List.replicate ts.toNat 0) [] with
          | error e => rw [hp] at h; simp at h
          | ok p =>
            obtain ⟨t, ws⟩ := p
            rw [hp] at h
            simp only at h
            rw [placeLoopWrap_mono _ _ fuel d _ _ _ _ _ _ _ hp d]
            exact h

theorem count_zero_set : ∀ (t : Table) (c v : Nat), c < t.length → t.getD c 0 = 0 → v ≠ 0 →
    (t.set c v).count 0 + 1 = t.count 0 := by
  intro t
  induction t with
  | nil => intro c v h; simp at h
  | cons a l ih =>
    intro c v hc h0 hv
    cases c with
    | zero =>
      simp only [List.getD_cons_zero] at h0
      subst h0
      simp only [List.set_cons_zero]
      rw [List.count_cons_of_ne (Ne.symm hv), List.count_cons_self]
    | succ c =>
      simp only [List.getD_cons_succ] at h0
      simp only [List.length_cons, Nat.add_lt_add_iff_right] at hc
      simp only [List.set_cons_succ]
      have := ih c v hc h0 hv
      by_cases ha : a = 0
      · subst ha
        rw [List.count_cons_self, List.count_cons_self]
        omega
      · rw [List.count_cons_of_ne (Ne.symm ha), List.count_cons_of_ne (Ne.symm ha)]
        exact this

/-- When the loop has more slots to claim than the table has empty cells, it does not
end: whatever the fuel, the run is out of fuel. -/
theorem placeLoopWrap_overfull (b : Nat) (hb : b ≤ 62) (pfuel : Nat) : ∀ (fuel i : Nat)
    (rest : Int) (gens : List shardGen) (table : Table) (writes : List (Nat × Int)),
    0 < gens.length → (∀ g ∈ gens, uint16 g.ix ≠ 0) → table.length = 2 ^ b →
    ((table.count 0 : Nat) : Int) < 2 ^ b - rest →
    placeLoopWrap ((2 : Int) ^ b - 1) (2 ^ b) pfuel fuel i rest gens table writes =
      .error .timeout := by
  intro fuel
  induction fuel with
  | zero => intro i rest gens table writes _ _ _ _; simp [placeLoopWrap]
  | succ fuel ih =>
    intro i rest gens table writes hlen htag htl hcount
    simp only [placeLoopWrap]
    have hr : rest < (2 : Int) ^ b := by
      have : (0 : Int) ≤ ((table.count 0 : Nat) : Int) := Int.ofNat_nonneg _
      omega
    rw [if_pos hr]
    have hi : i % gens.length < gens.length := Nat.mod_lt _ hlen
    rw [List.getElem?_eq_getElem hi]
    simp only
    have hmem : gens[i % gens.length] ∈ gens := List.getElem_mem _
    by_cases hz : (gens[i % gens.length]).cnt = 0
    · rw [if_pos hz]
      exact ih _ _ _ _ _ hlen htag htl hcount
    · rw [if_neg hz]
      cases hp : probe ((2 : Int) ^ b - 1) table pfuel
          { gens[i % gens.length] with cnt := wrap ((gens[i % gens.length]).cnt - 1) } with
      | none => rfl
      | some p =>
        obtain ⟨cur, sh1⟩ := p
        simp only
        obtain ⟨_, e2, e3, e4⟩ := probe_fields b hb table pfuel _ cur sh1 hp
        have hc := count_zero_set table cur (uint16 (gens[i % gens.length]).ix)
          (by rw [htl]; exact e4) e3 (htag _ hmem)
        refine ih _ _ _ _ _ (by rw [List.length_set]; exact hlen) ?_
          (by rw [List.length_set]; exact htl) ?_
        · intro g hg
          rcases mem_set_cases _ _ _ _ hg with h5 | h5
          · rw [h5, e2]
            exact htag (gens[i % gens.length]) hmem
          · exact htag g h5
        · have : (((table.set cur (uint16 (gens[i % gens.length]).ix)).count 0 : Nat) : Int) + 1 =
              ((table.count 0 : Nat) : Int) := by exact_mod_cast hc
          omega
/-! ## A shard of weight zero on an implementation -/

theorem quotaLoopWith_error (impl : F64 → Int) (avg : F64) : ∀ (fuel i : Nat) (rest : Int)
    (gens : List shardGen) (o : Outcome),
    quotaLoopWith impl avg fuel i rest gens = .error o → ∀ t, o ≠ .table t := by
  intro fuel
  induction fuel with
  | zero =>
    intro i rest gens o h t
    simp only [quotaLoopWith] at h; injection h with h; rw [← h]; simp
  | succ n ih =>
    intro i rest gens o h t
    simp only [quotaLoopWith] at h
    by_cases hr : 0 < rest
    · rw [if_pos hr] at h
      cases hk : gens[i % gens.length]? with
      | none => rw [hk] at h; injection h with h; rw [← h]; simp
      | some sh =>
        rw [hk] at h
        simp only at h
        by_cases hge : F64.ge (F64.add sh.w sh.sh.Weight) avg = true
        · rw [if_pos hge] at h
          exact ih _ _ _ _ h t
        · rw [if_neg hge] at h
          exact ih _ _ _ _ h t
    · rw [if_neg hr] at h
      simp at h

theorem placeLoopWrap_error (mask T : Int) (pfuel : Nat) : ∀ (fuel i : Nat) (rest : Int)
    (gens : List shardGen) (table : Table) (ws : List (Nat × Int)) (o : Outcome),
    placeLoopWrap mask T pfuel fuel i rest gens table ws = .error o → ∀ t, o ≠ .table t := by
  intro fuel
  induction fuel with
  | zero =>
    intro i rest gens table ws o h t
    simp only [placeLoopWrap] at h; injection h with h; rw [← h]; simp
  | succ n ih =>
    intro i rest gens table ws o h t
    simp only [placeLoopWrap] at h
    split_ifs at h with h0
    · split at h
      · injection h with h; rw [← h]; simp
      · split_ifs at h with hc
        · exact ih _ _ _ _ _ _ h t
        · split at h
          · injection h with h; rw [← h]; simp
          · exact ih _ _ _ _ _ _ h t

/-- A run on an implementation that returns went through the three loops. -/
theorem buildRunWith_stages (impl : F64 → Int) (sortSlice : List shardGen → List shardGen)
    (fuel : Nat) (shards : List Shard) (ts : Int) (r : Run)
    (h : buildRunWith impl sortSlice fuel shards ts = .ok r) :
    (∀ s ∈ shards, F64.lt s.Weight F64.zero = false) ∧
    F64.isZero (sumWeights F64.zero shards) = false ∧
    ∃ rest t, quotaLoopWith impl (F64.div (sumWeights F64.zero shards)
        (F64.ofInt shards.length)) fuel 0 ts (sortSlice (mkGens (highbitsOf ts) 0 shards)) =
        .ok (rest, r.quotas) ∧
      placeLoopWrap (ts - 1) ts fuel fuel 0 rest r.quotas (List.replicate ts.toNat 0) [] =
        .ok (t, r.writes) ∧ r.table = decrement t := by
  unfold buildRunWith at h
  by_cases hg : ts ≤ 0 ∨ and64 ts (wrap (ts - 1)) ≠ 0
  · rw [if_pos hg] at h; simp at h
  · rw [if_neg hg] at h
    cases hs : setupLoop (highbitsOf ts) shards 0 F64.zero [] with
    | error o => rw [hs] at h; simp at h
    | ok p =>
      obtain ⟨sum, gens⟩ := p
      rw [hs] at h
      simp only at h
      obtain ⟨hw, _, hsum, hgens⟩ := setupLoop_ok _ _ _ _ _ _ _ hs
      by_cases hz : F64.isZero sum = true
      · rw [if_pos hz] at h; simp at h
      · rw [if_neg hz] at h
        simp only [List.nil_append] at hgens
        rw [hgens, hsum] at h
        cases hq : quotaLoopWith impl (F64.div (sumWeights F64.zero shards)
            (F64.ofInt shards.length)) fuel 0 ts
            (sortSlice (mkGens (highbitsOf ts) 0 shards)) with
        | error o => rw [hq] at h; simp at h
        | ok p =>
          obtain ⟨rest, quotas⟩ := p
          rw [hq] at h
          simp only at h
          cases hp : placeLoopWrap (ts - 1) ts fuel fuel 0 rest quotas
              (List.replicate ts.toNat 0) [] with
          | error o => rw [hp] at h; simp at h
          | ok p =>
            obtain ⟨t, ws⟩ := p
            rw [hp] at h
            simp only [Except.ok.injEq] at h
            subst h
            refine ⟨hw, ?_, rest, t, rfl, hp, rfl⟩
            rw [← hsum]
            simpa using hz

theorem buildRunWith_error (impl : F64 → Int) (sortSlice : List shardGen → List shardGen)
    (fuel : Nat) (shards : List Shard) (ts : Int) (o : Outcome)
    (h : buildRunWith impl sortSlice fuel shards ts = .error o) : ∀ t, o ≠ .table t := by
  intro t
  unfold buildRunWith at h
  split_ifs at h with hg
  · injection h with h; rw [← h]; simp
  · split at h
    · next o1 hs => injection h with h; rw [← h]; exact setupLoop_error _ _ _ _ _ _ hs t
    · split_ifs at h with hz
      · injection h with h; rw [← h]; simp
      · split at h
        · next o1 hq =>
          injection h with h; rw [← h]; exact quotaLoopWith_error _ _ _ _ _ _ _ hq t
        · split at h
          · next o1 hp =>
            injection h with h; rw [← h]; exact placeLoopWrap_error _ _ _ _ _ _ _ _ _ _ hp t
          · simp at h

theorem run_of_BuildTableWith (impl : F64 → Int) (sortSlice : List shardGen → List shardGen)
    (fuel : Nat) (shards : List Shard) (tableSize : Int) (t : Table)
    (h : BuildTableWith impl sortSlice fuel shards tableSize = .table t) :
    ∃ r, buildRunWith impl sortSlice fuel shards tableSize = .ok r ∧ r.table = t := by
  unfold BuildTableWith at h
  cases hr : buildRunWith impl sortSlice fuel shards tableSize with
  | error o =>
    rw [hr] at h
    exact absurd h (buildRunWith_error _ _ _ _ _ _ hr t)
  | ok r =>
    rw [hr] at h
    injection h with h
    exact ⟨r, rfl, h⟩

theorem BuildTableWith_of_run (impl : F64 → Int) (sortSlice : List shardGen → List shardGen)
    (fuel : Nat) (shards : List Shard) (tableSize : Int) (r : Run)
    (h : buildRunWith impl sortSlice fuel shards tableSize = .ok r) :
    BuildTableWith impl sortSlice fuel shards tableSize = .table r.table := by
  unfold BuildTableWith
  rw [h]

/-- A zero accumulator is below an average that is not zero. -/
theorem ge_zero_false (avg : F64) (havg : avg.NotNeg) (hnz : F64.isZero avg = false) :
    F64.ge F64.zero avg = false := by
  cases hge : F64.ge F64.zero avg with
  | false => rfl
  | true =>
    exfalso
    cases avg with
    | fin s m e =>
      have hm : m = 0 := by
        cases s with
        | false =>
          simp only [F64.ge, F64.le, F64.zero, Nat.min_zero, Nat.sub_zero, zero_mul,
            decide_eq_true_eq] at hge
          have hp : 0 < 2 ^ e := Nat.two_pow_pos e
          rcases Nat.eq_zero_or_pos m with h0 | h0
          · exact h0
          · have := Nat.mul_pos h0 hp
            omega
        | true => simpa [F64.NotNeg] using havg
      subst hm
      simp [F64.isZero] at hnz
    | inf s =>
      simp only [F64.NotNeg] at havg
      subst havg
      simp [F64.ge, F64.le, F64.zero] at hge
    | nan => simp [F64.ge, F64.le, F64.zero] at hge

/-- On every implementation the quota loop leaves the fixed fields of the generators as
they are and, when a zero accumulator is below the average, grants nothing to a
generator whose shard has weight zero. -/
theorem quotaLoopWith_zero_weight (impl : F64 → Int) (avg : F64)
    (hlt : F64.ge F64.zero avg = false) : ∀ (fuel i : Nat) (rest : Int)
    (gens : List shardGen) (r : Int) (gens1 : List shardGen),
    (∀ g ∈ gens, F64.isZero g.sh.Weight = true → F64.isZero g.w = true ∧ g.cnt = 0) →
    quotaLoopWith impl avg fuel i rest gens = .ok (r, gens1) →
    gens1.map shardGen.fixed = gens.map shardGen.fixed ∧
      ∀ g ∈ gens1, F64.isZero g.sh.Weight = true → F64.isZero g.w = true ∧ g.cnt = 0 := by
  intro fuel
  induction fuel with
  | zero => intro i rest gens r gens1 _ h; simp [quotaLoopWith] at h
  | succ fuel ih =>
    intro i rest gens r gens1 hinv h
    simp only [quotaLoopWith] at h
    by_cases hr : 0 < rest
    · rw [if_pos hr] at h
      cases hk : gens[i % gens.length]? with
      | none => rw [hk] at h; simp at h
      | some sh =>
        rw [hk] at h
        simp only at h
        have hmem : sh ∈ gens := List.getElem?_mem hk
        by_cases hge : F64.ge (F64.add sh.w sh.sh.Weight) avg = true
        · rw [if_pos hge] at h
          have hnz : ¬ F64.isZero sh.sh.Weight = true := by
            intro hz
            have hw := add_zero_zero _ _ (hinv sh hmem hz).1 hz
            rw [hw, hlt] at hge
            simp at hge
          obtain ⟨h1, h2⟩ := ih _ _ _ _ _ (by
            intro g hg hz
            rcases mem_set_cases _ _ _ _ hg with he | hin
            · rw [he] at hz
              exact absurd hz hnz
            · exact hinv g hin hz) h
          exact ⟨by rw [h1]; exact map_set_same _ _ _ _ _ hk rfl, h2⟩
        · rw [if_neg hge] at h
          obtain ⟨h1, h2⟩ := ih _ _ _ _ _ (by
            intro g hg hz
            rcases mem_set_cases _ _ _ _ hg with he | hin
            · rw [he] at hz ⊢
              have hw := add_zero_zero _ _ (hinv sh hmem hz).1 hz
              exact ⟨by show F64.isZero (F64.add sh.w sh.sh.Weight) = true; rw [hw]; rfl,
                (hinv sh hmem hz).2⟩
            · exact hinv g hin hz) h
          exact ⟨by rw [h1]; exact map_set_same _ _ _ _ _ hk rfl, h2⟩
    · rw [if_neg hr] at h
      simp only [Except.ok.injEq, Prod.mk.injEq] at h
      rw [← h.2]
      exact ⟨rfl, hinv⟩

/-- The placement loop writes the tag `k` into no cell when the generators with that
tag have the quota 0. -/
theorem placeLoopWrap_avoid (mask T : Int) (pfuel : Nat) (k : Int) (hk1 : 1 ≤ k)
    (hk2 : k ≤ 65535) : ∀ (fuel i : Nat) (rest : Int) (gens : List shardGen) (table : Table)
      (writes : List (Nat × Int)) (t : Table) (ws : List (Nat × Int)),
    (∀ g ∈ gens, 1 ≤ g.ix ∧ g.ix ≤ 65535 ∧ (g.ix = k → g.cnt = 0)) →
    (∀ v ∈ table, v < 65536 ∧ v ≠ k.toNat) →
    placeLoopWrap mask T pfuel fuel i rest gens table writes = .ok (t, ws) →
    ∀ v ∈ t, v < 65536 ∧ v ≠ k.toNat := by
  intro fuel
  induction fuel with
  | zero => intro i rest gens table writes t ws _ _ h; simp [placeLoopWrap] at h
  | succ fuel ih =>
    intro i rest gens table writes t ws hg ht h
    simp only [placeLoopWrap] at h
    by_cases hr : rest < T
    · rw [if_pos hr] at h
      cases hk : gens[i % gens.length]? with
      | none => rw [hk] at h; simp at h
      | some sh =>
        rw [hk] at h
        simp only at h
        have hmem : sh ∈ gens := List.getElem?_mem hk
        obtain ⟨hs1, hs2, hs3⟩ := hg sh hmem
        by_cases hz : sh.cnt = 0
        · rw [if_pos hz] at h
          exact ih _ _ _ _ _ _ _ hg ht h
        · rw [if_neg hz] at h
          have hne : sh.ix ≠ k := fun he => hz (hs3 he)
          cases hp : probe mask table pfuel { sh with cnt := wrap (sh.cnt - 1) } with
          | none => rw [hp] at h; simp at h
          | some p =>
            obtain ⟨cur, sh1⟩ := p
            rw [hp] at h
            simp only at h
            obtain ⟨_, e2⟩ := probe_cnt mask table pfuel _ cur sh1 hp
            refine ih _ _ _ _ _ _ _ ?_ ?_ h
            · intro g hgm
              rcases mem_set_cases _ _ _ _ hgm with h5 | h5
              · rw [h5, e2]
                exact ⟨hs1, hs2, fun he => absurd he hne⟩
              · exact hg g h5
            · intro v hv
              rcases mem_set_cases _ _ _ _ hv with h5 | h5
              · rw [h5, (uint16_ix sh.ix hs1 hs2).1]
                constructor
                · omega
                · omega
              · exact ht v h5
    · rw [if_neg hr] at h
      simp only [Except.ok.injEq, Prod.mk.injEq] at h
      rw [← h.1]
      exact ht
/-! ## An average that rounds to zero

The weights 5e-324 and 0 pass the test `averageWeight == 0` of line 81, which is made on
the sum; the division of line 84 then rounds the average to zero. -/

theorem tiny_facts :
    ((tinyShards.map fun s => F64.lt s.Weight F64.zero) = [false, false] ∧
      F64.isZero (sumWeights F64.zero tinyShards) = false ∧
      F64.isZero (F64.div (sumWeights F64.zero tinyShards) (F64.ofInt tinyShards.length)) =
        true) ∧
    ((zeroFirstShards.map fun s => F64.lt s.Weight F64.zero) = [false, false] ∧
      F64.isZero (sumWeights F64.zero zeroFirstShards) = false ∧
      F64.isZero (F64.div (sumWeights F64.zero zeroFirstShards)
        (F64.ofInt zeroFirstShards.length)) = true) := by
  decide!

/-- On amd64 the quota loop leaves the first generator with the quota `-2^63` and `rest`
negative, after one iteration. -/
theorem tiny_quota (fuel : Nat) (hf : 2 ≤ fuel) :
    ∃ quotas, quotaLoopWith amd64 (F64.div (sumWeights F64.zero tinyShards)
          (F64.ofInt tinyShards.length)) fuel 0 4
          (goSort (mkGens (highbitsOf 4) 0 tinyShards)) =
        .ok (-9223372036854775804, quotas) ∧
      (quotas.map fun g => g.cnt) = [-9223372036854775808, 0] ∧ 0 < quotas.length ∧
      ∀ g ∈ quotas, uint16 g.ix ≠ 0 := by
  have hex : (match quotaLoopWith amd64 (F64.div (sumWeights F64.zero tinyShards)
        (F64.ofInt tinyShards.length)) 2 0 4 (goSort (mkGens (highbitsOf 4) 0 tinyShards)) with
      | .ok (r, q) => decide (r = -9223372036854775804) &&
          (decide ((q.map fun g => g.cnt) = [-9223372036854775808, 0]) &&
            (decide (0 < q.length) && q.all fun g => decide (uint16 g.ix ≠ 0)))
      | .error _ => false) = true := by decide!
  cases h : quotaLoopWith amd64 (F64.div (sumWeights F64.zero tinyShards)
        (F64.ofInt tinyShards.length)) 2 0 4 (goSort (mkGens (highbitsOf 4) 0 tinyShards)) with
  | error e => rw [h] at hex; simp at hex
  | ok p =>
    obtain ⟨r, q⟩ := p
    rw [h] at hex
    simp only [Bool.and_eq_true, decide_eq_true_eq, List.all_eq_true] at hex
    obtain ⟨h1, h2, h3, h4⟩ := hex
    subst h1
    have hm := quotaLoopWith_mono _ _ _ _ _ _ _ h (fuel - 2)
    have hfe : 2 + (fuel - 2) = fuel := by omega
    rw [hfe] at hm
    exact ⟨q, hm, h2, h3, h4⟩

theorem four_eq : (4 : Int) = 2 ^ 2 := by norm_num

/-- On amd64 `BuildTable` does not return for the weights 5e-324 and 0 at
`tableSize = 4`: whatever the fuel, the run is out of fuel. -/
theorem tiny_hangs (fuel : Nat) : BuildTableWith amd64 goSort fuel tinyShards 4 = .timeout := by
  rcases Nat.lt_or_ge fuel 2 with hlt | hge
  · have h01 : fuel = 0 ∨ fuel = 1 := by omega
    rcases h01 with rfl | rfl
    · decide!
    · decide!
  · obtain ⟨quotas, hq, _, hlen, htag⟩ := tiny_quota fuel hge
    have hg : ¬ ((4 : Int) ≤ 0 ∨ and64 4 (wrap (4 - 1)) ≠ 0) := by decide!
    have hw : ∀ s ∈ tinyShards, F64.lt s.Weight F64.zero = false := by decide!
    have hb : highbitsOf 4 ≠ 0 := by decide!
    have hover := placeLoopWrap_overfull 2 (by norm_num) fuel fuel 0 (-9223372036854775804)
      quotas (List.replicate 4 0) [] hlen htag rfl (by
        rw [List.count_replicate_self]
        norm_num)
    rw [← four_eq] at hover
    unfold BuildTableWith buildRunWith
    rw [if_neg hg, setupLoop_total _ hb _ _ _ _ hw]
    simp only [List.nil_append]
    rw [if_neg (by rw [tiny_facts.1.2.1]; simp), hq]
    simp only
    have h4 : (4 : Int).toNat = 4 := rfl
    rw [h4, hover]

/-- On an implementation that converts a NaN to the largest `int`, the shard of weight
zero is granted both slots of a table of size 2. -/
theorem zeroFirst_table (fuel : Nat) (hf : 4 ≤ fuel) :
    BuildTableWith nanMax goSort fuel zeroFirstShards 2 = .table [0, 0] := by
  have hex : (match buildRunWith nanMax goSort 4 zeroFirstShards 2 with
      | .ok r => decide (r.table = [0, 0])
      | .error _ => false) = true := by decide!
  cases h : buildRunWith nanMax goSort 4 zeroFirstShards 2 with
  | error e => rw [h] at hex; simp at hex
  | ok r =>
    rw [h] at hex
    simp only [decide_eq_true_eq] at hex
    have hm := buildRunWith_mono _ _ _ _ _ _ h (fuel - 4)
    have hfe : 4 + (fuel - 4) = fuel := by omega
    rw [hfe] at hm
    rw [BuildTableWith_of_run _ _ _ _ _ _ hm, hex]

/-- On every implementation, when the average is not zero, a shard of weight zero owns no
slot of a table that `BuildTable` returns (at most 65535 shards). -/
theorem zero_weight_with (impl : F64 → Int) (sortSlice : List shardGen → List shardGen)
    (hs : SortsByHash sortSlice) (fuel : Nat) (shards : List Shard)
    (hn : shards.length ≤ 65535) (tableSize : Int) (t : Table)
    (h : BuildTableWith impl sortSlice fuel shards tableSize = .table t)
    (hnz : F64.isZero (F64.div (sumWeights F64.zero shards) (F64.ofInt shards.length)) = false)
    (i : Nat) (s : Shard) (hi : shards[i]? = some s) (h0 : F64.isZero s.Weight = true) :
    i ∉ t := by
  obtain ⟨r, hr, ht⟩ := run_of_BuildTableWith _ _ _ _ _ _ h
  obtain ⟨hw, hz, rest, t1, hq, hp, htab⟩ := buildRunWith_stages _ _ _ _ _ _ hr
  have havg : (F64.div (sumWeights F64.zero shards) (F64.ofInt shards.length)).NotNeg := by
    apply avg_notNeg _ _ _ hz (by omega)
    exact sumWeights_notNeg _ _ (by simp [F64.NotNeg, F64.zero]) hw
  have hlt := ge_zero_false _ havg hnz
  obtain ⟨hfix, hzero⟩ := quotaLoopWith_zero_weight impl _ hlt fuel 0 tableSize _ rest
    r.quotas (by
      intro g hg _
      obtain ⟨j, s1, _, rfl⟩ := mem_mkGens _ _ _ g (((hs _).1).subset hg)
      exact ⟨rfl, rfl⟩) hq
  have hilt : i < shards.length := by
    by_contra hlt
    rw [List.getElem?_eq_none (by omega)] at hi
    simp at hi
  have hgens : ∀ g ∈ r.quotas, 1 ≤ g.ix ∧ g.ix ≤ 65535 ∧
      (g.ix = ((i : Nat) : Int) + 1 → g.cnt = 0) := by
    intro g hg
    obtain ⟨g0, hg0, hf⟩ := fixed_mem _ _ hfix g hg
    obtain ⟨_, _, _, _, hix, hsh⟩ := fixed_fields g g0 hf
    obtain ⟨j, s1, hj, rfl⟩ := mem_mkGens _ _ _ g0 (((hs _).1).subset hg0)
    have hjlt : j < shards.length := by
      by_contra hlt
      rw [List.getElem?_eq_none (by omega)] at hj
      simp at hj
    have hix1 : g.ix = ((0 + j : Nat) : Int) + 1 := hix
    have hsh1 : g.sh = s1 := hsh
    refine ⟨by rw [hix1]; omega, by rw [hix1]; push_cast; omega, ?_⟩
    intro he
    have hji : j = i := by
      rw [hix1] at he
      push_cast at he
      omega
    subst hji
    rw [hi] at hj
    have hss : s1 = s := (Option.some.inj hj).symm
    exact (hzero g hg (by rw [hsh1, hss]; exact h0)).2
  have hcells := placeLoopWrap_avoid _ _ _ (((i : Nat) : Int) + 1) (by omega) (by omega) _ _ _
    _ _ _ _ _ hgens (by
      intro v hv
      have := List.eq_of_mem_replicate hv
      subst this
      constructor
      · omega
      · omega) hp
  intro hin
  rw [← ht, htab] at hin
  unfold decrement at hin
  rw [List.mem_map] at hin
  obtain ⟨v, hv, hvi⟩ := hin
  obtain ⟨h1, h2⟩ := hcells v hv
  have h3 : (((i : Nat) : Int) + 1).toNat = i + 1 := by omega
  rw [h3] at h2
  omega
/-! ## The loops of the model when they return -/

/-- For shards with weights that are not negative and not all zero and a size not less
than 1: if the quota loop of lines 98-110 exits, then `rest` is 0 there, every quota
`cnt` is at least 0 and the quotas add up to `tableSize`; and from any state of the loop
with `0 ≤ rest` and quotas that are not negative, the exit has `rest = 0` and the same
value of `rest + (sum of cnt)`. -/
theorem quotaLoop_sums (sortSlice : List shardGen → List shardGen)
    (hs : SortsByHash sortSlice) (highbits : Nat) (shards : List Shard)
    (hw : ∀ s ∈ shards, F64.lt s.Weight F64.zero = false)
    (hz : F64.isZero (sumWeights F64.zero shards) = false)
    (tableSize : Int) (ht : 1 ≤ tableSize) :
    (∀ (fuel : Nat) (rest : Int) (quotas : List shardGen),
      quotaLoop (F64.div (sumWeights F64.zero shards) (F64.ofInt shards.length)) fuel 0
        tableSize (sortSlice (mkGens highbits 0 shards)) = .ok (rest, quotas) →
      rest = 0 ∧ (∀ g ∈ quotas, 0 ≤ g.cnt) ∧ (quotas.map fun g => g.cnt).sum = tableSize) ∧
    (∀ (fuel i : Nat) (rest : Int) (gens : List shardGen) (rest1 : Int)
      (gens1 : List shardGen), 0 ≤ rest → (∀ g ∈ gens, 0 ≤ g.cnt) →
      quotaLoop (F64.div (sumWeights F64.zero shards) (F64.ofInt shards.length)) fuel i rest
        gens = .ok (rest1, gens1) →
      rest1 = 0 ∧ (∀ g ∈ gens1, 0 ≤ g.cnt) ∧
        rest1 + (gens1.map fun g => g.cnt).sum = rest + (gens.map fun g => g.cnt).sum) := by
  have havg : (F64.div (sumWeights F64.zero shards) (F64.ofInt shards.length)).NotNeg := by
    apply avg_notNeg _ _ _ hz (by omega)
    exact sumWeights_notNeg _ _ (by simp [F64.NotNeg, F64.zero]) hw
  constructor
  · intro fuel rest quotas h
    obtain ⟨h0, good⟩ := goodQuotas_of_quotaLoop sortSlice (fun l => (hs l).1) highbits shards
      _ havg fuel tableSize (by omega) rest quotas h
    exact ⟨h0, good.cnt_nonneg, good.sum⟩
  · intro fuel i rest gens rest1 gens1 hr hc h
    obtain ⟨h1, _, h3, h4⟩ := quotaLoop_ok _ havg fuel i rest gens rest1 gens1 hr hc h
    exact ⟨h1, h3, by rw [h1, h4]; ring⟩

/-- For at most 65535 shards with weights that are not negative and not all zero and
`tableSize = 2^b`, `b ≤ 62`: from the state the quota loop exits with, the placement
loop of lines 114-129 returns when every inner search may take `tableSize` probes
(`pfuel`) and the outer loop `tableSize * len(shards) + 1` iterations, and at its end
every slot has been claimed exactly once and holds a tag. -/
theorem placeLoop_returns (sortSlice : List shardGen → List shardGen)
    (hs : SortsByHash sortSlice) (shards : List Shard) (hn : shards.length ≤ 65535)
    (b : Nat) (hb62 : b ≤ 62)
    (hw : ∀ s ∈ shards, F64.lt s.Weight F64.zero = false)
    (hz : F64.isZero (sumWeights F64.zero shards) = false) (fuelq : Nat) (rest : Int)
    (quotas : List shardGen)
    (hq : quotaLoop (F64.div (sumWeights F64.zero shards) (F64.ofInt shards.length)) fuelq 0
      (2 ^ b) (sortSlice (mkGens (highbitsOf (2 ^ b)) 0 shards)) = .ok (rest, quotas))
    (pfuel fuel : Nat) (hp : 2 ^ b ≤ pfuel) (hf : 2 ^ b * shards.length + 1 ≤ fuel) :
    ∃ t ws, placeLoop ((2 : Int) ^ b - 1) (2 ^ b) pfuel fuel 0 rest quotas
        (List.replicate ((2 : Int) ^ b).toNat 0) [] = .ok (t, ws) ∧
      t.length = 2 ^ b ∧ (ws.map Prod.fst).Perm (List.range (2 ^ b)) ∧
      ∀ s, s < 2 ^ b → t.getD s 0 ≠ 0 := by
  have havg : (F64.div (sumWeights F64.zero shards) (F64.ofInt shards.length)).NotNeg := by
    apply avg_notNeg _ _ _ hz (by omega)
    exact sumWeights_notNeg _ _ (by simp [F64.NotNeg, F64.zero]) hw
  obtain ⟨hrest, good⟩ := goodQuotas_of_quotaLoop sortSlice (fun l => (hs l).1) _ shards _
    havg fuelq _ (by positivity) rest quotas hq
  have htag : ∀ g ∈ quotas, g.cnt ≠ 0 → uint16 g.ix ≠ 0 := by
    intro g hg _
    obtain ⟨h1, h2, _⟩ := good.ix_shard g hg
    rw [(uint16_ix g.ix h1 (by omega)).1]
    omega
  have hsumT : (quotas.map fun g => g.cnt).sum = ((2 ^ b : Nat) : Int) := by
    rw [good.sum, pow_cast]
  have inv0 := placeInv_init ((2 : Int) ^ b - 1) (2 ^ b) quotas good.odd good.pos
    good.cnt_nonneg htag hsumT
  rw [pow_cast] at inv0
  have hlen : quotas.length = shards.length := by
    have := good.ix_perm.length_eq
    simpa using this
  obtain ⟨⟨t, ws⟩, hpl⟩ := placeLoop_total b hb62 quotas pfuel hp (2 ^ b) fuel 0 0 quotas _ []
    inv0 (by simp [pow_toNat]) (by rw [hlen]; exact hf)
  obtain ⟨gensEnd, inv⟩ := placeLoop_ok b hb62 quotas pfuel fuel 0 0 quotas _ [] t ws inv0 hpl
  obtain ⟨hl, hperm, _, _⟩ := placeInv_final_pow b quotas gensEnd t ws inv
  rw [hrest, pow_toNat]
  refine ⟨t, ws, hpl, hl, hperm, ?_⟩
  intro s hs
  have hmem : s ∈ ws.map Prod.fst := hperm.mem_iff.2 (List.mem_range.2 hs)
  rw [List.mem_map] at hmem
  obtain ⟨p, hp1, rfl⟩ := hmem
  have := inv.w_slot p hp1
  rw [this.2.1]
  exact this.2.2
/-! ## The claims -/

/-- C1 (the code fails the claim). `tableSize = 1` passes the guard, but `highbits` wraps
around to zero and the first division by it panics: one shard of weight 1, `tableSize = 1`. -/
theorem BuildTable_size_one_panics (sortSlice : List shardGen → List shardGen) (fuel : Nat) :
    BuildTable sortSlice fuel [⟨0, F64.lit 1 1⟩] 1 =
      .panic "runtime error: integer divide by zero" := by
  have hg : ¬ ((1 : Int) ≤ 0 ∨ and64 1 (wrap (1 - 1)) ≠ 0) := by decide
  have hs : setupLoop (highbitsOf 1) [⟨0, F64.lit 1 1⟩] 0 F64.zero [] =
      .error (.panic "runtime error: integer divide by zero") := by decide!
  unfold BuildTable buildRun
  rw [if_neg hg, hs]

/-- C2. `BuildTable` panics with the precondition message, whatever the shards, as soon as
its guard holds, and for an `int` the guard holds exactly when `tableSize` is not `2^k`. -/
theorem BuildTable_precondition (ts : Int) (hlo : -9223372036854775808 ≤ ts)
    (hhi : ts < 9223372036854775808) :
    ((ts ≤ 0 ∨ and64 ts (wrap (ts - 1)) ≠ 0) ↔ ¬ ∃ k : Nat, ts = 2 ^ k) ∧
    ((¬ ∃ k : Nat, ts = 2 ^ k) → ∀ (sortSlice : List shardGen → List shardGen) (fuel : Nat)
      (shards : List Shard), BuildTable sortSlice fuel shards ts =
        .panic "tableSize should be positive power of two") := by
  refine ⟨guard_iff ts hlo hhi, fun h sortSlice fuel shards => ?_⟩
  unfold BuildTable
  rw [buildRun_guard _ _ _ _ ((guard_iff ts hlo hhi).2 h)]

/-- C2 at `tableSize = 1000`. -/
theorem BuildTable_precondition_witness :
    (-9223372036854775808 ≤ (1000 : Int) ∧ (1000 : Int) < 9223372036854775808) ∧
    (((1000 : Int) ≤ 0 ∨ and64 1000 (wrap (1000 - 1)) ≠ 0) ↔ ¬ ∃ k : Nat, (1000 : Int) = 2 ^ k) ∧
    ((¬ ∃ k : Nat, (1000 : Int) = 2 ^ k) → ∀ (sortSlice : List shardGen → List shardGen)
      (fuel : Nat) (shards : List Shard), BuildTable sortSlice fuel shards 1000 =
        .panic "tableSize should be positive power of two") :=
  ⟨⟨by decide, by decide⟩, BuildTable_precondition 1000 (by decide) (by decide)⟩

/-- C3 (the code fails the claim). With `tableSize = 1` a negative weight behind a shard of
weight 1 is never reached: the first shard's division by `highbits = 0` panics. -/
theorem BuildTable_negative_weight_size_one (sortSlice : List shardGen → List shardGen)
    (fuel : Nat) :
    BuildTable sortSlice fuel [⟨0, F64.lit 1 1⟩, ⟨0, F64.neg (F64.lit 1 1)⟩] 1 =
      .panic "runtime error: integer divide by zero" := by
  have hg : ¬ ((1 : Int) ≤ 0 ∨ and64 1 (wrap (1 - 1)) ≠ 0) := by decide
  have hs : setupLoop (highbitsOf 1) [⟨0, F64.lit 1 1⟩, ⟨0, F64.neg (F64.lit 1 1)⟩] 0
      F64.zero [] = .error (.panic "runtime error: integer divide by zero") := by decide!
  unfold BuildTable buildRun
  rw [if_neg hg, hs]

/-- C4 (the code fails the claim). One shard of weight zero and `tableSize = 1`: the
division by `highbits = 0` panics before `averageWeight == 0` is tested. -/
theorem BuildTable_zero_weight_size_one (sortSlice : List shardGen → List shardGen)
    (fuel : Nat) :
    BuildTable sortSlice fuel [⟨0, F64.zero⟩] 1 =
      .panic "runtime error: integer divide by zero" := by
  have hg : ¬ ((1 : Int) ≤ 0 ∨ and64 1 (wrap (1 - 1)) ≠ 0) := by decide
  have hs : setupLoop (highbitsOf 1) [⟨0, F64.zero⟩] 0 F64.zero [] =
      .error (.panic "runtime error: integer divide by zero") := by decide!
  unfold BuildTable buildRun
  rw [if_neg hg, hs]

/-- C5 (the code fails the claim). Hashes 1, 2, 3 with weights 1, 2, 1 and `tableSize = 4`:
multiplying every weight by 100 (the products are exactly 100, 200, 100) changes the
table, because `4/3` and `400/3` round in opposite directions. -/
theorem BuildTable_scaled_weights_differ :
    ([⟨1, F64.lit 1 1⟩, ⟨2, F64.lit 2 1⟩, ⟨3, F64.lit 1 1⟩].map fun s : Shard =>
        ({ s with Weight := F64.mul s.Weight (F64.lit 100 1) } : Shard)) =
      [⟨1, F64.lit 100 1⟩, ⟨2, F64.lit 200 1⟩, ⟨3, F64.lit 100 1⟩] ∧
    BuildTable goSort 100 [⟨1, F64.lit 1 1⟩, ⟨2, F64.lit 2 1⟩, ⟨3, F64.lit 1 1⟩] 4 =
      .table [0, 1, 1, 1] ∧
    BuildTable goSort 100 [⟨1, F64.lit 100 1⟩, ⟨2, F64.lit 200 1⟩, ⟨3, F64.lit 100 1⟩] 4 =
      .table [0, 2, 1, 1] := by
  refine ⟨by decide!, by decide!, by decide!⟩

/-- C9 (the code fails the claim). Hashes 1, 2, 3 with weights 0.8, 2.4, 1.6 and
`tableSize = 2`: in this order slot 0 goes to the shard with hash 2, in the reverse order
to the shard with hash 3, because the sum of the weights depends on the order. -/
theorem BuildTable_input_order_matters :
    BuildTable goSort 100 [⟨1, F64.lit 8 10⟩, ⟨2, F64.lit 24 10⟩, ⟨3, F64.lit 16 10⟩] 2 =
      .table [1, 1] ∧
    BuildTable goSort 100 [⟨3, F64.lit 16 10⟩, ⟨2, F64.lit 24 10⟩, ⟨1, F64.lit 8 10⟩] 2 =
      .table [0, 1] ∧
    [⟨1, F64.lit 8 10⟩, ⟨2, F64.lit 24 10⟩, ⟨3, F64.lit 16 10⟩][1]? =
      some (⟨2, F64.lit 24 10⟩ : Shard) ∧
    [⟨3, F64.lit 16 10⟩, ⟨2, F64.lit 24 10⟩, ⟨1, F64.lit 8 10⟩][0]? =
      some (⟨3, F64.lit 16 10⟩ : Shard) := by
  refine ⟨by decide!, by decide!, rfl, rfl⟩

/-- C10 (counterexample). With the 65537 shards of `manyShards` and `tableSize = 2` both
slots are claimed by the generator of the last shard (`ix = 65537`, position 65536), and
both hold 0 in the returned table, the position of a shard whose quota is zero. -/
theorem wide_index_counterexample : ∃ r, buildRun goSort 200000 manyShards 2 = .ok r ∧
    BuildTable goSort 200000 manyShards 2 = .table [0, 0] ∧
    r.writes.map Prod.snd = [65537, 65537] ∧ (∀ g ∈ r.quotas, g.ix = 1 → g.cnt = 0) ∧
    manyShards.length = 65537 := by
  have h21 : (2 : Int) ^ 1 = 2 := by norm_num
  have h := manyShards_run
  rw [h21] at h
  obtain ⟨r, h1, h2, h3, h4⟩ := h
  have hb := BuildTable_of_run _ _ _ _ _ h1
  rw [h2] at hb
  exact ⟨r, h1, hb, h3, h4, manyShards_length⟩

/-- C10 (amended). With at most 65535 shards: whenever `BuildTable` returns a table, the run
behind it wrote each slot exactly once, the final value of every slot is the position in
`shards` of the shard whose generator claimed it (the tag `ix` minus one), and every
position `i` has one generator, tagged `i + 1`, whose quota is the number of slots that
hold `i`. -/
theorem slots_carry_claiming_index (sortSlice : List shardGen → List shardGen)
    (hs : SortsByHash sortSlice) (fuel : Nat) (shards : List Shard)
    (hn : shards.length ≤ 65535) (tableSize : Int) (hlo : -9223372036854775808 ≤ tableSize)
    (hhi : tableSize < 9223372036854775808) (t : Table)
    (h : BuildTable sortSlice fuel shards tableSize = .table t) :
    ∃ r, buildRun sortSlice fuel shards tableSize = .ok r ∧ r.table = t ∧
      t.length = tableSize.toNat ∧
      (r.writes.map Prod.fst).Perm (List.range tableSize.toNat) ∧
      (∀ p ∈ r.writes, t.getD p.1 0 = (p.2 - 1).toNat ∧
        ∃ g ∈ r.quotas, g.ix = p.2 ∧ shards[(p.2 - 1).toNat]? = some g.sh) ∧
      (∀ i, i < shards.length → ∃ g ∈ r.quotas, g.ix = (i : Int) + 1 ∧
        shards[i]? = some g.sh ∧ ((t.count i : Nat) : Int) = g.cnt) := by
  obtain ⟨r, hr, ht⟩ := run_of_BuildTable _ _ _ _ _ h
  obtain ⟨b, t0, gensEnd, _, _, hts, htab, good, inv⟩ :=
    buildRun_inv sortSlice (fun l => (hs l).1) fuel shards tableSize hlo hhi hn r hr
  have good2 : GoodQuotas shards (2 ^ b) r.quotas := by rw [← hts]; exact good
  obtain ⟨hlen, hperm, hw, hcount⟩ := table_facts shards hn b _ _ _ _ good2 inv
  rw [← htab, ht] at hlen hw hcount
  have hT : tableSize.toNat = 2 ^ b := by rw [hts, pow_toNat]
  rw [hT]
  refine ⟨r, hr, ht, hlen, hperm, hw, ?_⟩
  intro i hi
  have hmem : ((i : Nat) : Int) + 1 ∈ r.quotas.map fun g => g.ix := by
    rw [good.ix_perm.mem_iff, List.mem_map]
    exact ⟨i, List.mem_range.2 hi, rfl⟩
  rw [List.mem_map] at hmem
  obtain ⟨g, hg, hgi⟩ := hmem
  have h1 := (good.ix_shard g hg).2.2
  have h2 := hcount g hg
  have h3 : (g.ix - 1).toNat = i := by rw [hgi]; simp
  rw [h3] at h1 h2
  exact ⟨g, hg, hgi, h1, h2⟩

/-- C10 (amended) at three shards with the hashes 1, 2, 3 and the weights 1, 2, 1,
`tableSize = 4`: the table is `[0, 1, 1, 1]`. -/
theorem slots_carry_claiming_index_witness :
    ∃ r, buildRun goSort 100 [⟨1, F64.lit 1 1⟩, ⟨2, F64.lit 2 1⟩, ⟨3, F64.lit 1 1⟩] 4 = .ok r ∧
      r.table = [0, 1, 1, 1] ∧
      [0, 1, 1, 1].length = (4 : Int).toNat ∧
      (r.writes.map Prod.fst).Perm (List.range (4 : Int).toNat) ∧
      (∀ p ∈ r.writes, [0, 1, 1, 1].getD p.1 0 = (p.2 - 1).toNat ∧
        ∃ g ∈ r.quotas, g.ix = p.2 ∧
          [(⟨1, F64.lit 1 1⟩ : Shard), ⟨2, F64.lit 2 1⟩, ⟨3, F64.lit 1 1⟩][(p.2 - 1).toNat]? =
            some g.sh) ∧
      (∀ i, i < [(⟨1, F64.lit 1 1⟩ : Shard), ⟨2, F64.lit 2 1⟩, ⟨3, F64.lit 1 1⟩].length →
        ∃ g ∈ r.quotas, g.ix = (i : Int) + 1 ∧
          [(⟨1, F64.lit 1 1⟩ : Shard), ⟨2, F64.lit 2 1⟩, ⟨3, F64.lit 1 1⟩][i]? = some g.sh ∧
          ((([0, 1, 1, 1] : Table).count i : Nat) : Int) = g.cnt) :=
  slots_carry_claiming_index goSort goSort_sorts 100
    [⟨1, F64.lit 1 1⟩, ⟨2, F64.lit 2 1⟩, ⟨3, F64.lit 1 1⟩] (by decide) 4 (by decide) (by decide)
    [0, 1, 1, 1] (by decide!)
/-- C7. Three shards whose weights are 1, 1, 2 (or 100, 100, 200) in any input order, with
any hashes and any sorter that sorts by hash, `tableSize = 1024`: with enough fuel
`BuildTable` returns a table, and its per-shard slot counts in ascending order are
`c0, c1, c2` with `255 ≤ c0 ≤ 256`, `255 ≤ c1 ≤ 257`, `512 ≤ c2 ≤ 513`. -/
theorem counts_weights_1_1_2 (sortSlice : List shardGen → List shardGen)
    (hs : SortsByHash sortSlice) (shards : List Shard)
    (hW : (shards.map Shard.Weight).Perm [F64.lit 1 1, F64.lit 1 1, F64.lit 2 1] ∨
      (shards.map Shard.Weight).Perm [F64.lit 100 1, F64.lit 100 1, F64.lit 200 1])
    (fuel : Nat) (hf : 3073 ≤ fuel) :
    ∃ t, BuildTable sortSlice fuel shards 1024 = .table t ∧
      ∃ c0 c1 c2, sortedCounts t 3 = [c0, c1, c2] ∧ 255 ≤ c0 ∧ c0 ≤ 256 ∧ 255 ≤ c1 ∧
        c1 ≤ 257 ∧ 512 ≤ c2 ∧ c2 ≤ 513 := by
  obtain ⟨e1, e2, e100, e200, _⟩ := lit_values
  have hgood : ∀ L ∈ [[255, 256, 513], [256, 256, 512]], ∃ c0 c1 c2, L = [c0, c1, c2] ∧
      255 ≤ c0 ∧ c0 ≤ 256 ∧ 255 ≤ c1 ∧ c1 ≤ 257 ∧ 512 ≤ c2 ∧ c2 ≤ 513 := by
    intro L hL
    simp only [List.mem_cons, List.mem_singleton, List.not_mem_nil, or_false] at hL
    rcases hL with rfl | rfl
    · exact ⟨255, 256, 513, rfl, by decide⟩
    · exact ⟨256, 256, 512, rfl, by decide⟩
  rcases hW with hW | hW
  · rw [e1, e2] at hW
    exact three_weights _ sortSlice hs shards _ _ _ _ hW _ _ (by decide) (by decide!) avg_w112
      1100 quotas_w112 hgood fuel (by omega) hf
  · rw [e100, e200] at hW
    exact three_weights _ sortSlice hs shards _ _ _ _ hW _ _ (by decide) (by decide!) avg_w100
      1100 quotas_w100 hgood fuel (by omega) hf

/-- C7 at the shards of `TestWeightDistribution_1` with the hashes 1, 2, 3. -/
theorem counts_weights_1_1_2_witness :
    ∃ t, BuildTable goSort 3073 [⟨1, F64.lit 1 1⟩, ⟨2, F64.lit 1 1⟩, ⟨3, F64.lit 2 1⟩] 1024 =
        .table t ∧
      ∃ c0 c1 c2, sortedCounts t 3 = [c0, c1, c2] ∧ 255 ≤ c0 ∧ c0 ≤ 256 ∧ 255 ≤ c1 ∧
        c1 ≤ 257 ∧ 512 ≤ c2 ∧ c2 ≤ 513 :=
  counts_weights_1_1_2 goSort goSort_sorts
    [⟨1, F64.lit 1 1⟩, ⟨2, F64.lit 1 1⟩, ⟨3, F64.lit 2 1⟩] (Or.inl (List.Perm.refl _)) 3073
    (le_refl _)
/-- C8. Three shards whose weights are 0.5, 1, 2.1 (or 50, 100, 210) in any input order,
with any hashes and any sorter that sorts by hash, `tableSize = 1024`: with enough fuel
`BuildTable` returns a table, and its per-shard slot counts in ascending order are
`c0, c1, c2` with `141 ≤ c0 ≤ 142`, `283 ≤ c1 ≤ 285`, `597 ≤ c2 ≤ 599`. -/
theorem counts_weights_05_1_21 (sortSlice : List shardGen → List shardGen)
    (hs : SortsByHash sortSlice) (shards : List Shard)
    (hW : (shards.map Shard.Weight).Perm [F64.lit 1 2, F64.lit 1 1, F64.lit 21 10] ∨
      (shards.map Shard.Weight).Perm [F64.lit 50 1, F64.lit 100 1, F64.lit 210 1])
    (fuel : Nat) (hf : 3073 ≤ fuel) :
    ∃ t, BuildTable sortSlice fuel shards 1024 = .table t ∧
      ∃ c0 c1 c2, sortedCounts t 3 = [c0, c1, c2] ∧ 141 ≤ c0 ∧ c0 ≤ 142 ∧ 283 ≤ c1 ∧
        c1 ≤ 285 ∧ 597 ≤ c2 ∧ c2 ≤ 599 := by
  obtain ⟨e1, _, e100, _, e05, e21, e50, e210⟩ := lit_values
  have hgood : ∀ L ∈ [[142, 284, 598], [142, 285, 597]], ∃ c0 c1 c2, L = [c0, c1, c2] ∧
      141 ≤ c0 ∧ c0 ≤ 142 ∧ 283 ≤ c1 ∧ c1 ≤ 285 ∧ 597 ≤ c2 ∧ c2 ≤ 599 := by
    intro L hL
    simp only [List.mem_cons, List.mem_singleton, List.not_mem_nil, or_false] at hL
    rcases hL with rfl | rfl
    · exact ⟨142, 284, 598, rfl, by decide⟩
    · exact ⟨142, 285, 597, rfl, by decide⟩
  rcases hW with hW | hW
  · rw [e05, e1, e21] at hW
    exact three_weights _ sortSlice hs shards _ _ _ _ hW _ _ (by decide) (by decide!) avg_w05
      1100 quotas_w05 hgood fuel (by omega) hf
  · rw [e50, e100, e210] at hW
    exact three_weights _ sortSlice hs shards _ _ _ _ hW _ _ (by decide) (by decide!) avg_w50
      1100 quotas_w50 hgood fuel (by omega) hf

/-- C8 at the shards of `TestWeightDistribution_2` with the hashes 1, 2, 3. -/
theorem counts_weights_05_1_21_witness :
    ∃ t, BuildTable goSort 3073 [⟨1, F64.lit 1 2⟩, ⟨2, F64.lit 1 1⟩, ⟨3, F64.lit 21 10⟩]
        1024 = .table t ∧
      ∃ c0 c1 c2, sortedCounts t 3 = [c0, c1, c2] ∧ 141 ≤ c0 ∧ c0 ≤ 142 ∧ 283 ≤ c1 ∧
        c1 ≤ 285 ∧ 597 ≤ c2 ∧ c2 ≤ 599 :=
  counts_weights_05_1_21 goSort goSort_sorts
    [⟨1, F64.lit 1 2⟩, ⟨2, F64.lit 1 1⟩, ⟨3, F64.lit 21 10⟩] (Or.inl (List.Perm.refl _)) 3073
    (le_refl _)
/-- Extra X1. Three shards that all have the weight 1 (or all 100), with any hashes and any
sorter that sorts by hash, `tableSize = 1024`: with enough fuel `BuildTable` returns a table
whose per-shard slot counts in ascending order are 341, 341, 342. -/
theorem counts_equal_weights_three (sortSlice : List shardGen → List shardGen)
    (hs : SortsByHash sortSlice) (shards : List Shard)
    (hW : shards.map Shard.Weight = [F64.lit 1 1, F64.lit 1 1, F64.lit 1 1] ∨
      shards.map Shard.Weight = [F64.lit 100 1, F64.lit 100 1, F64.lit 100 1])
    (fuel : Nat) (hf : 3073 ≤ fuel) :
    ∃ t, BuildTable sortSlice fuel shards 1024 = .table t ∧
      sortedCounts t 3 = [341, 341, 342] := by
  obtain ⟨e1, _, e100, _⟩ := lit_values
  have hgood : ∀ L ∈ [[341, 341, 342]], L = [341, 341, 342] := by
    intro L hL
    simpa using hL
  rcases hW with hW | hW
  · rw [e1] at hW
    exact three_weights _ sortSlice hs shards _ _ _ _ (by rw [hW]) _ _ (by decide) (by decide!)
      avg_w111 1100 quotas_w111 hgood fuel (by omega) hf
  · rw [e100] at hW
    exact three_weights _ sortSlice hs shards _ _ _ _ (by rw [hW]) _ _ (by decide) (by decide!)
      avg_w100s 1100 quotas_w100s hgood fuel (by omega) hf

/-- Extra X1 at the shards of `TestOddDistribution` with the hashes 1, 2, 3. -/
theorem counts_equal_weights_three_witness :
    ∃ t, BuildTable goSort 3073 [⟨1, F64.lit 1 1⟩, ⟨2, F64.lit 1 1⟩, ⟨3, F64.lit 1 1⟩] 1024 =
        .table t ∧ sortedCounts t 3 = [341, 341, 342] :=
  counts_equal_weights_three goSort goSort_sorts
    [⟨1, F64.lit 1 1⟩, ⟨2, F64.lit 1 1⟩, ⟨3, F64.lit 1 1⟩] (Or.inl rfl) 3073 (le_refl _)

/-- C11. The shards of `TestMovements` (hashes `h("shard1")`, `h("shard2")`, `h("shard3")`),
`tableSize = 1024`, any sorter that sorts by hash: with enough fuel `BuildTable` returns
the tables `t1`, `t2`, `t3`, `t4` for the weights (100,100,100), (100,100,110),
(100,110,100) and (100,110,110), and `countDiff` finds 23, 23, 26 and 28 differing slots
for the pairs (t1,t2), (t1,t3), (t2,t4), (t3,t4): each between 22 and 30. -/
theorem movements_bounded (sortSlice : List shardGen → List shardGen)
    (hs : SortsByHash sortSlice) (fuel : Nat) (hf : 3100 ≤ fuel) :
    ∃ t1 t2 t3 t4 d12 d13 d24 d34,
      BuildTable sortSlice fuel (testShards (F64.lit 100 1) (F64.lit 100 1) (F64.lit 100 1))
        1024 = .table t1 ∧
      BuildTable sortSlice fuel (testShards (F64.lit 100 1) (F64.lit 100 1) (F64.lit 110 1))
        1024 = .table t2 ∧
      BuildTable sortSlice fuel (testShards (F64.lit 100 1) (F64.lit 110 1) (F64.lit 100 1))
        1024 = .table t3 ∧
      BuildTable sortSlice fuel (testShards (F64.lit 100 1) (F64.lit 110 1) (F64.lit 110 1))
        1024 = .table t4 ∧
      countDiff t1 t2 = some d12 ∧ countDiff t1 t3 = some d13 ∧
      countDiff t2 t4 = some d24 ∧ countDiff t3 t4 = some d34 ∧
      [d12, d13, d24, d34] = [23, 23, 26, 28] ∧
      ∀ n ∈ [d12, d13, d24, d34], 22 ≤ n ∧ n ≤ 30 := by
  obtain ⟨d1, d2, d3, d4, h1, h2, h3, h4, hr⟩ := movements_some _ _ _ _ _ _ _ _ _ movements_eval
  simp only [Prod.mk.injEq] at hr
  obtain ⟨r12, r13, r24, r34⟩ := hr
  have hwz := testShards_weights
  refine ⟨_, _, _, _, 23, 23, 26, 28,
    testTable sortSlice hs _ _ _ (hwz _ (by simp)).1 (hwz _ (by simp)).2 d1 h1 fuel hf,
    testTable sortSlice hs _ _ _ (hwz _ (by simp)).1 (hwz _ (by simp)).2 d2 h2 fuel hf,
    testTable sortSlice hs _ _ _ (hwz _ (by simp)).1 (hwz _ (by simp)).2 d3 h3 fuel hf,
    testTable sortSlice hs _ _ _ (hwz _ (by simp)).1 (hwz _ (by simp)).2 d4 h4 fuel hf,
    r12.symm, r13.symm, r24.symm, r34.symm, rfl, by decide⟩

/-- C11 with insertion sort as the sorter and fuel 3100. -/
theorem movements_bounded_witness :
    ∃ t1 t2 t3 t4 d12 d13 d24 d34,
      BuildTable goSort 3100 (testShards (F64.lit 100 1) (F64.lit 100 1) (F64.lit 100 1))
        1024 = .table t1 ∧
      BuildTable goSort 3100 (testShards (F64.lit 100 1) (F64.lit 100 1) (F64.lit 110 1))
        1024 = .table t2 ∧
      BuildTable goSort 3100 (testShards (F64.lit 100 1) (F64.lit 110 1) (F64.lit 100 1))
        1024 = .table t3 ∧
      BuildTable goSort 3100 (testShards (F64.lit 100 1) (F64.lit 110 1) (F64.lit 110 1))
        1024 = .table t4 ∧
      countDiff t1 t2 = some d12 ∧ countDiff t1 t3 = some d13 ∧
      countDiff t2 t4 = some d24 ∧ countDiff t3 t4 = some d34 ∧
      [d12, d13, d24, d34] = [23, 23, 26, 28] ∧
      ∀ n ∈ [d12, d13, d24, d34], 22 ≤ n ∧ n ≤ 30 :=
  movements_bounded goSort goSort_sorts 3100 (le_refl _)

/-- C13, refuted by the code. The weights 5e-324 and 0 are not negative and their sum is
not zero, but the average of line 84 rounds to zero; on amd64, where `int(+Inf)` is
`-2^63`, the quota loop at `tableSize = 4` then exits after one iteration with the quota
`-2^63` for the first generator and `rest = -2^63 + 4`. And on every implementation: when
the loop of the model exits (every conversion it met has the value the Go specification
fixes), the loop exits in the same state, with `rest = 0`, quotas that are not negative
and that add up to `tableSize`. -/
theorem quotas_negative_on_zero_average :
    ((∀ s ∈ tinyShards, F64.lt s.Weight F64.zero = false) ∧
      F64.isZero (sumWeights F64.zero tinyShards) = false ∧
      F64.isZero (F64.div (sumWeights F64.zero tinyShards) (F64.ofInt tinyShards.length)) =
        true ∧
      ∀ fuel, 2 ≤ fuel → ∃ quotas,
        quotaLoopWith amd64 (F64.div (sumWeights F64.zero tinyShards)
            (F64.ofInt tinyShards.length)) fuel 0 4
            (goSort (mkGens (highbitsOf 4) 0 tinyShards)) =
          .ok (-9223372036854775804, quotas) ∧
        (quotas.map fun g => g.cnt) = [-9223372036854775808, 0]) ∧
    ∀ (impl : F64 → Int) (sortSlice : List shardGen → List shardGen),
      SortsByHash sortSlice → ∀ (highbits : Nat) (shards : List Shard),
      (∀ s ∈ shards, F64.lt s.Weight F64.zero = false) →
      F64.isZero (sumWeights F64.zero shards) = false → ∀ tableSize : Int, 1 ≤ tableSize →
      tableSize < 9223372036854775808 → ∀ (fuel : Nat) (rest : Int) (quotas : List shardGen),
      quotaLoop (F64.div (sumWeights F64.zero shards) (F64.ofInt shards.length)) fuel 0
        tableSize (sortSlice (mkGens highbits 0 shards)) = .ok (rest, quotas) →
      quotaLoopWith impl (F64.div (sumWeights F64.zero shards) (F64.ofInt shards.length)) fuel
          0 tableSize (sortSlice (mkGens highbits 0 shards)) = .ok (rest, quotas) ∧
        rest = 0 ∧ (∀ g ∈ quotas, 0 ≤ g.cnt) ∧ (quotas.map fun g => g.cnt).sum = tableSize := by
  constructor
  · refine ⟨by decide!, tiny_facts.1.2.1, tiny_facts.1.2.2, ?_⟩
    intro fuel hf
    obtain ⟨q, h1, h2, _, _⟩ := tiny_quota fuel hf
    exact ⟨q, h1, h2⟩
  · intro impl sortSlice hs highbits shards hw hz tableSize ht hhi fuel rest quotas h
    have havg : (F64.div (sumWeights F64.zero shards) (F64.ofInt shards.length)).NotNeg := by
      apply avg_notNeg _ _ _ hz (by omega)
      exact sumWeights_notNeg _ _ (by simp [F64.NotNeg, F64.zero]) hw
    have hcnt0 : ∀ g ∈ sortSlice (mkGens highbits 0 shards), g.cnt = 0 := by
      intro g hg
      obtain ⟨j, s, _, rfl⟩ := mem_mkGens _ _ _ g ((hs _).1.subset hg)
      rfl
    have hsum0 : ((sortSlice (mkGens highbits 0 shards)).map fun g => g.cnt).sum = 0 := by
      apply List.sum_eq_zero
      intro x hx
      rw [List.mem_map] at hx
      obtain ⟨g, hg, rfl⟩ := hx
      exact hcnt0 g hg
    refine ⟨quotaLoop_with impl _ havg _ _ _ _ _ (by omega)
      (fun g hg => by rw [hcnt0 g hg]) (by rw [hsum0]; omega) h, ?_⟩
    exact (quotaLoop_sums sortSlice hs highbits shards hw hz tableSize ht).1 fuel rest quotas h

/-- C13 at the shards with hashes 1, 2, 3 and weights 1, 2, 1, `tableSize = 4`, on amd64:
the loop exits and the quotas add up to 4. -/
theorem quotas_negative_on_zero_average_witness :
    ∃ quotas, quotaLoopWith amd64 (F64.div (sumWeights F64.zero
          [⟨1, F64.lit 1 1⟩, ⟨2, F64.lit 2 1⟩, ⟨3, F64.lit 1 1⟩])
          (F64.ofInt ([⟨1, F64.lit 1 1⟩, ⟨2, F64.lit 2 1⟩, ⟨3, F64.lit 1 1⟩] :
            List Shard).length)) 100 0 4
        (goSort (mkGens (highbitsOf 4) 0
          [⟨1, F64.lit 1 1⟩, ⟨2, F64.lit 2 1⟩, ⟨3, F64.lit 1 1⟩])) = .ok (0, quotas) ∧
      (∀ g ∈ quotas, 0 ≤ g.cnt) ∧ (quotas.map fun g => g.cnt).sum = 4 := by
  have hex : (match quotaLoop (F64.div (sumWeights F64.zero
          [⟨1, F64.lit 1 1⟩, ⟨2, F64.lit 2 1⟩, ⟨3, F64.lit 1 1⟩])
          (F64.ofInt ([⟨1, F64.lit 1 1⟩, ⟨2, F64.lit 2 1⟩, ⟨3, F64.lit 1 1⟩] :
            List Shard).length)) 100 0 4
        (goSort (mkGens (highbitsOf 4) 0
          [⟨1, F64.lit 1 1⟩, ⟨2, F64.lit 2 1⟩, ⟨3, F64.lit 1 1⟩])) with
      | .ok _ => true
      | .error _ => false) = true := by decide!
  cases h : quotaLoop (F64.div (sumWeights F64.zero
          [⟨1, F64.lit 1 1⟩, ⟨2, F64.lit 2 1⟩, ⟨3, F64.lit 1 1⟩])
          (F64.ofInt ([⟨1, F64.lit 1 1⟩, ⟨2, F64.lit 2 1⟩, ⟨3, F64.lit 1 1⟩] :
            List Shard).length)) 100 0 4
        (goSort (mkGens (highbitsOf 4) 0
          [⟨1, F64.lit 1 1⟩, ⟨2, F64.lit 2 1⟩, ⟨3, F64.lit 1 1⟩])) with
  | error e => rw [h] at hex; simp at hex
  | ok p =>
    obtain ⟨rest, quotas⟩ := p
    obtain ⟨h0, h1, h2, h3⟩ := quotas_negative_on_zero_average.2 amd64 goSort goSort_sorts
      (highbitsOf 4) [⟨1, F64.lit 1 1⟩, ⟨2, F64.lit 2 1⟩, ⟨3, F64.lit 1 1⟩] (by decide!)
      (by decide!) 4 (by decide) (by decide) 100 rest quotas h
    subst h1
    exact ⟨quotas, h0, h2, h3⟩
/-- C14 (counterexample). Hashes 1, 2 with weights 3, 1 and `tableSize = 2`
(`averageWeight = 2`): the second grant to the first shard is capped by `rest`, and its
accumulator is 2, not below the average, when the loop exits; with exact arithmetic the
run is the same. And with three shards of weight 0.1 `averageWeight` is
0.10000000000000002, so no accumulator reaches it in the first round-robin pass. -/
theorem accumulator_reaches_average :
    (∃ quotas, quotaLoop (F64.div (sumWeights F64.zero [⟨1, F64.lit 3 1⟩, ⟨2, F64.lit 1 1⟩])
          (F64.ofInt 2)) 100 0 2
          (goSort (mkGens (highbitsOf 2) 0 [⟨1, F64.lit 3 1⟩, ⟨2, F64.lit 1 1⟩])) =
        .ok (0, quotas) ∧
      ∃ g ∈ quotas, g.w = F64.lit 2 1 ∧
        F64.div (sumWeights F64.zero [⟨1, F64.lit 3 1⟩, ⟨2, F64.lit 1 1⟩]) (F64.ofInt 2) =
          F64.lit 2 1) ∧
    ((quotaRunQ [3, 1] 2 3).rest = 0 ∧ averageQ [3, 1] = 2 ∧
      ∃ g ∈ (quotaRunQ [3, 1] 2 3).gens, g.w = 2) ∧
    ∀ s ∈ [(⟨1, F64.lit 1 10⟩ : Shard), ⟨2, F64.lit 1 10⟩, ⟨3, F64.lit 1 10⟩],
      F64.ge (F64.add F64.zero s.Weight)
        (F64.div (sumWeights F64.zero [⟨1, F64.lit 1 10⟩, ⟨2, F64.lit 1 10⟩,
          ⟨3, F64.lit 1 10⟩]) (F64.ofInt 3)) = false := by
  refine ⟨?_, ?_, by decide!⟩
  · have hex : (match quotaLoop (F64.div (sumWeights F64.zero
          [⟨1, F64.lit 3 1⟩, ⟨2, F64.lit 1 1⟩]) (F64.ofInt 2)) 100 0 2
          (goSort (mkGens (highbitsOf 2) 0 [⟨1, F64.lit 3 1⟩, ⟨2, F64.lit 1 1⟩])) with
        | .ok (r, q) => decide (r = 0) && q.any (fun g => decide (g.w = F64.lit 2 1))
        | .error _ => false) = true := by decide!
    have havg : F64.div (sumWeights F64.zero [⟨1, F64.lit 3 1⟩, ⟨2, F64.lit 1 1⟩])
        (F64.ofInt 2) = F64.lit 2 1 := by decide!
    cases h : quotaLoop (F64.div (sumWeights F64.zero
          [⟨1, F64.lit 3 1⟩, ⟨2, F64.lit 1 1⟩]) (F64.ofInt 2)) 100 0 2
          (goSort (mkGens (highbitsOf 2) 0 [⟨1, F64.lit 3 1⟩, ⟨2, F64.lit 1 1⟩])) with
    | error e => rw [h] at hex; simp at hex
    | ok p =>
      obtain ⟨r, q⟩ := p
      rw [h] at hex
      simp only [Bool.and_eq_true, decide_eq_true_eq, List.any_eq_true] at hex
      obtain ⟨hr, g, hg, hgw⟩ := hex
      subst hr
      exact ⟨q, rfl, g, hg, hgw, havg⟩
  · have h3 : quotaRunQ [3, 1] 2 3 = ⟨3, 0, [⟨2, 2, 3⟩, ⟨1, 0, 1⟩]⟩ := by
      simp only [quotaRunQ, quotaInitQ, averageQ, Function.iterate_succ, Function.iterate_zero,
        Function.comp, id]
      norm_num [quotaStepQ, truncQ]
    rw [h3]
    refine ⟨rfl, by norm_num [averageQ], ⟨2, 2, 3⟩, by simp, rfl⟩

/-- C14 (amended). With exact arithmetic, for weights that are not negative and not all
zero and `tableSize` at least 1: after every number of iterations every accumulator is
at least 0, and below the average as long as the loop has not been left (only the last
grant, capped by `rest`, can leave an accumulator at or above it); any `n` consecutive
iterations that start inside the loop grant at least one slot; and after `n * tableSize`
iterations the loop has been left, with quotas that add up to `tableSize`. -/
theorem exact_quota_loop_terminates (ws : List ℚ) (hw : ∀ w ∈ ws, 0 ≤ w) (hs : 0 < ws.sum)
    (T : Int) (hT : 1 ≤ T) :
    (∀ k, ∀ g ∈ (quotaRunQ ws T k).gens,
      0 ≤ g.w ∧ (0 < (quotaRunQ ws T k).rest → g.w < averageQ ws)) ∧
    (∀ k, 0 < (quotaRunQ ws T k).rest →
      (quotaRunQ ws T (k + ws.length)).rest < (quotaRunQ ws T k).rest) ∧
    (quotaRunQ ws T (ws.length * T.toNat)).rest = 0 ∧
    ((quotaRunQ ws T (ws.length * T.toNat)).gens.map fun g => g.cnt).sum = T := by
  have hinv := quotaRunQ_inv ws hw hs T (by omega)
  have hpos := averageQ_pos ws hs
  have hn := averageQ_pos_length ws hpos
  have hmul := averageQ_mul ws hpos
  have hsumlt : ∀ k, 0 < (quotaRunQ ws T k).rest →
      ((quotaRunQ ws T k).gens.map fun g => g.w).sum < (ws.length : ℚ) * averageQ ws := by
    intro k hk
    have hlen : (quotaRunQ ws T k).gens.length = ws.length := by
      have := congrArg List.length (hinv k).weights
      simpa using this
    have := sum_lt_length_mul (averageQ ws) ((quotaRunQ ws T k).gens.map fun g => g.w)
      (by
        intro h
        have := congrArg List.length h
        simp only [List.length_map, List.length_nil] at this
        omega)
      (by
        intro x hx
        rw [List.mem_map] at hx
        obtain ⟨g, hg, rfl⟩ := hx
        exact (hinv k).w_lt hk g hg)
    rw [List.length_map, hlen] at this
    exact this
  have hend : (quotaRunQ ws T (ws.length * T.toNat)).rest = 0 := by
    by_contra hne
    have h0 := (hinv (ws.length * T.toNat)).rest_nonneg
    have hk : 0 < (quotaRunQ ws T (ws.length * T.toNat)).rest := by omega
    have hlt := hsumlt _ hk
    rw [(hinv _).total, (hinv _).iter hk, addedQ_mul_length ws hn, ← hmul] at hlt
    have hTn : ((T.toNat : Nat) : ℚ) = (T : ℚ) := by
      have : ((T.toNat : Nat) : Int) = T := Int.toNat_of_nonneg (by omega)
      exact_mod_cast this
    rw [hTn] at hlt
    push_cast at hlt
    generalize (quotaRunQ ws T (ws.length * T.toNat)).rest = r at hk hlt
    have hr1 : (1 : ℚ) ≤ (r : ℚ) := by exact_mod_cast hk
    have hT1 : (1 : ℚ) ≤ (T : ℚ) := by exact_mod_cast hT
    have hn1 : (1 : ℚ) ≤ (ws.length : ℚ) := by exact_mod_cast hn
    have hkey : (T : ℚ) * (ws.length : ℚ) - ((T : ℚ) - (r : ℚ)) < (ws.length : ℚ) := by
      by_contra hcon
      push_neg at hcon
      nlinarith
    nlinarith
  refine ⟨?_, ?_, hend, ?_⟩
  · intro k g hg
    exact ⟨(hinv k).w_nonneg g hg, fun h => (hinv k).w_lt h g hg⟩
  · intro k hk
    by_contra hcon
    push_neg at hcon
    have hk2 : 0 < (quotaRunQ ws T (k + ws.length)).rest := by omega
    have hlt := hsumlt _ hk2
    have h0 : 0 ≤ ((quotaRunQ ws T k).gens.map fun g => g.w).sum := by
      apply sum_nonneg_of_mem
      intro x hx
      rw [List.mem_map] at hx
      obtain ⟨g, hg, rfl⟩ := hx
      exact (hinv k).w_nonneg g hg
    rw [(hinv _).total, (hinv _).iter hk2, addedQ_add_length ws hn, ← hmul] at hlt
    rw [(hinv _).total, (hinv _).iter hk] at h0
    push_cast at hlt h0
    generalize (quotaRunQ ws T (k + ws.length)).rest = r2 at hcon hlt
    generalize (quotaRunQ ws T k).rest = r1 at hcon h0
    have hc : (r1 : ℚ) ≤ (r2 : ℚ) := by exact_mod_cast hcon
    nlinarith
  · rw [(hinv _).cnt_sum, hend]
    ring

/-- C14 (amended) at the weights 3, 1 and `tableSize = 2`. -/
theorem exact_quota_loop_terminates_witness :
    (∀ k, ∀ g ∈ (quotaRunQ [3, 1] 2 k).gens,
      0 ≤ g.w ∧ (0 < (quotaRunQ [3, 1] 2 k).rest → g.w < averageQ [3, 1])) ∧
    (∀ k, 0 < (quotaRunQ [3, 1] 2 k).rest →
      (quotaRunQ [3, 1] 2 (k + ([3, 1] : List ℚ).length)).rest < (quotaRunQ [3, 1] 2 k).rest) ∧
    (quotaRunQ [3, 1] 2 (([3, 1] : List ℚ).length * (2 : Int).toNat)).rest = 0 ∧
    ((quotaRunQ [3, 1] 2 (([3, 1] : List ℚ).length * (2 : Int).toNat)).gens.map
      fun g => g.cnt).sum = 2 :=
  exact_quota_loop_terminates [3, 1] (by simp) (by norm_num) 2 (by decide)
/-- C15. For `tableSize = 2^k` (an `int`, so `k ≤ 62`), every `start` and every `v1`, `v2`,
with `add = v1 | 1` and `mult = (v2 &^ 3) | 5` as lines 75-76 derive them: over any `2^k`
consecutive indices `n0, ..., n0 + 2^k - 1` the probed slots
`cur_n = (start + pos_n) & (tableSize - 1)`, `pos_0 = 0`, `pos_{n+1} = pos_n*mult + add`
with wrap-around, are the slots `0, ..., 2^k - 1`, each exactly once. -/
theorem probe_sequence_full_period (k : Nat) (hk : k ≤ 62) (start v1 v2 : Int) (n0 : Nat) :
    ((List.range (2 ^ k)).map fun n =>
        slotAt ((2 : Int) ^ k - 1) start (or64 (andNot64 v2 3) 5) (or64 v1 1) (n0 + n)).Perm
      (List.range (2 ^ k)) :=
  slotAt_window_perm k hk start _ _ (mult_mod_four v2) (or64_one_odd v1) n0

/-- C15 at `tableSize = 8`, `start = 5`, `v1 = 6`, `v2 = 3`, from index 4 on. -/
theorem probe_sequence_full_period_witness :
    ((List.range (2 ^ 3)).map fun n =>
        slotAt ((2 : Int) ^ 3 - 1) 5 (or64 (andNot64 3 3) 5) (or64 6 1) (4 + n)).Perm
      (List.range (2 ^ 3)) :=
  probe_sequence_full_period 3 (by decide) 5 6 3 4

/-- C16, refuted by the code. For the weights 5e-324 and 0 at `tableSize = 4` on amd64
`BuildTable` never returns: the quota loop leaves `rest = -2^63 + 4`, the placement loop
runs while `rest < tableSize`, and once the four slots are taken the inner search of
lines 120-128 finds no empty slot; whatever the fuel, the run is out of fuel. And on
every implementation, for at most 65535 shards and `tableSize = 2^b`, `b ≤ 62`: when the
quota loop of the model exits, the placement loop returns within `tableSize` probes for
each claim and `tableSize * len(shards) + 1` iterations, with every slot claimed exactly
once. -/
theorem placement_never_ends_on_zero_average :
    (∀ fuel, BuildTableWith amd64 goSort fuel tinyShards 4 = .timeout) ∧
    ∀ (impl : F64 → Int) (sortSlice : List shardGen → List shardGen),
      SortsByHash sortSlice → ∀ shards : List Shard, shards.length ≤ 65535 → ∀ b : Nat,
      b ≤ 62 → (∀ s ∈ shards, F64.lt s.Weight F64.zero = false) →
      F64.isZero (sumWeights F64.zero shards) = false →
      ∀ (fuelq : Nat) (rest : Int) (quotas : List shardGen),
      quotaLoop (F64.div (sumWeights F64.zero shards) (F64.ofInt shards.length)) fuelq 0
        (2 ^ b) (sortSlice (mkGens (highbitsOf (2 ^ b)) 0 shards)) = .ok (rest, quotas) →
      ∀ pfuel fuel : Nat, 2 ^ b ≤ pfuel → 2 ^ b * shards.length + 1 ≤ fuel →
      quotaLoopWith impl (F64.div (sumWeights F64.zero shards) (F64.ofInt shards.length))
          fuelq 0 (2 ^ b) (sortSlice (mkGens (highbitsOf (2 ^ b)) 0 shards)) =
          .ok (rest, quotas) ∧
        ∃ t ws, placeLoopWrap ((2 : Int) ^ b - 1) (2 ^ b) pfuel fuel 0 rest quotas
            (List.replicate ((2 : Int) ^ b).toNat 0) [] = .ok (t, ws) ∧
          t.length = 2 ^ b ∧ (ws.map Prod.fst).Perm (List.range (2 ^ b)) ∧
          ∀ s, s < 2 ^ b → t.getD s 0 ≠ 0 := by
  refine ⟨tiny_hangs, ?_⟩
  intro impl sortSlice hs shards hn b hb hw hz fuelq rest quotas hq pfuel fuel hp hf
  have hp2 := two_pow_le_of_le hb
  have hc := pow_cast b
  have hpos : (0 : Int) < 2 ^ b := by positivity
  have havg : (F64.div (sumWeights F64.zero shards) (F64.ofInt shards.length)).NotNeg := by
    apply avg_notNeg _ _ _ hz (by omega)
    exact sumWeights_notNeg _ _ (by simp [F64.NotNeg, F64.zero]) hw
  have hcnt0 : ∀ g ∈ sortSlice (mkGens (highbitsOf (2 ^ b)) 0 shards), g.cnt = 0 := by
    intro g hg
    obtain ⟨j, s, _, rfl⟩ := mem_mkGens _ _ _ g ((hs _).1.subset hg)
    rfl
  have hsum0 : ((sortSlice (mkGens (highbitsOf (2 ^ b)) 0 shards)).map fun g => g.cnt).sum =
      0 := by
    apply List.sum_eq_zero
    intro x hx
    rw [List.mem_map] at hx
    obtain ⟨g, hg, rfl⟩ := hx
    exact hcnt0 g hg
  obtain ⟨_, hq3, hq4⟩ := (quotaLoop_sums sortSlice hs (highbitsOf (2 ^ b)) shards hw hz
    (2 ^ b) (by omega)).1 fuelq rest quotas hq
  obtain ⟨t, ws, hpl, h1, h2, h3⟩ := placeLoop_returns sortSlice hs shards hn b hb hw hz fuelq
    rest quotas hq pfuel fuel hp hf
  refine ⟨quotaLoop_with impl _ havg _ _ _ _ _ (by omega)
    (fun g hg => by rw [hcnt0 g hg]) (by rw [hsum0]; omega) hq, t, ws, ?_, h1, h2, h3⟩
  apply placeLoop_wrap _ _ _ _ _ _ _ _ _ _ _ hpl
  intro g hg
  have hle := cnt_le_sum quotas hq3 g hg
  rw [hq4] at hle
  exact ⟨hq3 g hg, by omega⟩

/-- C16 at the shards with hashes 1, 2, 3 and weights 1, 2, 1, `tableSize = 4`, on
amd64. -/
theorem placement_never_ends_on_zero_average_witness :
    ∃ rest quotas, quotaLoopWith amd64 (F64.div (sumWeights F64.zero
          [⟨1, F64.lit 1 1⟩, ⟨2, F64.lit 2 1⟩, ⟨3, F64.lit 1 1⟩])
          (F64.ofInt ([⟨1, F64.lit 1 1⟩, ⟨2, F64.lit 2 1⟩, ⟨3, F64.lit 1 1⟩] :
            List Shard).length)) 100 0 (2 ^ 2)
        (goSort (mkGens (highbitsOf (2 ^ 2)) 0
          [⟨1, F64.lit 1 1⟩, ⟨2, F64.lit 2 1⟩, ⟨3, F64.lit 1 1⟩])) = .ok (rest, quotas) ∧
      ∃ t ws, placeLoopWrap ((2 : Int) ^ 2 - 1) (2 ^ 2) 4 13 0 rest quotas
          (List.replicate ((2 : Int) ^ 2).toNat 0) [] = .ok (t, ws) ∧
        t.length = 2 ^ 2 ∧ (ws.map Prod.fst).Perm (List.range (2 ^ 2)) ∧
        ∀ s, s < 2 ^ 2 → t.getD s 0 ≠ 0 := by
  have hex : (match quotaLoop (F64.div (sumWeights F64.zero
          [⟨1, F64.lit 1 1⟩, ⟨2, F64.lit 2 1⟩, ⟨3, F64.lit 1 1⟩])
          (F64.ofInt ([⟨1, F64.lit 1 1⟩, ⟨2, F64.lit 2 1⟩, ⟨3, F64.lit 1 1⟩] :
            List Shard).length)) 100 0 (2 ^ 2)
        (goSort (mkGens (highbitsOf (2 ^ 2)) 0
          [⟨1, F64.lit 1 1⟩, ⟨2, F64.lit 2 1⟩, ⟨3, F64.lit 1 1⟩])) with
      | .ok _ => true
      | .error _ => false) = true := by decide!
  cases h : quotaLoop (F64.div (sumWeights F64.zero
          [⟨1, F64.lit 1 1⟩, ⟨2, F64.lit 2 1⟩, ⟨3, F64.lit 1 1⟩])
          (F64.ofInt ([⟨1, F64.lit 1 1⟩, ⟨2, F64.lit 2 1⟩, ⟨3, F64.lit 1 1⟩] :
            List Shard).length)) 100 0 (2 ^ 2)
        (goSort (mkGens (highbitsOf (2 ^ 2)) 0
          [⟨1, F64.lit 1 1⟩, ⟨2, F64.lit 2 1⟩, ⟨3, F64.lit 1 1⟩])) with
  | error e => rw [h] at hex; simp at hex
  | ok p =>
    obtain ⟨rest, quotas⟩ := p
    exact ⟨rest, quotas, placement_never_ends_on_zero_average.2 amd64 goSort goSort_sorts
      [⟨1, F64.lit 1 1⟩, ⟨2, F64.lit 2 1⟩, ⟨3, F64.lit 1 1⟩] (by decide) 2
      (by decide) (by decide!) (by decide!) 100 rest quotas h 4 13 (by decide) (by decide)⟩
/-- C17 (the code fails the claim at `tableSize = 1`). At `tableSize = 1` the divisor
`highbits = (2^64 - 1)/1 + 1` wraps around to 0 in `uint64` and the first division by it
panics, whatever the hash; for `tableSize = 2^k` with `1 ≤ k ≤ 62` it is `2^(64-k)`, which
is `2^64 / tableSize`, and `x / highbits` lies in `[0, tableSize)` for every 64-bit `x`. -/
theorem highbits_projection :
    (highbitsOf 1 = 0 ∧
      ∀ (sortSlice : List shardGen → List shardGen) (fuel x : Nat),
        BuildTable sortSlice fuel [⟨x, F64.lit 1 1⟩] 1 =
          .panic "runtime error: integer divide by zero") ∧
    ∀ k : Nat, 1 ≤ k → k ≤ 62 →
      highbitsOf ((2 : Int) ^ k) = 2 ^ (64 - k) ∧ 2 ^ (64 - k) * 2 ^ k = 2 ^ 64 ∧
        ∀ x : Nat, x < 2 ^ 64 → x / highbitsOf ((2 : Int) ^ k) < 2 ^ k := by
  have h0 : highbitsOf 1 = 0 := by decide
  refine ⟨⟨h0, ?_⟩, ?_⟩
  · intro sortSlice fuel x
    have hg : ¬ ((1 : Int) ≤ 0 ∨ and64 1 (wrap (1 - 1)) ≠ 0) := by decide
    have hw : F64.lt (F64.lit 1 1) F64.zero = false := by decide!
    unfold BuildTable buildRun
    rw [if_neg hg, h0]
    simp only [setupLoop, hw]
    simp
  · intro k h1 h2
    refine ⟨highbits_pow k h1 h2, ?_, ?_⟩
    · rw [← pow_add]
      have : 64 - k + k = 64 := by omega
      rw [this]
    · intro x hx
      exact project_lt k h1 h2 x (by norm_num at hx; exact hx)

/-- C17 at `tableSize = 1024`. -/
theorem highbits_projection_witness :
    highbitsOf ((2 : Int) ^ 10) = 2 ^ (64 - 10) ∧ 2 ^ (64 - 10) * 2 ^ 10 = 2 ^ 64 ∧
      ∀ x : Nat, x < 2 ^ 64 → x / highbitsOf ((2 : Int) ^ 10) < 2 ^ 10 :=
  highbits_projection.2 10 (by decide) (by decide)

/-- C18, refuted by the code. For the weights 0 and 5e-324 the average of line 84 rounds
to zero, the accumulator 0 of the first shard reaches it, and `int(0/0)` is a value the
implementation chooses: where a NaN converts to the largest `int`, `BuildTable` at
`tableSize = 2` returns `[0, 0]`, both slots owned by the shard of weight zero. And on
every implementation, for at most 65535 shards: when the average is not zero, a shard of
weight zero owns no slot of a table that `BuildTable` returns. -/
theorem zero_weight_shard_owns_every_slot :
    ((zeroFirstShards[0]? = some ⟨1, F64.zero⟩ ∧
      (∀ s ∈ zeroFirstShards, F64.lt s.Weight F64.zero = false) ∧
      F64.isZero (sumWeights F64.zero zeroFirstShards) = false ∧
      F64.isZero (F64.div (sumWeights F64.zero zeroFirstShards)
        (F64.ofInt zeroFirstShards.length)) = true) ∧
      ∀ fuel, 4 ≤ fuel →
        BuildTableWith nanMax goSort fuel zeroFirstShards 2 = .table [0, 0]) ∧
    ∀ (impl : F64 → Int) (sortSlice : List shardGen → List shardGen),
      SortsByHash sortSlice → ∀ (fuel : Nat) (shards : List Shard),
      shards.length ≤ 65535 → ∀ (tableSize : Int) (t : Table),
      BuildTableWith impl sortSlice fuel shards tableSize = .table t →
      F64.isZero (F64.div (sumWeights F64.zero shards) (F64.ofInt shards.length)) = false →
      ∀ (i : Nat) (s : Shard), shards[i]? = some s → F64.isZero s.Weight = true → i ∉ t := by
  refine ⟨⟨⟨rfl, by decide!, tiny_facts.2.2.1, tiny_facts.2.2.2⟩, zeroFirst_table⟩, ?_⟩
  intro impl sortSlice hs fuel shards hn tableSize t h hnz i s hi h0
  exact zero_weight_with impl sortSlice hs fuel shards hn tableSize t h hnz i s hi h0

/-- C18 at the shards with hashes 1, 2, 3 and weights 1, 0, 1, `tableSize = 4`, on amd64:
the table is `[0, 2, 0, 0]` and position 1 does not occur in it. -/
theorem zero_weight_shard_owns_every_slot_witness : 1 ∉ ([0, 2, 0, 0] : Table) :=
  zero_weight_shard_owns_every_slot.2 amd64 goSort goSort_sorts 100
    [⟨1, F64.lit 1 1⟩, ⟨2, F64.zero⟩, ⟨3, F64.lit 1 1⟩] (by decide) 4 [0, 2, 0, 0]
    (by decide!) (by decide!) 1 ⟨2, F64.zero⟩ rfl rfl

end Maglev
